import Mathlib

/-!
# Verification of the co-simulation harness (UART bit driver and hex loader)

Shallow embedding of `src/top.cc` (class `UARTBitDriver`, the control loop of
`main` with its pending-byte queue, the program copy into the model memory,
the output paths, the signal handler and the monitor thread), of
`src/sim/libSimHelper.cc` (`init`, `validate_and_load_binary`, `load_elf`) and
of the test programs in `src/sw` (`printint`, `matmul`, `argmax_int32`).

Machine integers are natural numbers (or integers for `int`), reduced modulo
`2^w` at the places where the C arithmetic can leave the range of the type.
-/

/-! ## Part 1. Definitions -/

/-- Subtraction of two `uint64_t` values, as C computes it (modulo `2^64`). -/
def sub64 (a b : Nat) : Nat := (a + 2 ^ 64 - b) % 2 ^ 64

/-- Increment of a `uint64_t` value (`x++`, modulo `2^64`). -/
def inc64 (a : Nat) : Nat := (a + 1) % 2 ^ 64

/-- The fields of `class UARTBitDriver` (`src/top.cc`, lines 97-111). -/
structure UARTBitDriver where
  /-- Field `uint64_t cycle_counter`. -/
  cycle_counter : Nat
  /-- Field `uint64_t cycles_per_bit`. -/
  cycles_per_bit : Nat
  /-- Field `uint8_t tx_byte`. -/
  tx_byte : Nat
  /-- Field `int tx_bit_index`: -1 idle, 0 start, 1-8 data, 9 stop. -/
  tx_bit_index : Int
  /-- Field `uint64_t tx_bit_start_cycle`. -/
  tx_bit_start_cycle : Nat
  /-- Field `int rx_bit_index`: -1 idle, 0 start, 1-8 data, 9 stop. -/
  rx_bit_index : Int
  /-- Field `uint64_t rx_bit_start_cycle`. -/
  rx_bit_start_cycle : Nat
  /-- Field `uint8_t rx_byte`. -/
  rx_byte : Nat
  /-- Field `bool rx_line_prev`. -/
  rx_line_prev : Bool
  deriving DecidableEq, Repr

namespace UARTBitDriver

/-- The constructor (`src/top.cc`, lines 114-123).  `tx_byte` has no
initialiser in the source, so its initial content is a parameter. -/
def init (clk_freq baud_rate tx_byte0 : Nat) : UARTBitDriver :=
  { cycle_counter := 0
    cycles_per_bit := clk_freq / baud_rate
    tx_byte := tx_byte0
    tx_bit_index := -1
    tx_bit_start_cycle := 0
    rx_bit_index := -1
    rx_bit_start_cycle := 0
    rx_byte := 0
    rx_line_prev := true }

/-- Method `void tick()`: `cycle_counter++` on a `uint64_t`. -/
def tick (s : UARTBitDriver) : UARTBitDriver :=
  { s with cycle_counter := inc64 s.cycle_counter }

/-- Method `bool start_tx(uint8_t byte)`: the returned flag and the state left. -/
def start_tx (s : UARTBitDriver) (byte : Nat) : Bool × UARTBitDriver :=
  if s.tx_bit_index ≠ -1 then (false, s)
  else
    (true, { s with tx_byte := byte
                    tx_bit_index := 0
                    tx_bit_start_cycle := s.cycle_counter })

/-- The first half of `get_tx_line` for a transmitter that is not idle: the
advance to the next bit once `cycles_per_bit` cycles have elapsed
(`src/top.cc`, lines 143-151). -/
def tx_advance (s : UARTBitDriver) : UARTBitDriver :=
  if sub64 s.cycle_counter s.tx_bit_start_cycle ≥ s.cycles_per_bit then
    let idx := s.tx_bit_index + 1
    { s with tx_bit_index := if idx ≥ 10 then -1 else idx
             tx_bit_start_cycle := s.cycle_counter }
  else s

/-- Method `bool get_tx_line()`: the level returned and the state left. -/
def get_tx_line (s : UARTBitDriver) : Bool × UARTBitDriver :=
  if s.tx_bit_index = -1 then (true, s)
  else
    let s1 := tx_advance s
    if s1.tx_bit_index = 0 then (false, s1)
    else if 1 ≤ s1.tx_bit_index ∧ s1.tx_bit_index ≤ 8 then
      (decide ((s1.tx_byte >>> (s1.tx_bit_index - 1).toNat) &&& 1 ≠ 0), s1)
    else (true, s1)

/-- Method `bool is_idle()`. -/
def is_idle (s : UARTBitDriver) : Bool := decide (s.tx_bit_index = -1)

/-- The start-bit detection at the head of `sample_rx` and the update of
`rx_line_prev` (`src/top.cc`, lines 162-168). -/
def rx_detect (s : UARTBitDriver) (rx_line : Bool) : UARTBitDriver :=
  let s1 :=
    if s.rx_bit_index = -1 ∧ s.rx_line_prev = true ∧ rx_line = false then
      { s with rx_bit_index := 0
               rx_bit_start_cycle := s.cycle_counter
               rx_byte := 0 }
    else s
  { s1 with rx_line_prev := rx_line }

/-- The midpoint sampling block of `sample_rx` (`src/top.cc`, lines 174-196).
The flag is `true` when the block leaves `sample_rx` by one of its two
framing-error `return false` statements. -/
def rx_midpoint (s : UARTBitDriver) (rx_line : Bool) (bit_elapsed : Nat) :
    Bool × UARTBitDriver :=
  if bit_elapsed ≥ s.cycles_per_bit / 2 ∧ bit_elapsed < s.cycles_per_bit / 2 + 1 then
    if s.rx_bit_index = 0 then
      if rx_line then (true, { s with rx_bit_index := -1 }) else (false, s)
    else if 1 ≤ s.rx_bit_index ∧ s.rx_bit_index ≤ 8 then
      if rx_line then
        (false, { s with rx_byte :=
                    (s.rx_byte ||| (1 <<< (s.rx_bit_index - 1).toNat)) % 256 })
      else (false, s)
    else if s.rx_bit_index = 9 then
      if rx_line = false then (true, { s with rx_bit_index := -1 }) else (false, s)
    else (false, s)
  else (false, s)

/-- Method `bool sample_rx(bool rx_line, uint8_t* byte_out)`.  The second argument is
the content of `*byte_out` before the call; the result is the returned flag,
the content of `*byte_out` after the call, and the state left.  The `printf`
of the start-bit framing error writes to standard output only and is not part
of the result. -/
def sample_rx (s : UARTBitDriver) (rx_line : Bool) (byte_out : Nat) :
    Bool × Nat × UARTBitDriver :=
  let s1 := rx_detect s rx_line
  if s1.rx_bit_index = -1 then (false, byte_out, s1)
  else
    let bit_elapsed := sub64 s1.cycle_counter s1.rx_bit_start_cycle
    let m := rx_midpoint s1 rx_line bit_elapsed
    if m.1 then (false, byte_out, m.2)
    else
      let s2 := m.2
      if bit_elapsed ≥ s2.cycles_per_bit then
        let s3 := { s2 with rx_bit_index := s2.rx_bit_index + 1
                            rx_bit_start_cycle := s2.cycle_counter }
        if s3.rx_bit_index ≥ 10 then
          (true, s3.rx_byte, { s3 with rx_bit_index := -1 })
        else (false, byte_out, s3)
      else (false, byte_out, s2)

/-- Every field holds a value of its C type. -/
def WF (s : UARTBitDriver) : Prop :=
  s.cycle_counter < 2 ^ 64 ∧ s.cycles_per_bit < 2 ^ 64 ∧ s.tx_byte < 256 ∧
  s.tx_bit_start_cycle < 2 ^ 64 ∧ s.rx_bit_start_cycle < 2 ^ 64 ∧ s.rx_byte < 256

instance (s : UARTBitDriver) : Decidable (WF s) := by
  unfold WF; infer_instance

end UARTBitDriver

namespace UARTBitDriver

/-- The transmitter polled once per cycle: call `k` of `get_tx_line` (the
first call, `k = 0`, in the cycle the run starts in, a `tick` before each later
call).  The result is the level returned by call `k` and the state it left. -/
def tx_run (s : UARTBitDriver) : Nat → Bool × UARTBitDriver
  | 0 => get_tx_line s
  | k + 1 => get_tx_line (tick (tx_run s k).2)

/-- The level a frame carrying `v` presents `k` cycles after `start_tx`, with
`C` cycles per bit: start bit, data bits least significant first, stop bit,
then idle. -/
def frame_level (C v k : Nat) : Bool :=
  if k < C then false
  else if k < 9 * C then v.testBit (k / C - 1)
  else true

end UARTBitDriver

namespace UARTBitDriver

/-- The level the transmitter presents while `tx_bit_index = i`
(`src/top.cc`, lines 153-157). -/
def bit_level (v i : Nat) : Bool :=
  if i = 0 then false else if i ≤ 8 then v.testBit (i - 1) else true

/-- Transmit-side position inside a frame: bit `i` of the frame carrying `v`
has been on the line for `e` cycles. -/
def TxAt (C v i e : Nat) (s : UARTBitDriver) : Prop :=
  s.cycles_per_bit = C ∧ s.tx_byte = v ∧ s.tx_bit_index = (i : Int) ∧
  sub64 s.cycle_counter s.tx_bit_start_cycle = e ∧
  s.cycle_counter < 2 ^ 64 ∧ s.tx_bit_start_cycle < 2 ^ 64

end UARTBitDriver

namespace UARTBitDriver

/-- The receiver sampled once per cycle on the line trace `line`: call `k` of
`sample_rx` gets the level `line k` (the first call, `k = 0`, in the cycle the
run starts in, a `tick` before each later call).  The result is the flag
returned by call `k`, the content of the output byte after it, and the state
it left. -/
def rx_run (s : UARTBitDriver) (line : Nat → Bool) (out : Nat) :
    Nat → Bool × Nat × UARTBitDriver
  | 0 => sample_rx s (line 0) out
  | k + 1 =>
    sample_rx (tick (rx_run s line out k).2.2) (line (k + 1)) (rx_run s line out k).2.1

/-- The data bits accumulated by a receiver that is `e` cycles into bit `i` of
a frame on the trace `line`: data bit `j` is set exactly when its midpoint
`(j+1)*C + C/2` has been passed and the line was high there. -/
def RxBits (C : Nat) (line : Nat → Bool) (i e byte : Nat) : Prop :=
  ∀ j, byte.testBit j =
    (decide (j < 8 ∧ (j + 1 < i ∨ (j + 1 = i ∧ C / 2 ≤ e))) && line ((j + 1) * C + C / 2))

/-- Receive-side position inside a frame: the receiver is `e` cycles into bit
`i` of a frame whose levels are given by `line` (cycle 0 is the falling edge). -/
def RxAt (C : Nat) (line : Nat → Bool) (i e : Nat) (s : UARTBitDriver) : Prop :=
  s.cycles_per_bit = C ∧ s.rx_bit_index = (i : Int) ∧
  sub64 s.cycle_counter s.rx_bit_start_cycle = e ∧
  s.cycle_counter < 2 ^ 64 ∧ s.rx_bit_start_cycle < 2 ^ 64 ∧
  s.rx_line_prev = line (i * C + e) ∧ RxBits C line i e s.rx_byte

/-- The state `sample_rx` is entered with one cycle after a state at position
`(i, e)`: the counter has been ticked, the receive fields are as they were. -/
def RxPre (C : Nat) (line : Nat → Bool) (i e : Nat) (t : UARTBitDriver) : Prop :=
  t.cycles_per_bit = C ∧ t.rx_bit_index = (i : Int) ∧
  sub64 t.cycle_counter t.rx_bit_start_cycle = e + 1 ∧
  t.cycle_counter < 2 ^ 64 ∧ t.rx_bit_start_cycle < 2 ^ 64 ∧
  RxBits C line i e t.rx_byte

/-- Two states agree on everything `sample_rx` reads. -/
def rxSame (a b : UARTBitDriver) : Prop :=
  a.cycle_counter = b.cycle_counter ∧ a.cycles_per_bit = b.cycles_per_bit ∧
  a.rx_bit_index = b.rx_bit_index ∧ a.rx_bit_start_cycle = b.rx_bit_start_cycle ∧
  a.rx_byte = b.rx_byte ∧ a.rx_line_prev = b.rx_line_prev

end UARTBitDriver

namespace UARTBitDriver

/-- Observation of a `sample_rx` call: `true` when the call leaves through one
of the two framing-error `return false` statements (`src/top.cc`, lines 181
and 193). -/
def rx_framing_error (s : UARTBitDriver) (rx_line : Bool) : Bool :=
  let s1 := rx_detect s rx_line
  if s1.rx_bit_index = -1 then false
  else (rx_midpoint s1 rx_line (sub64 s1.cycle_counter s1.rx_bit_start_cycle)).1

end UARTBitDriver

/-- The loopback run of the control loop's UART steps (`src/top.cc`, lines
342, 382-389, 411-417): the driver, the bytes still waiting to be sent, the
bytes `sample_rx` has emitted so far (in order), and the number of `sample_rx`
calls that ended in a framing error. -/
structure Loopback where
  drv : UARTBitDriver
  pending : List Nat
  received : List Nat
  framing_errors : Nat

namespace Loopback

/-- The part of a loopback cycle after the `start_tx` decision, on the driver
`d2` and the pending list `pend` that decision left: `get_tx_line`, then
`sample_rx` on the level `get_tx_line` returned.  The local `rx_byte` of `main`
has no initialiser; its content before the call is taken as 0 and is only read
after `sample_rx` returned true. -/
def finish (d2 : UARTBitDriver) (pend : List Nat) (L : Loopback) : Loopback :=
  let tx := d2.get_tx_line
  let err := tx.2.rx_framing_error tx.1
  let rx := tx.2.sample_rx tx.1 0
  { drv := rx.2.2
    pending := pend
    received := if rx.1 then L.received ++ [rx.2.1] else L.received
    framing_errors := if err then L.framing_errors + 1 else L.framing_errors }

/-- One cycle of the loopback: `tick`, then `start_tx` of the next pending
byte if `is_idle`, then `get_tx_line` and `sample_rx` (`finish`). -/
def loop_cycle (L : Loopback) : Loopback :=
  let d1 := L.drv.tick
  match L.pending with
  | [] => finish d1 [] L
  | b :: rest =>
    if d1.is_idle then finish (d1.start_tx b).2 rest L else finish d1 (b :: rest) L

/-- The loopback after `n` cycles. -/
def loop_run (L : Loopback) : Nat → Loopback
  | 0 => L
  | n + 1 => loop_cycle (loop_run L n)

/-- The loopback state the constructor and a list of bytes to send give. -/
def start (d : UARTBitDriver) (b : List Nat) : Loopback :=
  { drv := d, pending := b, received := [], framing_errors := 0 }

end Loopback

namespace UARTBitDriver

/-- Both directions are idle and the receiver last saw the line high. -/
def Ready (C : Nat) (d : UARTBitDriver) : Prop :=
  d.cycles_per_bit = C ∧ d.tx_bit_index = -1 ∧ d.rx_bit_index = -1 ∧
  d.rx_line_prev = true ∧ d.cycle_counter < 2 ^ 64

end UARTBitDriver

namespace UARTBitDriver

/-- Both directions are `k` cycles into the same frame carrying `v`, the
receiver reading the levels the transmitter presents. -/
def InFrame (C v k : Nat) (d : UARTBitDriver) : Prop :=
  TxAt C v (k / C) (k % C) d ∧ RxAt C (frame_level C v) (k / C) (k % C) d

end UARTBitDriver

/-! ### The hex loader (`src/sim/libSimHelper.cc`)

A file is the list of its bytes.  Bytes are written as numbers: 10 `\n`,
13 `\r`, 9 `\t`, 32 space, 35 `#`, 47 `/`, 64 `@`, 48 `0`, 120 `x`, 88 `X`,
45 `-`, 43 `+`. -/

namespace Loader

/-- C `isspace` in the C locale: space, `\t`, `\n`, `\v`, `\f`, `\r`. -/
def isspace (c : Nat) : Bool := decide (c = 32 ∨ (9 ≤ c ∧ c ≤ 13))

/-- The value of a hexadecimal digit character, `none` for any other byte. -/
def hex_digit (c : Nat) : Option Nat :=
  if 48 ≤ c ∧ c ≤ 57 then some (c - 48)
  else if 97 ≤ c ∧ c ≤ 102 then some (c - 87)
  else if 65 ≤ c ∧ c ≤ 70 then some (c - 55)
  else none

/-- C `isxdigit`. -/
def is_hex (c : Nat) : Bool := (hex_digit c).isSome

/-- The number a run of hexadecimal digits denotes. -/
def hex_value (ds : List Nat) : Nat :=
  ds.foldl (fun acc c => acc * 16 + (hex_digit c).getD 0) 0

/-- The optional sign `%x` accepts: whether it is a minus sign, the number of
characters it takes, and what follows it. -/
def scan_sign (s1 : List Nat) : Bool × Nat × List Nat :=
  if s1.head? = some 45 then (true, 1, s1.tail)
  else if s1.head? = some 43 then (false, 1, s1.tail)
  else (false, 0, s1)

/-- The optional `0x` or `0X` in front of the digits: the number of characters
it takes and what follows it. -/
def scan_base (s2 : List Nat) : Nat × List Nat :=
  if s2.head? = some 48 ∧ (s2.tail.head? = some 120 ∨ s2.tail.head? = some 88) then
    (2, s2.tail.tail)
  else (0, s2)

/-- The C library call `sscanf(s, "%x%n", &value, &chars_read)` (glibc): white
space is skipped, then an optional sign, an optional `0x` or `0X`, and the
longest run of hexadecimal digits are read.  The result is `none` when no
conversion takes place (the call does not return 1), else the value stored in
the `unsigned int` and the number of bytes consumed.  The digits are converted
as by `strtoul` (saturating at `2^64 - 1`, negated modulo `2^64` after a minus
sign) and the result is truncated to 32 bits. -/
def scan_hex (s : List Nat) : Option (Nat × Nat) :=
  let ws := s.takeWhile isspace
  let sign := scan_sign (s.dropWhile isspace)
  let pre := scan_base sign.2.2
  let ds := pre.2.takeWhile is_hex
  if pre.1 = 0 ∧ ds = [] then none
  else
    let raw := hex_value ds
    let v64 :=
      if raw ≥ 2 ^ 64 then 2 ^ 64 - 1
      else if sign.1 then (2 ^ 64 - raw) % 2 ^ 64 else raw
    some (v64 % 2 ^ 32, ws.length + sign.2.1 + pre.1 + ds.length)

/-- The characters `fgets` stores for one call with room for `n` of them: it
stops after a newline or when `n` characters are stored.  The result is the
characters stored and the rest of the file. -/
def read_line : Nat → List Nat → List Nat × List Nat
  | 0, f => ([], f)
  | _ + 1, [] => ([], [])
  | n + 1, c :: f =>
    if c = 10 then ([c], f)
    else ((c :: (read_line n f).1), (read_line n f).2)

/-- The call `fgets(line, 256, hex_fp)`: `none` at end of file, else the line read
(at most 255 characters) and the rest of the file. -/
def fgets (file : List Nat) : Option (List Nat × List Nat) :=
  match file with
  | [] => none
  | _ :: _ => some (read_line 255 file)

/-- The C string a character array holds: the characters before the first
NUL. -/
def cstr (l : List Nat) : List Nat := l.takeWhile (fun c => decide (c ≠ 0))

/-- The white space the data loop skips (`src/sim/libSimHelper.cc`, line 105):
space, `\t`, `\r`, `\n`. -/
def is_blank (c : Nat) : Bool := decide (c = 32 ∨ c = 9 ∨ c = 13 ∨ c = 10)

/-- One data token as the loader met it: the cursor before the write, the
number of bytes to write and the value. -/
structure Token where
  addr : Nat
  size : Nat
  value : Nat
  deriving DecidableEq, Repr

/-- The variables of `validate_and_load_binary`: the destination buffer
(index to byte), `uint32_t current_addr`, `uint32_t max_addr`.  The field
`tokens` is not a program variable: it records, in order, every data token the
loader has reached its bounds check with. -/
structure LoadState where
  buffer : Nat → Nat
  current_addr : Nat
  max_addr : Nat
  tokens : List Token

/-- How a run of the loader ends: `ok`, or one of its four `return -1`. -/
inductive Status where
  | ok
  | cannot_open
  | bad_directive
  | out_of_bounds
  | no_data
  deriving DecidableEq, Repr

/-- Addition of a `uint32_t` and an `int` that is not negative, as C computes
it (in `unsigned int`, modulo `2^32`). -/
def add32 (a b : Nat) : Nat := (a + b) % 2 ^ 32

/-- The little-endian write loop (`src/sim/libSimHelper.cc`, lines 142-144)
for `i = 0 .. n-1`: `buffer[current_addr + i] = (value >> (i * 8)) & 0xFF`, the
index computed in `uint32_t`. -/
def write_le (buffer : Nat → Nat) (addr value : Nat) : Nat → Nat → Nat
  | 0 => buffer
  | n + 1 =>
    Function.update (write_le buffer addr value n) (add32 addr n)
      ((value >>> (n * 8)) &&& 0xFF)

/-- The value of `bytes_to_write` for a number of hex digits (lines 125-132). -/
def bytes_for (num_hex_digits : Int) : Nat :=
  if num_hex_digits ≤ 2 then 1 else if num_hex_digits ≤ 4 then 2 else 4

/-- The number of hex digits of a token (`src/sim/libSimHelper.cc`, lines
117-123): the characters read, less two when the token starts with `0x` or
`0X`.  `c` is the first character of the token and `rest` what follows it. -/
def digit_count (c : Nat) (rest : List Nat) (chars_read : Nat) : Int :=
  if c = 48 ∧ (rest.head? = some 120 ∨ rest.head? = some 88) then (chars_read : Int) - 2
  else (chars_read : Int)

/-- What the data loop does with one token after `sscanf` read it
(`src/sim/libSimHelper.cc`, lines 125-149): the write size, the bounds check,
the little-endian write and the update of `current_addr` and `max_addr`. -/
def token_step (buffer_size : Nat) (st : LoadState) (value : Nat) (num_hex_digits : Int) :
    Status × LoadState :=
  let bytes_to_write := bytes_for num_hex_digits
  let logged := st.tokens ++ [⟨st.current_addr, bytes_to_write, value⟩]
  if add32 st.current_addr bytes_to_write > buffer_size then
    (Status.out_of_bounds, { st with tokens := logged })
  else
    let cur := add32 st.current_addr bytes_to_write
    (Status.ok,
      { buffer := write_le st.buffer st.current_addr value bytes_to_write
        current_addr := cur
        max_addr := if cur > st.max_addr then cur else st.max_addr
        tokens := logged })

/-- The data loop over one line (`src/sim/libSimHelper.cc`, lines 102-156).
The first argument bounds the number of iterations; every iteration consumes
at least one character, so the length of the line plus one is enough. -/
def parse_data (buffer_size : Nat) : Nat → List Nat → LoadState → Status × LoadState
  | 0, _, st => (Status.ok, st)
  | fuel + 1, ptr, st =>
    match ptr.dropWhile is_blank with
    | [] => (Status.ok, st)
    | c :: rest =>
      match scan_hex (c :: rest) with
      | some (value, chars_read) =>
        match token_step buffer_size st value (digit_count c rest chars_read) with
        | (Status.ok, st1) => parse_data buffer_size fuel ((c :: rest).drop chars_read) st1
        | r => r
      | none => parse_data buffer_size fuel rest st

/-- The `while (fgets ...)` loop (`src/sim/libSimHelper.cc`, lines 84-157).
The first argument bounds the number of lines read; every `fgets` consumes at
least one character, so the length of the file is enough. -/
def load_lines (buffer_size : Nat) : Nat → List Nat → LoadState → Status × LoadState
  | 0, _, st => (Status.ok, st)
  | fuel + 1, file, st =>
    match fgets file with
    | none => (Status.ok, st)
    | some (raw, rest) =>
      let line := cstr raw
      if line.head? = some 10 ∨ line.head? = some 13 ∨ line.head? = some 35 ∨
          line.head? = some 47 then
        load_lines buffer_size fuel rest st
      else if line.head? = some 64 then
        match scan_hex line.tail with
        | some (a, _) => load_lines buffer_size fuel rest { st with current_addr := a }
        | none => (Status.bad_directive, st)
      else
        match parse_data buffer_size (line.length + 1) line st with
        | (Status.ok, st1) => load_lines buffer_size fuel rest st1
        | r => r

/-- The whole run of `validate_and_load_binary` on the content of the hex file
(`none` when it cannot be opened): the way it ends and the final variables. -/
def load_image (file : Option (List Nat)) (buffer : Nat → Nat) (buffer_size : Nat) :
    Status × LoadState :=
  match file with
  | none => (Status.cannot_open, ⟨buffer, 0, 0, []⟩)
  | some f =>
    match load_lines buffer_size (f.length + 1) f ⟨buffer, 0, 0, []⟩ with
    | (Status.ok, st) => if st.max_addr = 0 then (Status.no_data, st) else (Status.ok, st)
    | r => r

/-- The conversion `(int)max_addr` of a `uint32_t`. -/
def to_int32 (n : Nat) : Int := if n < 2 ^ 31 then (n : Int) else (n : Int) - 2 ^ 32

/-- Function `int validate_and_load_binary(bin_filename, disasm_filename, buffer,
buffer_size)`: the value returned and the buffer left.  `disasm_filename` is
not used by the function. -/
def validate_and_load_binary (file : Option (List Nat)) (buffer : Nat → Nat)
    (buffer_size : Nat) : Int × (Nat → Nat) :=
  match load_image file buffer buffer_size with
  | (Status.ok, st) => (to_int32 st.max_addr, st.buffer)
  | (_, st) => (-1, st.buffer)

/-- A file given as text. -/
def bytes (s : String) : List Nat := s.toList.map Char.toNat

end Loader

namespace Loader

/-- The write size the specification gives for a data token of `d` hex digits:
one byte for 1-2 digits, two for 3-4, four for 5-8. -/
def spec_size (d : Nat) : Nat := if d ≤ 2 then 1 else if d ≤ 4 then 2 else 4

end Loader

namespace Loader

/-- The largest cursor value reached after any of the token writes `ts` (the
highest end address), 0 when there is none. -/
def max_end (ts : List Token) : Nat :=
  ts.foldl (fun m t => max m (t.addr + t.size)) 0

/-- The loader's `max_addr` is the highest end address of the tokens met so
far, and every token has at least one byte. -/
def Tracked (st : LoadState) : Prop :=
  st.max_addr = max_end st.tokens ∧ ∀ t ∈ st.tokens, 1 ≤ t.size

end Loader

namespace Loader

/-- The loop of `init()` (`src/sim/libSimHelper.cc`, lines 11-16) after its
first `k` iterations (`i = 0, 4, .., 4*(k-1)`): each stores the four bytes of
`ebreak`, least significant first, at `imem[i] .. imem[i+3]`. -/
def init_words (ebreak : Nat) : Nat → (Nat → Nat) → (Nat → Nat)
  | 0, imem => imem
  | k + 1, imem =>
    Function.update
      (Function.update
        (Function.update
          (Function.update (init_words ebreak k imem)
            (4 * k + 0) ((ebreak >>> 0) &&& 0xFF))
          (4 * k + 1) ((ebreak >>> 8) &&& 0xFF))
        (4 * k + 2) ((ebreak >>> 16) &&& 0xFF))
      (4 * k + 3) ((ebreak >>> 24) &&& 0xFF)

/-- Function `void init()`: the loop runs for `i = 0, 4, ..` below `0x1000000`,
that is `0x400000` times, with `ebreak = 0x00100073`. -/
def init (imem : Nat → Nat) : Nat → Nat := init_words 0x00100073 0x400000 imem

/-- The trap pattern the specification names: byte `i mod 4` of the
little-endian EBREAK word, `0x73, 0x00, 0x10, 0x00`. -/
def trap_byte (i : Nat) : Nat :=
  if i % 4 = 0 then 0x73 else if i % 4 = 1 then 0x00 else if i % 4 = 2 then 0x10 else 0x00

/-- What the loader never undoes, relative to the buffer `b0` it started from:
the cursor is a 32-bit value, `max_addr` is within the capacity `B`, and every
byte at or above `max_addr` (and below `2^32 - 4`) is as in `b0`. -/
def Untouched (B : Nat) (b0 : Nat → Nat) (st : LoadState) : Prop :=
  st.current_addr < 2 ^ 32 ∧ st.max_addr ≤ B ∧
  ∀ j, st.max_addr ≤ j → j < 2 ^ 32 - 4 → st.buffer j = b0 j

end Loader

/-! ### The pending-byte queue of the control loop (`src/top.cc`, lines 335-336,
364-369, 376-385) -/

/-- The queue variables of `main`: `uint8_t rx_fifo[256]` (index to byte) and
the two `int` indices, which are never negative. -/
structure Fifo where
  rx_fifo : Nat → Nat
  rx_fifo_head : Nat
  rx_fifo_tail : Nat

namespace Fifo

/-- The queue at the start of `main`: `rx_fifo_head = 0, rx_fifo_tail = 0`; the
array has no initialiser, its content is a parameter. -/
def empty (arr : Nat → Nat) : Fifo := ⟨arr, 0, 0⟩

/-- Queueing a byte for transmission (`src/top.cc`, lines 365-369). -/
def enqueue (ch : Nat) (q : Fifo) : Fifo :=
  let next_tail := (q.rx_fifo_tail + 1) % 256
  if next_tail ≠ q.rx_fifo_head then
    { q with rx_fifo := Function.update q.rx_fifo q.rx_fifo_tail ch
             rx_fifo_tail := next_tail }
  else q

/-- Whether `enqueue` stores the byte (`next_tail != rx_fifo_head`). -/
def accepts (q : Fifo) : Bool := decide ((q.rx_fifo_tail + 1) % 256 ≠ q.rx_fifo_head)

/-- Taking the next byte when the consumer is ready (`src/top.cc`, lines
376-380 and 382-385): nothing when `rx_fifo_head == rx_fifo_tail`, else the
byte `rx_fifo[rx_fifo_head]` and the head advanced modulo 256. -/
def dequeue (q : Fifo) : Option Nat × Fifo :=
  if q.rx_fifo_head ≠ q.rx_fifo_tail then
    (some (q.rx_fifo q.rx_fifo_head),
      { q with rx_fifo_head := (q.rx_fifo_head + 1) % 256 })
  else (none, q)

/-- Enqueuing the bytes of a list in sequence, with no dequeue in between. -/
def enqueue_all (bs : List Nat) (q : Fifo) : Fifo := bs.foldl (fun q b => enqueue b q) q

/-- The bytes the queue holds, in the order successive `dequeue`s return them
(at most `fuel` of them). -/
def drain : Nat → Fifo → List Nat
  | 0, _ => []
  | fuel + 1, q =>
    match dequeue q with
    | (some b, q2) => b :: drain fuel q2
    | (none, _) => []

/-- The array holds the list `l` from index `h` on, modulo 256. -/
def Reads (arr : Nat → Nat) : Nat → List Nat → Prop
  | _, [] => True
  | h, x :: l => arr (h % 256) = x ∧ Reads arr (h + 1) l

/-- The queue holds exactly the list `l`, oldest byte first. -/
def Holds (q : Fifo) (l : List Nat) : Prop :=
  l.length < 256 ∧ q.rx_fifo_head < 256 ∧
  q.rx_fifo_tail = (q.rx_fifo_head + l.length) % 256 ∧
  Reads q.rx_fifo q.rx_fifo_head l

/-- An operation on the queue: the producer offers a byte, or the consumer is
ready to take one. -/
inductive Op where
  | enq (b : Nat)
  | deq

/-- A queue with the record of the bytes accepted and the bytes dequeued so
far, in order. -/
structure Trace where
  q : Fifo
  accepted : List Nat
  dequeued : List Nat

/-- One operation on a traced queue. -/
def step (t : Trace) : Op → Trace
  | Op.enq b =>
    { q := enqueue b t.q
      accepted := if accepts t.q then t.accepted ++ [b] else t.accepted
      dequeued := t.dequeued }
  | Op.deq =>
    { q := (dequeue t.q).2
      accepted := t.accepted
      dequeued :=
        match (dequeue t.q).1 with
        | some b => t.dequeued ++ [b]
        | none => t.dequeued }

/-- A sequence of operations from the empty queue. -/
def run (arr : Nat → Nat) (ops : List Op) : Trace := ops.foldl step ⟨empty arr, [], []⟩

end Fifo

/-! ### The object-file loader (`load_elf`, `src/sim/libSimHelper.cc`)

The function runs two external commands through `system` and reads the files
they leave.  What the outside world gives is a parameter of the model. -/

namespace Loader

/-- Whether the string `s` starts with the string `p`. -/
def starts_with : List Nat → List Nat → Bool
  | _, [] => true
  | [], _ :: _ => false
  | c :: s, d :: p => c == d && starts_with s p

/-- The C library call `strstr(hay, needle) != NULL`: whether `needle` occurs
somewhere in `hay`. -/
def strstr : List Nat → List Nat → Bool
  | [], needle => starts_with [] needle
  | c :: hay, needle => starts_with (c :: hay) needle || strstr hay needle

/-- The external commands `load_elf` runs through `system`. -/
inductive Command where
  | nm
  | objcopy
  deriving DecidableEq, Repr

/-- What the outside world gives one call of `load_elf`: whether the two
`mkstemp` calls succeed, the content of the file the `nm` command line leaves
(`none` when it cannot be opened), the value `system` returns for the
`objcopy` command, the content of the extracted section file (`none` when it
cannot be opened) and the number of bytes `fread` delivers. -/
structure ElfWorld where
  mkstemp_text : Bool
  mkstemp_nm : Bool
  nm_output : Option (List Nat)
  objcopy_status : Int
  text_file : Option (List Nat)
  fread_count : Nat

/-- The result of `load_elf`: the value returned and the buffer left.  The
field `commands` is not a program value: it records, in order, the external
commands that were run. -/
structure ElfResult where
  ret : Int
  buffer : Nat → Nat
  commands : List Command

/-- The loop over the lines of the `nm` output (`src/sim/libSimHelper.cc`,
lines 203-213) on the variables `(found_start, start_addr)`: the first line
that contains `_start` and on which `sscanf(line, "%x", &start_addr)` converts
a number ends the loop.  The first argument bounds the number of lines read. -/
def find_start : Nat → List Nat → Bool × Nat → Bool × Nat
  | 0, _, r => r
  | fuel + 1, file, r =>
    match fgets file with
    | none => r
    | some (raw, rest) =>
      let line := cstr raw
      if strstr line (bytes "_start") then
        match scan_hex line with
        | some (a, _) => (true, a)
        | none => find_start fuel rest r
      else find_start fuel rest r

/-- The call `fread(buffer, 1, text_size, fp)` delivering `count` bytes of the
file `data`. -/
def fread (buffer : Nat → Nat) (data : List Nat) (count : Nat) : Nat → Nat :=
  fun i => if i < count then data.getD i 0 else buffer i

/-- Function `int load_elf(filename, buffer, buffer_size)`
(`src/sim/libSimHelper.cc`, lines 170-292). -/
def load_elf (w : ElfWorld) (buffer : Nat → Nat) (buffer_size : Nat) : ElfResult :=
  if w.mkstemp_text = false then ⟨-1, buffer, []⟩
  else if w.mkstemp_nm = false then ⟨-1, buffer, []⟩
  else
    match w.nm_output with
    | none => ⟨-1, buffer, [Command.nm]⟩
    | some listing =>
      let r := find_start (listing.length + 1) listing (false, 0xFFFFFFFF)
      if r.1 = false then ⟨-1, buffer, [Command.nm]⟩
      else if r.2 ≠ 0 then ⟨-1, buffer, [Command.nm]⟩
      else if w.objcopy_status ≠ 0 then ⟨-1, buffer, [Command.nm, Command.objcopy]⟩
      else
        match w.text_file with
        | none => ⟨-1, buffer, [Command.nm, Command.objcopy]⟩
        | some text =>
          let text_size := text.length
          if text_size = 0 ∨ text_size % 4 ≠ 0 then
            ⟨-1, buffer, [Command.nm, Command.objcopy]⟩
          else if text_size > buffer_size then
            ⟨-1, buffer, [Command.nm, Command.objcopy]⟩
          else
            let got := min w.fread_count text_size
            if got ≠ text_size then
              ⟨-1, fread buffer text got, [Command.nm, Command.objcopy]⟩
            else
              ⟨to_int32 (text_size % 2 ^ 32), fread buffer text got,
                [Command.nm, Command.objcopy]⟩

/-- The pieces of `s` between occurrences of the character `sep`. -/
def split_at (sep : Nat) : List Nat → List (List Nat)
  | [] => [[]]
  | c :: s =>
    if c = sep then [] :: split_at sep s
    else
      match split_at sep s with
      | [] => [[c]]
      | w :: ws => (c :: w) :: ws

/-- The address of a symbol in one line `address type name` of a symbol
listing, when the name of the line is exactly `name`. -/
def line_symbol (name : List Nat) (line : List Nat) : Option Nat :=
  match (split_at 32 line).filter (fun w => !w.isEmpty) with
  | [a, _, n] => if n = name then some (hex_value a) else none
  | _ => none

/-- The specification's reading of a symbol listing: the address the entry
symbol `_start` resolves to, `none` when no line of the listing defines a
symbol of that name. -/
def spec_entry_address (listing : List Nat) : Option Nat :=
  (split_at 10 listing).findSome? (line_symbol (bytes "_start"))

end Loader

/-! ### Copying the program into the model memory (`src/top.cc`, lines 312-318) -/

/-- The state of the copy loop: the loop variable `int i` and the model memory
`mem` (word index to word).  The fields `reads` and `writes` are not program
variables: they record the indices of the bytes of `imem` read and of the
words of `mem` written. -/
structure SramLoad where
  i : Nat
  mem : Nat → Nat
  reads : List Nat
  writes : List Nat

namespace SramLoad

/-- The word the loop body builds,
`imem[i] | imem[i+1] << 8 | imem[i+2] << 16 | imem[i+3] << 24`, as the
`uint32_t` it is stored in: the bits of the four bytes, modulo `2^32`. -/
def word (imem : Nat → Nat) (i : Nat) : Nat :=
  (imem (i + 0) ||| (imem (i + 1) <<< 8) ||| (imem (i + 2) <<< 16) ||| (imem (i + 3) <<< 24))
    % 2 ^ 32

/-- The loop `for (int i = 0; i < bytes_loaded && i < 0x1000000; i += 4)`.  The
first argument bounds the number of iterations. -/
def copy_loop (imem : Nat → Nat) (bytes_loaded : Int) : Nat → SramLoad → SramLoad
  | 0, s => s
  | fuel + 1, s =>
    if (s.i : Int) < bytes_loaded ∧ s.i < 0x1000000 then
      copy_loop imem bytes_loaded fuel
        { i := s.i + 4
          mem := Function.update s.mem (s.i >>> 2) (word imem s.i)
          reads := s.reads ++ [s.i + 0, s.i + 1, s.i + 2, s.i + 3]
          writes := s.writes ++ [s.i >>> 2] }
    else s

/-- The whole loop from `i = 0`; `0x400000` iterations reach `i = 0x1000000`. -/
def sram_load (imem : Nat → Nat) (bytes_loaded : Int) (mem : Nat → Nat) : SramLoad :=
  copy_loop imem bytes_loaded 0x400000 ⟨0, mem, [], []⟩

end SramLoad

/-! ### The control loop, the monitor thread and the cancellation flags (`src/top.cc`)

The hardware model `Vtop` is generated from the design and is not part of the
sources: the model below keeps the signals `main` reads and writes and treats
`eval` as an arbitrary function on the model's state. -/

/-- The signals of the hardware model that `main` and the monitor thread use;
`core` is the rest of the model's state (registers, memories). -/
structure Vtop (D : Type) where
  clk : Nat
  resetn : Nat
  rx : Bool
  par_rx : Nat
  par_rx_valid : Nat
  par_rx_ack : Bool
  par_tx_valid : Bool
  par_tx : Nat
  tx : Bool
  break_hit : Bool
  core : D

/-- The variables the control loop, the signal handler and the monitor thread
share or own: the flags `interrupted` and `ebreak_hit`, whether `global_dut`
points to the model, the model, the UART driver, `tick_count`, the
pending-byte queue, `time_counter` and `cycle`.  The field `host_out` records
the bytes written to the host with `putchar`. -/
structure Sim (D : Type) where
  interrupted : Nat
  ebreak_hit : Nat
  global_dut : Bool
  dut : Vtop D
  uart_driver : UARTBitDriver
  tick_count : Nat
  rx_fifo : Fifo
  time_counter : Int
  cycle : Int
  host_out : List Nat

/-- What the outside gives one iteration of the control loop: the value of
`Verilated::gotFinish()`, the value `n` returned by `read`, the byte `ch` read
(meaningful when `n > 0`) and the content of the local `rx_byte` before it is
assigned. -/
structure Host where
  gotFinish : Bool
  n : Int
  ch : Nat
  rx_byte : Nat

namespace Sim

variable {D : Type}

/-- Function `void signal_handler(int signum)` (`src/top.cc`, lines 61-66);
`SIGINT` is 2. -/
def signal_handler (signum : Int) (s : Sim D) : Sim D :=
  if signum = 2 then { s with interrupted := 1 } else s

/-- The condition of the monitor thread's loop: `!interrupted && !ebreak_hit`. -/
def monitor_cond (s : Sim D) : Bool := decide (s.interrupted = 0) && decide (s.ebreak_hit = 0)

/-- The body of the monitor thread's loop after `sleep(1)` (`src/top.cc`,
lines 73-79): the state left and whether `break` was executed. -/
def monitor_body (s : Sim D) : Sim D × Bool :=
  if s.global_dut = true ∧ s.dut.break_hit = true then ({ s with ebreak_hit := 1 }, true)
  else (s, false)

/-- One iteration of the loop of `ebreak_monitor_thread`: the state left and
whether the thread goes on to another iteration. -/
def monitor_iteration (s : Sim D) : Sim D × Bool :=
  if monitor_cond s then ((monitor_body s).1, !(monitor_body s).2) else (s, false)

/-- The condition of the control loop:
`!Verilated::gotFinish() && !interrupted && !ebreak_hit`. -/
def loop_cond (h : Host) (s : Sim D) : Bool :=
  !h.gotFinish && decide (s.interrupted = 0) && decide (s.ebreak_hit = 0)

/-- Lines 342-343: `uart_driver.tick(); tick_count++`. -/
def body_tick (s : Sim D) : Sim D :=
  { s with uart_driver := s.uart_driver.tick, tick_count := inc64 s.tick_count }

/-- Lines 356-370: the byte read from the host.  The flag is `true` when the
`break` of the Ctrl+D test is executed. -/
def body_read (h : Host) (s : Sim D) : Sim D × Bool :=
  if h.n > 0 then
    if h.ch = 4 then (s, true)
    else ({ s with rx_fifo := Fifo.enqueue h.ch s.rx_fifo }, false)
  else (s, false)

/-- Lines 372-386: one pending byte is handed to the model, on the parallel
path or by starting a serial transmission. -/
def body_feed (par_txrx : Bool) (s : Sim D) : Sim D :=
  if par_txrx then
    let dut1 := if s.dut.par_rx_ack then { s.dut with par_rx_valid := 0 } else s.dut
    if dut1.par_rx_valid = 0 ∧ s.rx_fifo.rx_fifo_head ≠ s.rx_fifo.rx_fifo_tail then
      { s with dut := { dut1 with par_rx := s.rx_fifo.rx_fifo s.rx_fifo.rx_fifo_head
                                  par_rx_valid := 1 }
               rx_fifo := { s.rx_fifo with
                 rx_fifo_head := (s.rx_fifo.rx_fifo_head + 1) % 256 } }
    else { s with dut := dut1 }
  else
    if s.rx_fifo.rx_fifo_head ≠ s.rx_fifo.rx_fifo_tail ∧ s.uart_driver.is_idle = true then
      { s with uart_driver :=
                 (s.uart_driver.start_tx (s.rx_fifo.rx_fifo s.rx_fifo.rx_fifo_head)).2
               rx_fifo := { s.rx_fifo with
                 rx_fifo_head := (s.rx_fifo.rx_fifo_head + 1) % 256 } }
    else s

/-- Lines 389-400: the serial input of the model is driven and the model is
evaluated on the two clock edges. -/
def body_clock (eval : Vtop D → Vtop D) (s : Sim D) : Sim D :=
  let line := s.uart_driver.get_tx_line
  let low := eval { s.dut with rx := line.1, clk := 0 }
  let high := eval { low with clk := 1 }
  { s with uart_driver := line.2, dut := high, time_counter := s.time_counter + 2 }

/-- Lines 405-423: the output of the model is sampled and a received byte is
written to the host. -/
def body_sample (par_txrx : Bool) (h : Host) (s : Sim D) : Sim D :=
  if par_txrx then
    if s.dut.par_tx_valid then { s with host_out := s.host_out ++ [s.dut.par_tx] } else s
  else
    let r := s.uart_driver.sample_rx s.dut.tx h.rx_byte
    if r.1 then { s with uart_driver := r.2.2, host_out := s.host_out ++ [r.2.1] }
    else { s with uart_driver := r.2.2 }

/-- Line 430: `cycle++`. -/
def body_count (s : Sim D) : Sim D := { s with cycle := s.cycle + 1 }

/-- The body of the control loop (`src/top.cc`, lines 341-430): the state left
and whether the loop was left by `break`. -/
def loop_body (eval : Vtop D → Vtop D) (par_txrx : Bool) (h : Host) (s : Sim D) :
    Sim D × Bool :=
  let r := body_read h (body_tick s)
  if r.2 then (r.1, true)
  else (body_count (body_sample par_txrx h (body_clock eval (body_feed par_txrx r.1))), false)

/-- One iteration of the control loop, the test of its condition included: the
state left and whether the loop is still in its Running phase. -/
def control_iteration (eval : Vtop D → Vtop D) (par_txrx : Bool) (h : Host) (s : Sim D) :
    Sim D × Bool :=
  if loop_cond h s then
    ((loop_body eval par_txrx h s).1, !(loop_body eval par_txrx h s).2)
  else (s, false)

/-- The drain step after the loop (`src/top.cc`, line 434): `interrupted = 1`. -/
def drain (s : Sim D) : Sim D := { s with interrupted := 1 }

/-- The steps of the system: a call of the signal handler, the body of one
iteration of the monitor thread, one iteration of the control loop, and the
drain step. -/
inductive Event where
  | signal (signum : Int)
  | monitor
  | control (h : Host)
  | drain

/-- The state a step leaves. -/
def step (eval : Vtop D → Vtop D) (par_txrx : Bool) (s : Sim D) : Event → Sim D
  | Event.signal signum => signal_handler signum s
  | Event.monitor => (monitor_body s).1
  | Event.control h => (control_iteration eval par_txrx h s).1
  | Event.drain => drain s

/-- The state a sequence of steps leaves. -/
def run (eval : Vtop D → Vtop D) (par_txrx : Bool) (s : Sim D) (es : List Event) : Sim D :=
  es.foldl (step eval par_txrx) s

/-- The state of `main` when the control loop is entered with no flag raised,
for a model in state `dut` (`src/top.cc`, lines 297-339).  The array `rx_fifo`
and the driver's `tx_byte` have no initialiser in the source, so their initial
contents are parameters. -/
def start (dut : Vtop D) (arr : Nat → Nat) (tx_byte0 : Nat) : Sim D :=
  { interrupted := 0
    ebreak_hit := 0
    global_dut := true
    dut := dut
    uart_driver := UARTBitDriver.init 50000000 115200 tx_byte0
    tick_count := 0
    rx_fifo := Fifo.empty arr
    time_counter := 3
    cycle := 0
    host_out := [] }

end Sim

/-! ### The test programs (`src/sw`) -/

/-- Conversion of an integer to `int` or `int32_t` (32 bits, two's complement). -/
def wrap32 (x : Int) : Int := (x + 2147483648) % 4294967296 - 2147483648

/-! #### `printint` (`src/sw/test/print.c`) -/

namespace Print

/-- The table `static char digits[] = "0123456789ABCDEF"`: 16 digit characters
and the terminating NUL. -/
def digits : List Nat := Loader.bytes "0123456789ABCDEF" ++ [0]

/-- The read `digits[idx]`.  An index outside the table reads the memory next
to it, whose content is given by `mem`. -/
def digit_at (mem : Int → Nat) (idx : Int) : Nat :=
  if 0 ≤ idx ∧ idx < 17 then digits.getD idx.toNat 0 else mem idx

/-- The variables of the digit loop of `printint`: the characters stored in
`buf[0 .. i-1]` and `int x`.  The field `lookups` is not a program variable: it
records the indices the table `digits` was read at. -/
structure DigitState where
  buf : List Nat
  x : Int
  lookups : List Int

/-- The loop `do { buf[i++] = digits[x % base]; } while ((x /= base) != 0);`
(`src/sw/test/print.c`, lines 30-33).  The operators `%` and `/` on `int`
truncate towards zero.  The first argument bounds the number of
iterations. -/
def digit_loop (mem : Int → Nat) (base : Int) : Nat → DigitState → DigitState
  | 0, s => s
  | fuel + 1, s =>
    if Int.tdiv s.x base ≠ 0 then
      digit_loop mem base fuel
        { buf := s.buf ++ [digit_at mem (Int.tmod s.x base)]
          x := Int.tdiv s.x base
          lookups := s.lookups ++ [Int.tmod s.x base] }
    else
      { buf := s.buf ++ [digit_at mem (Int.tmod s.x base)]
        x := Int.tdiv s.x base
        lookups := s.lookups ++ [Int.tmod s.x base] }

/-- The result of `printint`: the characters passed to `putchar`, in order,
the indices the digit table was read at, and the value of `x` when the digit
loop was left. -/
structure Printed where
  out : List Nat
  lookups : List Int
  x : Int

/-- Function `void printint(int xx, int base, int sgn)` (`src/sw/test/print.c`,
lines 13-40); 45 is the character `-`.  A value of `int` has at most 32 binary
digits, so 32 iterations of the digit loop are enough for every base from 2
on. -/
def printint (mem : Int → Nat) (xx base sgn : Int) : Printed :=
  let neg := decide (sgn ≠ 0 ∧ xx < 0)
  let x := if neg then wrap32 (-xx) else xx
  let s := digit_loop mem base 32 ⟨[], x, []⟩
  let buf := if neg then s.buf ++ [45] else s.buf
  ⟨buf.reverse, s.lookups, s.x⟩

/-- The number a string of digit characters denotes in base `base`. -/
def read_back (base : Nat) (out : List Nat) : Nat :=
  out.foldl (fun acc c => acc * base + (Loader.hex_digit c).getD 0) 0

/-- The character of the digit `d` in upper case: `0`-`9`, `A`-`F`. -/
def digit_char (d : Nat) : Nat := if d < 10 then 48 + d else 55 + d

/-- The digits of `n` in base `base`, most significant first, as characters;
a single `0` for `n = 0`. -/
def spec_digits (base n : Nat) : List Nat :=
  if n = 0 then [48] else ((Nat.digits base n).reverse).map digit_char

end Print

/-! #### `matmul` (`src/sw/mnist-newlib/matmul.c`) -/

namespace Matmul

/-- The matrix size `N`. -/
def N : Nat := 8

/-- The test matrix `A` (`src/sw/mnist-newlib/matmul.c`, lines 12-21). -/
def A : List (List Int) :=
  [[1, 2, 3, 4, 5, 6, 7, 8],
   [2, 3, 4, 5, 6, 7, 8, 1],
   [3, 4, 5, 6, 7, 8, 1, 2],
   [4, 5, 6, 7, 8, 1, 2, 3],
   [5, 6, 7, 8, 1, 2, 3, 4],
   [6, 7, 8, 1, 2, 3, 4, 5],
   [7, 8, 1, 2, 3, 4, 5, 6],
   [8, 1, 2, 3, 4, 5, 6, 7]]

/-- The test matrix `B` (`src/sw/mnist-newlib/matmul.c`, lines 23-32). -/
def B : List (List Int) :=
  [[8, 7, 6, 5, 4, 3, 2, 1],
   [7, 6, 5, 4, 3, 2, 1, 8],
   [6, 5, 4, 3, 2, 1, 8, 7],
   [5, 4, 3, 2, 1, 8, 7, 6],
   [4, 3, 2, 1, 8, 7, 6, 5],
   [3, 2, 1, 8, 7, 6, 5, 4],
   [2, 1, 8, 7, 6, 5, 4, 3],
   [1, 8, 7, 6, 5, 4, 3, 2]]

/-- The element `M[i][j]`. -/
def elem (M : List (List Int)) (i j : Nat) : Int := (M.getD i []).getD j 0

/-- Function `void matmul(A, B, C)` (`src/sw/mnist-newlib/matmul.c`, lines
57-68): the matrix stored in `C`, every sum and product computed in
`int32_t`. -/
def matmul (A B : List (List Int)) : List (List Int) :=
  (List.range N).map fun i =>
    (List.range N).map fun j =>
      (List.range N).foldl (fun sum k => wrap32 (sum + wrap32 (elem A i k * elem B k j))) 0

/-- The value `expected` of the result check (line 120). -/
def expected : Int := 204

/-- The result check of `main` (`src/sw/mnist-newlib/matmul.c`, lines 119-126):
`true` when the line printed is `Result verification: PASS`. -/
def verification (C : List (List Int)) : Bool := decide (elem C 0 0 = expected)

end Matmul

/-! #### `argmax_int32` (`src/sw/mnist-host`, `src/sw/mnist-newlib`) -/

namespace Argmax

/-- The loop `for (int i = 1; i < size; i++)` of `argmax_int32` on the
variables `i`, `max_idx` and `max_val`: the value of `max_idx` when the loop is
left.  The first argument bounds the number of iterations. -/
def argmax_loop (arr : Nat → Int) (size : Int) : Nat → Nat → Nat → Int → Nat
  | 0, _, max_idx, _ => max_idx
  | fuel + 1, i, max_idx, max_val =>
    if (i : Int) < size then
      if arr i > max_val then argmax_loop arr size fuel (i + 1) i (arr i)
      else argmax_loop arr size fuel (i + 1) max_idx max_val
    else max_idx

/-- Function `int argmax_int32(const int32_t* arr, int size)`; the loop runs at
most `size - 1` times. -/
def argmax_int32 (arr : Nat → Int) (size : Int) : Nat :=
  argmax_loop arr size size.toNat 1 0 (arr 0)

end Argmax

/-! #### The output paths of `main` (`src/top.cc`, lines 226-247)

A path is the list of the characters of a C string (no NUL); 47 is `/` and 46
is `.`. -/

namespace Paths

/-- The call `strrchr(s, c)` followed by `+ 1`: the string after the last
occurrence of `c`, `none` when `c` does not occur. -/
def strrchr_next (c : Nat) : List Nat → Option (List Nat)
  | [] => none
  | d :: s =>
    match strrchr_next c s with
    | some r => some r
    | none => if d = c then some s else none

/-- Lines 229-230: `base_name`, the part of the path after the last `/`, or
the whole path when it has none. -/
def base_name (hex_path : List Nat) : List Nat :=
  match strrchr_next 47 hex_path with
  | some r => r
  | none => hex_path

/-- The string left by `ext = strstr(s, needle); if (ext) *ext = 0`: `s` cut
at the first occurrence of `needle`. -/
def cut_at (needle : List Nat) : List Nat → List Nat
  | [] => []
  | c :: s => if Loader.starts_with (c :: s) needle then [] else c :: cut_at needle s

/-- Lines 233-237: `test_name`, the first 255 characters of `base_name` cut at
the first occurrence of `.hex`. -/
def test_name (hex_path : List Nat) : List Nat :=
  cut_at (Loader.bytes ".hex") ((base_name hex_path).take 255)

/-- The call `snprintf(buf, 256, "%s" suffix, test_name)`: at most 255
characters are stored. -/
def snprintf_path (name suffix : List Nat) : List Nat := (name ++ suffix).take 255

/-- Line 244: `disasm_path`. -/
def disasm_path (hex_path : List Nat) : List Nat :=
  snprintf_path (test_name hex_path) (Loader.bytes ".d")

/-- Line 245: `vcd_path`. -/
def vcd_path (hex_path : List Nat) : List Nat :=
  snprintf_path (test_name hex_path) (Loader.bytes ".vcd")

/-- Line 246: `trace_path`. -/
def trace_path (hex_path : List Nat) : List Nat :=
  snprintf_path (test_name hex_path) (Loader.bytes "_trace.txt")

/-- Line 247: `instruction_trace_path`. -/
def instruction_trace_path (hex_path : List Nat) : List Nat :=
  snprintf_path (test_name hex_path) (Loader.bytes "_instruction_trace.txt")

/-- The specification's reading of "the file name with its extension
removed": the part of the path after the last `/`, without the part from its
last `.` on (the whole file name when it has no `.`). -/
def spec_stem (hex_path : List Nat) : List Nat :=
  match strrchr_next 46 (base_name hex_path) with
  | some ext => (base_name hex_path).take ((base_name hex_path).length - ext.length - 1)
  | none => base_name hex_path

end Paths

namespace UARTBitDriver

/-- The bit indices are in `{-1, 0, .., 9}` and no bit started after the
current cycle. -/
def Inv (s : UARTBitDriver) : Prop :=
  -1 ≤ s.tx_bit_index ∧ s.tx_bit_index ≤ 9 ∧ -1 ≤ s.rx_bit_index ∧ s.rx_bit_index ≤ 9 ∧
  s.tx_bit_start_cycle ≤ s.cycle_counter ∧ s.rx_bit_start_cycle ≤ s.cycle_counter ∧
  s.cycle_counter < 2 ^ 64

/-- A call of one of the four operations of the driver, with its arguments. -/
inductive Call where
  | tick
  | start_tx (byte : Nat)
  | get_tx_line
  | sample_rx (rx_line : Bool) (byte_out : Nat)

/-- The state a call leaves. -/
def call (s : UARTBitDriver) : Call → UARTBitDriver
  | Call.tick => s.tick
  | Call.start_tx byte => (s.start_tx byte).2
  | Call.get_tx_line => s.get_tx_line.2
  | Call.sample_rx rx_line byte_out => (s.sample_rx rx_line byte_out).2.2

/-- The state a sequence of calls leaves. -/
def calls (s : UARTBitDriver) (cs : List Call) : UARTBitDriver := cs.foldl call s

/-- The number of `tick` calls in a sequence of calls. -/
def ticks : List Call → Nat
  | [] => 0
  | Call.tick :: cs => ticks cs + 1
  | _ :: cs => ticks cs

end UARTBitDriver

namespace UARTBitDriver

/-- The receiver between two calls of `sample_rx` when `cycles_per_bit = 1`:
idle, or inside a frame whose current bit started in the current cycle and
with no data bit set. -/
def RxOne (s : UARTBitDriver) : Prop :=
  s.cycles_per_bit = 1 ∧ s.cycle_counter < 2 ^ 64 ∧
  (s.rx_bit_index = -1 ∨
    (0 ≤ s.rx_bit_index ∧ s.rx_bit_index ≤ 9 ∧ s.rx_bit_start_cycle = s.cycle_counter ∧
      s.rx_byte = 0))

/-- The receiver at a call of `sample_rx` one cycle later: idle, or inside a
frame one cycle into the current bit, with no data bit set. -/
def RxOnePre (t : UARTBitDriver) : Prop :=
  t.cycles_per_bit = 1 ∧ t.cycle_counter < 2 ^ 64 ∧
  (t.rx_bit_index = -1 ∨
    (0 ≤ t.rx_bit_index ∧ t.rx_bit_index ≤ 9 ∧
      sub64 t.cycle_counter t.rx_bit_start_cycle = 1 ∧ t.rx_byte = 0))

end UARTBitDriver

/-! #### The monitor thread running during an iteration of the control loop -/

namespace Sim

variable {D : Type}

/-- Line 389: `dut->rx = uart_driver.get_tx_line()`. -/
def body_drive (s : Sim D) : Sim D :=
  { s with uart_driver := s.uart_driver.get_tx_line.2
           dut := { s.dut with rx := s.uart_driver.get_tx_line.1 } }

/-- Lines 391-392: `dut->clk = 0; dut->eval()`. -/
def body_low (eval : Vtop D → Vtop D) (s : Sim D) : Sim D :=
  { s with dut := eval { s.dut with clk := 0 } }

/-- Lines 393-400: `dut->clk = 1; dut->eval()` and the advance of
`time_counter` by 2. -/
def body_high (eval : Vtop D → Vtop D) (s : Sim D) : Sim D :=
  { s with dut := eval { s.dut with clk := 1 }, time_counter := s.time_counter + 2 }

/-- The statements of the loop body that follow the host read, in order. -/
def body_rest (eval : Vtop D → Vtop D) (par_txrx : Bool) (h : Host) : List (Sim D → Sim D) :=
  [body_feed par_txrx, body_drive, body_low eval, body_high eval, body_sample par_txrx h,
    body_count]

/-- A list of statements run in order. -/
def run_steps (fs : List (Sim D → Sim D)) (s : Sim D) : Sim D := fs.foldl (fun s f => f s) s

/-- A list of statements run in order, with the body of the monitor thread run
once in between: before statement `k`, or after the last statement when the
list has no statement `k`. -/
def steps_monitor : List (Sim D → Sim D) → Nat → Sim D → Sim D
  | [], _, s => (monitor_body s).1
  | f :: fs, 0, s => run_steps fs (f (monitor_body s).1)
  | f :: fs, k + 1, s => steps_monitor fs k (f s)

/-- The body of the control loop with the body of the monitor thread run once
at point `k` of it: before `tick` (`k = 0`), before the host read (`k = 1`), or
before statement `k - 2` of the statements that follow the host read (after
the `break` when the loop is left by it, after the last statement for
`k >= 8`).  The result is the state left and whether the loop was left by
`break`. -/
def loop_body_monitor (eval : Vtop D → Vtop D) (par_txrx : Bool) (h : Host) :
    Nat → Sim D → Sim D × Bool
  | 0, s => loop_body eval par_txrx h (monitor_body s).1
  | 1, s =>
    let r := body_read h (monitor_body (body_tick s)).1
    if r.2 then (r.1, true) else (run_steps (body_rest eval par_txrx h) r.1, false)
  | k + 2, s =>
    let r := body_read h (body_tick s)
    if r.2 then ((monitor_body r.1).1, true)
    else (steps_monitor (body_rest eval par_txrx h) k r.1, false)

/-- The state `s` with `ebreak_hit` set to `x`. -/
def set_ebreak (x : Nat) (s : Sim D) : Sim D := { s with ebreak_hit := x }

/-- A statement that neither reads nor writes `ebreak_hit`. -/
def Oblivious (f : Sim D → Sim D) : Prop := ∀ x s, f (set_ebreak x s) = set_ebreak x (f s)

end Sim

/-! ## Part 2. Theorems -/

section Arith

theorem sub64_self (a : Nat) : sub64 a a = 0 := by
  unfold sub64; omega

theorem sub64_lt (a b : Nat) : sub64 a b < 2 ^ 64 := by
  unfold sub64; omega

theorem sub64_succ (a b : Nat) (ha : a < 2 ^ 64) (hb : b < 2 ^ 64)
    (h : sub64 a b + 1 < 2 ^ 64) :
    sub64 (inc64 a) b = sub64 a b + 1 := by
  unfold sub64 inc64 at *; omega

theorem inc64_lt (a : Nat) : inc64 a < 2 ^ 64 := by
  unfold inc64; omega

theorem shift_and_one (v n : Nat) :
    decide ((v >>> n) &&& 1 ≠ 0) = v.testBit n := by
  unfold Nat.testBit
  rw [Nat.and_comm]
  generalize 1 &&& v >>> n = x
  cases x with
  | zero => rfl
  | succ m => simp [bne]

end Arith

namespace UARTBitDriver

theorem tx_step_same_bit {C v i e : Nat} {s : UARTBitDriver} (h : TxAt C v i e s)
    (hi : i ≤ 9) (he : e + 1 < C) (hC : C < 2 ^ 64) :
    (get_tx_line (tick s)).1 = bit_level v i ∧ TxAt C v i (e + 1) (get_tx_line (tick s)).2 := by
  obtain ⟨h1, h2, h3, h4, h5, h6⟩ := h
  have hel : sub64 (inc64 s.cycle_counter) s.tx_bit_start_cycle = e + 1 := by
    rw [sub64_succ _ _ h5 h6 (by omega), h4]
  have hnot : ¬ (C ≤ e + 1) := by omega
  have hidx : ¬ ((i : Int) = -1) := by omega
  have hlt := inc64_lt s.cycle_counter
  simp only [get_tx_line, tx_advance, tick, h3, hel, h1, hnot, hidx, ge_iff_le, if_false,
    TxAt, h2, bit_level]
  by_cases h0 : i = 0
  · subst h0; simp; omega
  · have h0i : ¬ ((i : Int) = 0) := by omega
    by_cases h8 : i ≤ 8
    · have : (1 : Int) ≤ i ∧ (i : Int) ≤ 8 := by omega
      have ht : ((i : Int) - 1).toNat = i - 1 := by omega
      simp [h0, h0i, h8, this, ht, shift_and_one, hel, h1, h2, h3]
      omega
    · have : ¬ ((1 : Int) ≤ i ∧ (i : Int) ≤ 8) := by omega
      simp [h0, h0i, h8, this, hel, h1, h2, h3]
      omega

end UARTBitDriver

namespace UARTBitDriver

theorem tx_step_next_bit {C v i e : Nat} {s : UARTBitDriver} (h : TxAt C v i e s)
    (hi : i < 9) (he : e + 1 = C) (hC : C < 2 ^ 64) :
    (get_tx_line (tick s)).1 = bit_level v (i + 1) ∧
      TxAt C v (i + 1) 0 (get_tx_line (tick s)).2 := by
  obtain ⟨h1, h2, h3, h4, h5, h6⟩ := h
  have hel : sub64 (inc64 s.cycle_counter) s.tx_bit_start_cycle = e + 1 := by
    rw [sub64_succ _ _ h5 h6 (by omega), h4]
  have hge : C ≤ e + 1 := by omega
  have hidx : ¬ ((i : Int) = -1) := by omega
  have hlt := inc64_lt s.cycle_counter
  have h10 : ¬ (10 ≤ (i : Int) + 1) := by omega
  have h0i : ¬ ((i : Int) + 1 = 0) := by omega
  simp only [get_tx_line, tx_advance, tick, h3, hel, h1, hge, hidx, ge_iff_le, if_false,
    if_true, TxAt, h2, bit_level]
  by_cases h8 : i + 1 ≤ 8
  · have : (1 : Int) ≤ i + 1 ∧ (i : Int) + 1 ≤ 8 := by omega
    have ht : ((i : Int) + 1 - 1).toNat = i := by omega
    simp [h0i, h8, h10, this, ht, shift_and_one, h1, h2, sub64_self, hlt]
    omega
  · have : ¬ ((1 : Int) ≤ i + 1 ∧ (i : Int) + 1 ≤ 8) := by omega
    have h8i : ¬ ((i : Int) + 1 ≤ 8) := by omega
    simp [h0i, h8, h8i, h10, h1, h2, sub64_self, hlt]
    omega

theorem tx_step_done {C v e : Nat} {s : UARTBitDriver} (h : TxAt C v 9 e s)
    (he : e + 1 = C) (hC : C < 2 ^ 64) :
    (get_tx_line (tick s)).1 = true ∧ (get_tx_line (tick s)).2.tx_bit_index = -1 := by
  obtain ⟨h1, h2, h3, h4, h5, h6⟩ := h
  have hel : sub64 (inc64 s.cycle_counter) s.tx_bit_start_cycle = e + 1 := by
    rw [sub64_succ _ _ h5 h6 (by omega), h4]
  have hge : C ≤ e + 1 := by omega
  simp [get_tx_line, tx_advance, tick, h3, hel, h1, hge]

theorem tx_idle_poll {s : UARTBitDriver} (h : s.tx_bit_index = -1) :
    get_tx_line (tick s) = (true, tick s) := by
  simp [get_tx_line, tick, h]

theorem tx_first_call {C v : Nat} {s : UARTBitDriver} (h : TxAt C v 0 0 s) (hC : 1 ≤ C) :
    get_tx_line s = (false, s) := by
  obtain ⟨h1, h2, h3, h4, h5, h6⟩ := h
  have hnot : ¬ (C ≤ 0) := by omega
  simp [get_tx_line, tx_advance, h3, h4, h1, hnot]

theorem start_tx_TxAt {s : UARTBitDriver} (v : Nat) (hcc : s.cycle_counter < 2 ^ 64)
    (hidle : s.tx_bit_index = -1) :
    (start_tx s v).1 = true ∧ TxAt s.cycles_per_bit v 0 0 (start_tx s v).2 := by
  simp [start_tx, hidle, TxAt, sub64_self]
  omega

end UARTBitDriver

section Arith

theorem succ_div_mod_same {C k : Nat} (h : k % C + 1 < C) :
    (k + 1) / C = k / C ∧ (k + 1) % C = k % C + 1 := by
  have hC : 0 < C := by omega
  have hk := Nat.div_add_mod k C
  have e : k + 1 = (k % C + 1) + C * (k / C) := by omega
  constructor
  · rw [e, Nat.add_mul_div_left _ _ hC, Nat.div_eq_of_lt h]; omega
  · rw [e, Nat.add_mul_mod_self_left, Nat.mod_eq_of_lt h]

theorem succ_div_mod_next {C k : Nat} (h : k % C + 1 = C) :
    (k + 1) / C = k / C + 1 ∧ (k + 1) % C = 0 := by
  have hC : 0 < C := by omega
  have hk := Nat.div_add_mod k C
  have e : k + 1 = 0 + C * (k / C + 1) := by
    rw [Nat.mul_add]; omega
  constructor
  · rw [e, Nat.add_mul_div_left _ _ hC]; simp
  · rw [e, Nat.add_mul_mod_self_left]; simp

theorem div_lt_of_lt_mul {C k n : Nat} (h : k < n * C) : k / C < n := by
  have hC : 0 < C := by
    rcases Nat.eq_zero_or_pos C with h0 | h0
    · subst h0; simp at h
    · exact h0
  exact (Nat.div_lt_iff_lt_mul hC).2 h

end Arith

namespace UARTBitDriver

theorem tx_run_frame {C v : Nat} {s : UARTBitDriver} (h : TxAt C v 0 0 s)
    (hC1 : 1 ≤ C) (hC : C < 2 ^ 64) :
    ∀ k, k < 10 * C →
      (tx_run s k).1 = bit_level v (k / C) ∧ TxAt C v (k / C) (k % C) (tx_run s k).2 := by
  intro k
  induction k with
  | zero =>
    intro _
    have h0 := tx_first_call h hC1
    simp only [tx_run, h0, Nat.zero_div, Nat.zero_mod]
    exact ⟨by simp [bit_level], h⟩
  | succ k ih =>
    intro hk
    obtain ⟨_, hinv⟩ := ih (by omega)
    have hlt : k % C < C := Nat.mod_lt _ (by omega)
    have hdiv : (k + 1) / C < 10 := div_lt_of_lt_mul hk
    by_cases hcase : k % C + 1 < C
    · obtain ⟨e1, e2⟩ := succ_div_mod_same hcase
      have hk9 : k / C ≤ 9 := by omega
      simp only [tx_run, e1, e2]
      exact tx_step_same_bit hinv hk9 hcase hC
    · have hcase2 : k % C + 1 = C := by omega
      obtain ⟨e1, e2⟩ := succ_div_mod_next hcase2
      have hk9 : k / C < 9 := by omega
      simp only [tx_run, e1, e2]
      exact tx_step_next_bit hinv hk9 hcase2 hC

theorem tx_run_idle {C v : Nat} {s : UARTBitDriver} (h : TxAt C v 0 0 s)
    (hC1 : 1 ≤ C) (hC : C < 2 ^ 64) :
    ∀ k, 10 * C ≤ k →
      (tx_run s k).1 = true ∧ (tx_run s k).2.tx_bit_index = -1 := by
  intro k hk
  induction k with
  | zero => omega
  | succ k ih =>
    by_cases hk2 : 10 * C ≤ k
    · obtain ⟨_, hidle⟩ := ih hk2
      simp only [tx_run, tx_idle_poll hidle]
      exact ⟨trivial, by simpa [tick] using hidle⟩
    · have hkeq : k = 10 * C - 1 := by omega
      obtain ⟨_, hinv⟩ := tx_run_frame h hC1 hC k (by omega)
      have hmod : k % C = C - 1 := by
        have e : k = (C - 1) + C * 9 := by omega
        rw [e, Nat.add_mul_mod_self_left, Nat.mod_eq_of_lt (by omega)]
      have hdv : k / C = 9 := by
        have e : k = (C - 1) + C * 9 := by omega
        rw [e, Nat.add_mul_div_left _ _ (by omega), Nat.div_eq_of_lt (by omega)]
      rw [hmod, hdv] at hinv
      simp only [tx_run]
      exact tx_step_done hinv (by omega) hC

theorem frame_level_eq {C v k : Nat} (hC1 : 1 ≤ C) :
    frame_level C v k = bit_level v (k / C) := by
  have hC : 0 < C := hC1
  unfold frame_level bit_level
  by_cases h1 : k < C
  · simp [h1, Nat.div_eq_of_lt h1]
  · have hd1 : 1 ≤ k / C := (Nat.le_div_iff_mul_le hC).2 (by omega)
    have hne : ¬ (k / C = 0) := by omega
    by_cases h9 : k < 9 * C
    · have hd9 : k / C < 9 := div_lt_of_lt_mul h9
      have : k / C ≤ 8 := by omega
      simp [h1, h9, hne, this]
    · have hd9 : 9 ≤ k / C := (Nat.le_div_iff_mul_le hC).2 (by omega)
      have : ¬ (k / C ≤ 8) := by omega
      simp [h1, h9, hne, this]

end UARTBitDriver

namespace UARTBitDriver

/-- C4: `start_tx` returns false and leaves every field unchanged while a
transmission is in progress (`tx_bit_index ≠ -1`); on an idle transmitter it
returns true, latches the byte, sets `tx_bit_index` to 0 (Start) and records
the current cycle counter as the bit-start time, leaving the cycle counter,
the cycles-per-bit constant and all receive-side fields unchanged. -/
theorem C4_start_tx (s : UARTBitDriver) (byte : Nat) :
    (s.tx_bit_index ≠ -1 → start_tx s byte = (false, s)) ∧
    (s.tx_bit_index = -1 →
      (start_tx s byte).1 = true ∧
      (start_tx s byte).2.tx_byte = byte ∧
      (start_tx s byte).2.tx_bit_index = 0 ∧
      (start_tx s byte).2.tx_bit_start_cycle = s.cycle_counter ∧
      (start_tx s byte).2.cycle_counter = s.cycle_counter ∧
      (start_tx s byte).2.cycles_per_bit = s.cycles_per_bit ∧
      (start_tx s byte).2.rx_bit_index = s.rx_bit_index ∧
      (start_tx s byte).2.rx_bit_start_cycle = s.rx_bit_start_cycle ∧
      (start_tx s byte).2.rx_byte = s.rx_byte ∧
      (start_tx s byte).2.rx_line_prev = s.rx_line_prev) := by
  constructor
  · intro h
    simp [start_tx, h]
  · intro h
    simp [start_tx, h]

/-- C2: after `start_tx(v)` succeeds on an idle transmitter with `C ≥ 1` cycles
per bit, the level returned by the `k`-th per-cycle `get_tx_line` call is low
for `k < C`, is bit `i` of `v` for `(i+1)*C ≤ k < (i+2)*C` (`i ≤ 7`, least
significant bit first), is high for `9*C ≤ k < 10*C`, and is high with the
transmitter idle from `k = 10*C` on. -/
theorem C2_transmit_waveform (s : UARTBitDriver) (v C : Nat) (hw : WF s)
    (hC : s.cycles_per_bit = C) (hC1 : 1 ≤ C) (hidle : s.tx_bit_index = -1) :
    (start_tx s v).1 = true ∧
    (∀ k, k < C → (tx_run (start_tx s v).2 k).1 = false) ∧
    (∀ i k, i ≤ 7 → (i + 1) * C ≤ k → k < (i + 2) * C →
      (tx_run (start_tx s v).2 k).1 = v.testBit i) ∧
    (∀ k, 9 * C ≤ k → k < 10 * C → (tx_run (start_tx s v).2 k).1 = true) ∧
    (∀ k, 10 * C ≤ k →
      (tx_run (start_tx s v).2 k).1 = true ∧ is_idle (tx_run (start_tx s v).2 k).2 = true) := by
  obtain ⟨hst, hinv⟩ := start_tx_TxAt v hw.1 hidle
  rw [hC] at hinv
  have hC64 : C < 2 ^ 64 := by rw [← hC]; exact hw.2.1
  refine ⟨hst, ?_, ?_, ?_, ?_⟩
  · intro k hk
    have := (tx_run_frame hinv hC1 hC64 k (by omega)).1
    rw [this, Nat.div_eq_of_lt hk]; simp [bit_level]
  · intro i k hi hlo hhi
    have hk10 : k < 10 * C := by
      have : (i + 2) * C ≤ 9 * C := Nat.mul_le_mul_right C (by omega)
      omega
    have := (tx_run_frame hinv hC1 hC64 k hk10).1
    have hd : k / C = i + 1 := Nat.div_eq_of_lt_le hlo hhi
    rw [this, hd]
    have h8 : i + 1 ≤ 8 := by omega
    simp [bit_level, h8]
  · intro k hlo hhi
    have := (tx_run_frame hinv hC1 hC64 k hhi).1
    have hd : k / C = 9 := Nat.div_eq_of_lt_le hlo hhi
    rw [this, hd]; simp [bit_level]
  · intro k hk
    obtain ⟨h1, h2⟩ := tx_run_idle hinv hC1 hC64 k hk
    exact ⟨h1, by simp [is_idle, h2]⟩

/-- Witness of C2 at the default driver (434 cycles per bit) and the byte 0x55. -/
theorem C2_transmit_waveform_witness :
    WF (init 50000000 115200 0) ∧
    (start_tx (init 50000000 115200 0) 85).1 = true ∧
    (∀ k, k < 434 → (tx_run (start_tx (init 50000000 115200 0) 85).2 k).1 = false) ∧
    (∀ i k, i ≤ 7 → (i + 1) * 434 ≤ k → k < (i + 2) * 434 →
      (tx_run (start_tx (init 50000000 115200 0) 85).2 k).1 = Nat.testBit 85 i) ∧
    (∀ k, 9 * 434 ≤ k → k < 10 * 434 →
      (tx_run (start_tx (init 50000000 115200 0) 85).2 k).1 = true) ∧
    (∀ k, 10 * 434 ≤ k →
      (tx_run (start_tx (init 50000000 115200 0) 85).2 k).1 = true ∧
      is_idle (tx_run (start_tx (init 50000000 115200 0) 85).2 k).2 = true) :=
  ⟨by decide,
   C2_transmit_waveform (init 50000000 115200 0) 85 434 (by decide) (by decide) (by decide)
     (by decide)⟩

end UARTBitDriver

namespace UARTBitDriver

/-- Witness of C4: the second `start_tx` on a busy transmitter is refused and
changes nothing; the first one, on the idle transmitter, succeeds. -/
theorem C4_start_tx_witness :
    start_tx (start_tx (init 4 2 0) 65).2 66 = (false, (start_tx (init 4 2 0) 65).2) ∧
    (start_tx (init 4 2 0) 65).1 = true :=
  ⟨(C4_start_tx (start_tx (init 4 2 0) 65).2 66).1 (by decide),
   ((C4_start_tx (init 4 2 0) 65).2 (by decide)).1⟩

/-- C5 fails as stated: with 2 cycles per bit, after `start_tx` and exactly
`10*C = 20` calls of `get_tx_line` in the control loop's order (the last one is
call `k = 19`) the line is high, but `is_idle` is false and a following
`start_tx` is refused. -/
theorem C5_counterexample :
    (tx_run (start_tx (init 4 2 0) 65).2 19).1 = true ∧
    is_idle (tx_run (start_tx (init 4 2 0) 65).2 19).2 = false ∧
    (start_tx (tick (tx_run (start_tx (init 4 2 0) 65).2 19).2) 66).1 = false := by
  decide

/-- C5 (amended): for `C ≥ 2` cycles per bit, `start_tx` on an idle
transmitter followed by exactly `10*C + 1` calls of `get_tx_line` in the
control loop's order ends with the last call (`k = 10*C`) returning idle-high
and `is_idle` true, so that a following `start_tx` succeeds; after exactly
`10*C` calls (`k = 10*C - 1`) the line is high (stop bit) but the transmitter
is still busy. -/
theorem C5_idle_after_frame (s : UARTBitDriver) (v C : Nat) (hw : WF s)
    (hC : s.cycles_per_bit = C) (hC2 : 2 ≤ C) (hidle : s.tx_bit_index = -1) :
    (start_tx s v).1 = true ∧
    (tx_run (start_tx s v).2 (10 * C)).1 = true ∧
    is_idle (tx_run (start_tx s v).2 (10 * C)).2 = true ∧
    (∀ w, (start_tx (tick (tx_run (start_tx s v).2 (10 * C)).2) w).1 = true) ∧
    (tx_run (start_tx s v).2 (10 * C - 1)).1 = true ∧
    is_idle (tx_run (start_tx s v).2 (10 * C - 1)).2 = false := by
  obtain ⟨hst, hinv⟩ := start_tx_TxAt v hw.1 hidle
  rw [hC] at hinv
  have hC64 : C < 2 ^ 64 := by rw [← hC]; exact hw.2.1
  obtain ⟨h1, h2⟩ := tx_run_idle hinv (by omega) hC64 (10 * C) (Nat.le_refl _)
  obtain ⟨h3, h4⟩ := tx_run_frame hinv (by omega) hC64 (10 * C - 1) (by omega)
  have hd : (10 * C - 1) / C = 9 := Nat.div_eq_of_lt_le (by omega) (by omega)
  rw [hd] at h3 h4
  refine ⟨hst, h1, by simp [is_idle, h2], ?_, ?_, ?_⟩
  · intro w
    generalize (tx_run (start_tx s v).2 (10 * C)).2 = t at h2
    simp [start_tx, tick, h2]
  · rw [h3]; simp [bit_level]
  · have := h4.2.2.1
    simp [is_idle, this]

/-- Witness of C5 (amended) at the default driver (434 cycles per bit). -/
theorem C5_idle_after_frame_witness :
    WF (init 50000000 115200 0) ∧
    is_idle (tx_run (start_tx (init 50000000 115200 0) 65).2 (10 * 434)).2 = true ∧
    is_idle (tx_run (start_tx (init 50000000 115200 0) 65).2 (10 * 434 - 1)).2 = false :=
  ⟨by decide,
   (C5_idle_after_frame (init 50000000 115200 0) 65 434 (by decide) (by decide) (by decide)
     (by decide)).2.2.1,
   (C5_idle_after_frame (init 50000000 115200 0) 65 434 (by decide) (by decide) (by decide)
     (by decide)).2.2.2.2.2⟩

end UARTBitDriver

namespace UARTBitDriver

theorem RxAt.pre {C : Nat} {line : Nat → Bool} {i e : Nat} {s : UARTBitDriver}
    (h : RxAt C line i e s) (he : e + 1 < 2 ^ 64) : RxPre C line i e (tick s) := by
  obtain ⟨h1, h2, h3, h4, h5, _, h7⟩ := h
  refine ⟨h1, h2, ?_, inc64_lt _, h5, h7⟩
  show sub64 (inc64 s.cycle_counter) s.rx_bit_start_cycle = e + 1
  rw [sub64_succ _ _ h4 h5 (by omega), h3]

theorem RxPre.congr {C : Nat} {line : Nat → Bool} {i e : Nat} {a b : UARTBitDriver}
    (hab : rxSame a b) (h : RxPre C line i e b) : RxPre C line i e a := by
  obtain ⟨e1, e2, e3, e4, e5, _⟩ := hab
  unfold RxPre
  rw [e1, e2, e3, e4, e5]
  exact h

end UARTBitDriver

namespace UARTBitDriver

theorem rx_detect_busy {t : UARTBitDriver} (l : Bool) (h : t.rx_bit_index ≠ -1) :
    rx_detect t l = { t with rx_line_prev := l } := by
  simp [rx_detect, h]

theorem rx_midpoint_off {s : UARTBitDriver} (l : Bool) {el : Nat}
    (h : el ≠ s.cycles_per_bit / 2) : rx_midpoint s l el = (false, s) := by
  unfold rx_midpoint
  rw [if_neg (by omega)]

theorem rx_midpoint_start {s : UARTBitDriver} (l : Bool) {el : Nat}
    (h : el = s.cycles_per_bit / 2) (hi : s.rx_bit_index = 0) :
    rx_midpoint s l el = if l then (true, { s with rx_bit_index := -1 }) else (false, s) := by
  unfold rx_midpoint
  rw [if_pos (by omega), if_pos hi]

theorem rx_midpoint_data {s : UARTBitDriver} (l : Bool) {el : Nat}
    (h : el = s.cycles_per_bit / 2) (h1 : 1 ≤ s.rx_bit_index) (h8 : s.rx_bit_index ≤ 8) :
    rx_midpoint s l el =
      if l then
        (false, { s with rx_byte :=
                    (s.rx_byte ||| (1 <<< (s.rx_bit_index - 1).toNat)) % 256 })
      else (false, s) := by
  unfold rx_midpoint
  rw [if_pos (by omega), if_neg (by omega), if_pos ⟨h1, h8⟩]

theorem rx_midpoint_stop {s : UARTBitDriver} (l : Bool) {el : Nat}
    (h : el = s.cycles_per_bit / 2) (hi : s.rx_bit_index = 9) :
    rx_midpoint s l el =
      if l = false then (true, { s with rx_bit_index := -1 }) else (false, s) := by
  unfold rx_midpoint
  rw [if_pos (by omega), if_neg (by omega), if_neg (by omega), if_pos hi]

theorem sample_rx_abort {t s2 : UARTBitDriver} (l : Bool) (o : Nat)
    (h : t.rx_bit_index ≠ -1)
    (hm : rx_midpoint { t with rx_line_prev := l } l
        (sub64 t.cycle_counter t.rx_bit_start_cycle) = (true, s2)) :
    sample_rx t l o = (false, o, s2) := by
  unfold sample_rx
  simp only [rx_detect_busy l h, hm]
  simp [h]

theorem sample_rx_stay {t s2 : UARTBitDriver} (l : Bool) (o : Nat)
    (h : t.rx_bit_index ≠ -1)
    (hm : rx_midpoint { t with rx_line_prev := l } l
        (sub64 t.cycle_counter t.rx_bit_start_cycle) = (false, s2))
    (hel : ¬ (sub64 t.cycle_counter t.rx_bit_start_cycle ≥ s2.cycles_per_bit)) :
    sample_rx t l o = (false, o, s2) := by
  unfold sample_rx
  simp only [rx_detect_busy l h, hm]
  simp [h, hel]

theorem sample_rx_next {t s2 : UARTBitDriver} (l : Bool) (o : Nat)
    (h : t.rx_bit_index ≠ -1)
    (hm : rx_midpoint { t with rx_line_prev := l } l
        (sub64 t.cycle_counter t.rx_bit_start_cycle) = (false, s2))
    (hel : sub64 t.cycle_counter t.rx_bit_start_cycle ≥ s2.cycles_per_bit)
    (hidx : ¬ (s2.rx_bit_index + 1 ≥ 10)) :
    sample_rx t l o =
      (false, o, { s2 with rx_bit_index := s2.rx_bit_index + 1
                           rx_bit_start_cycle := s2.cycle_counter }) := by
  unfold sample_rx
  simp only [rx_detect_busy l h, hm]
  simp [h, hel]
  omega

theorem sample_rx_emit {t s2 : UARTBitDriver} (l : Bool) (o : Nat)
    (h : t.rx_bit_index ≠ -1)
    (hm : rx_midpoint { t with rx_line_prev := l } l
        (sub64 t.cycle_counter t.rx_bit_start_cycle) = (false, s2))
    (hel : sub64 t.cycle_counter t.rx_bit_start_cycle ≥ s2.cycles_per_bit)
    (hidx : s2.rx_bit_index + 1 ≥ 10) :
    sample_rx t l o =
      (true, s2.rx_byte, { s2 with rx_bit_index := -1
                                   rx_bit_start_cycle := s2.cycle_counter }) := by
  unfold sample_rx
  simp only [rx_detect_busy l h, hm]
  simp [h, hel]
  omega

end UARTBitDriver

namespace UARTBitDriver

theorem RxBits_start (C : Nat) (line : Nat → Bool) : RxBits C line 0 0 0 := by
  intro j
  simp

theorem RxBits_no_sample {C : Nat} {line : Nat → Bool} {i e b : Nat}
    (h : RxBits C line i e b) (hne : e + 1 ≠ C / 2) : RxBits C line i (e + 1) b := by
  intro j
  rw [h j]
  have : (j + 1 = i ∧ C / 2 ≤ e + 1) ↔ (j + 1 = i ∧ C / 2 ≤ e) := by omega
  simp only [this]

theorem RxBits_sample_edge {C : Nat} {line : Nat → Bool} {i e b : Nat}
    (h : RxBits C line i e b) (hi : i = 0 ∨ i = 9) : RxBits C line i (e + 1) b := by
  intro j
  rw [h j]
  have : (j < 8 ∧ (j + 1 < i ∨ (j + 1 = i ∧ C / 2 ≤ e + 1))) ↔
      (j < 8 ∧ (j + 1 < i ∨ (j + 1 = i ∧ C / 2 ≤ e))) := by omega
  simp only [this]

theorem RxBits_sample_low {C : Nat} {line : Nat → Bool} {i e b : Nat}
    (h : RxBits C line i e b) (hmid : e + 1 = C / 2)
    (hl : line (i * C + (e + 1)) = false) : RxBits C line i (e + 1) b := by
  intro j
  rw [h j]
  by_cases hj : j + 1 = i
  · subst hj
    have e1 : (j + 1) * C + C / 2 = (j + 1) * C + (e + 1) := by omega
    rw [e1, hl]
    simp
  · have : (j + 1 = i ∧ C / 2 ≤ e + 1) ↔ (j + 1 = i ∧ C / 2 ≤ e) := by omega
    simp only [this]

theorem RxBits_sample_high {C : Nat} {line : Nat → Bool} {i e b : Nat}
    (h : RxBits C line i e b) (hmid : e + 1 = C / 2) (h1 : 1 ≤ i) (h8 : i ≤ 8)
    (hl : line (i * C + (e + 1)) = true) :
    RxBits C line i (e + 1) ((b ||| 1 <<< (i - 1)) % 256) := by
  intro j
  have h256 : (256 : Nat) = 2 ^ 8 := by norm_num
  rw [h256, Nat.testBit_mod_two_pow, Nat.testBit_or, h j, Nat.one_shiftLeft,
    Nat.testBit_two_pow]
  by_cases hj : j + 1 = i
  · subst hj
    have e1 : (j + 1) * C + C / 2 = (j + 1) * C + (e + 1) := by omega
    rw [e1, hl]
    have hj8 : j < 8 := by omega
    have hc : C / 2 ≤ e + 1 := by omega
    simp [hj8, hc]
  · have hne : ¬ (i - 1 = j) := by omega
    by_cases hj8 : j < 8
    · have : (j + 1 = i ∧ C / 2 ≤ e + 1) ↔ (j + 1 = i ∧ C / 2 ≤ e) := by omega
      simp [hj8, hne, hj]
    · simp [hj8]

theorem RxBits_next_bit {C : Nat} {line : Nat → Bool} {i e b : Nat}
    (h : RxBits C line i e b) (hC : 2 ≤ C) (he : C / 2 ≤ e) :
    RxBits C line (i + 1) 0 b := by
  intro j
  rw [h j]
  have : (j < 8 ∧ (j + 1 < i ∨ (j + 1 = i ∧ C / 2 ≤ e))) ↔
      (j < 8 ∧ (j + 1 < i + 1 ∨ (j + 1 = i + 1 ∧ C / 2 ≤ 0))) := by omega
  simp only [this]

end UARTBitDriver

namespace UARTBitDriver

theorem rx_midpoint_ok {C : Nat} {line : Nat → Bool} {i e : Nat} {t : UARTBitDriver}
    (h : RxPre C line i e t) (hi : i ≤ 9) (l : Bool)
    (hl : l = line (i * C + (e + 1)))
    (hstart : i = 0 → e + 1 = C / 2 → l = false)
    (hstop : i = 9 → e + 1 = C / 2 → l = true) :
    ∃ b, RxBits C line i (e + 1) b ∧
      rx_midpoint { t with rx_line_prev := l } l
        (sub64 t.cycle_counter t.rx_bit_start_cycle) =
        (false, { t with rx_line_prev := l, rx_byte := b }) := by
  obtain ⟨h1, h2, h3, h4, h5, h6⟩ := h
  by_cases hmid : e + 1 = C / 2
  · have hm : sub64 t.cycle_counter t.rx_bit_start_cycle =
        ({ t with rx_line_prev := l } : UARTBitDriver).cycles_per_bit / 2 := by
      show _ = t.cycles_per_bit / 2
      omega
    rcases Nat.eq_zero_or_pos i with h0 | hpos
    · have hlf := hstart h0 hmid
      refine ⟨t.rx_byte, RxBits_sample_edge h6 (Or.inl h0), ?_⟩
      rw [rx_midpoint_start l hm (by show t.rx_bit_index = 0; omega), hlf]
      rfl
    · by_cases h9 : i = 9
      · have hlt := hstop h9 hmid
        refine ⟨t.rx_byte, RxBits_sample_edge h6 (Or.inr h9), ?_⟩
        rw [rx_midpoint_stop l hm (by show t.rx_bit_index = 9; omega), hlt]
        rfl
      · have hd := rx_midpoint_data (s := { t with rx_line_prev := l }) l hm
          (by show 1 ≤ t.rx_bit_index; omega) (by show t.rx_bit_index ≤ 8; omega)
        have hn : (t.rx_bit_index - 1).toNat = i - 1 := by omega
        cases l with
        | true =>
          refine ⟨(t.rx_byte ||| 1 <<< (i - 1)) % 256,
            RxBits_sample_high h6 hmid (by omega) (by omega) hl.symm, ?_⟩
          rw [hd]
          show (false, ({ t with rx_line_prev := true, rx_byte :=
            (t.rx_byte ||| 1 <<< (t.rx_bit_index - 1).toNat) % 256 } : UARTBitDriver)) = _
          rw [hn]
        | false =>
          refine ⟨t.rx_byte, RxBits_sample_low h6 hmid hl.symm, ?_⟩
          rw [hd]
          rfl
  · refine ⟨t.rx_byte, RxBits_no_sample h6 hmid, ?_⟩
    rw [rx_midpoint_off l (by show _ ≠ t.cycles_per_bit / 2; omega)]

theorem rx_step_same_bit {C : Nat} {line : Nat → Bool} {i e : Nat} {t : UARTBitDriver}
    (h : RxPre C line i e t) (hi : i ≤ 9) (he : e + 1 < C) (l : Bool) (o : Nat)
    (hl : l = line (i * C + (e + 1)))
    (hstart : i = 0 → e + 1 = C / 2 → l = false)
    (hstop : i = 9 → e + 1 = C / 2 → l = true) :
    (sample_rx t l o).1 = false ∧ (sample_rx t l o).2.1 = o ∧
      RxAt C line i (e + 1) (sample_rx t l o).2.2 := by
  obtain ⟨b, hb, hm⟩ := rx_midpoint_ok h hi l hl hstart hstop
  obtain ⟨h1, h2, h3, h4, h5, h6⟩ := h
  have hidx : t.rx_bit_index ≠ -1 := by omega
  rw [sample_rx_stay l o hidx hm (by show ¬ (_ ≥ t.cycles_per_bit); omega)]
  exact ⟨rfl, rfl, h1, h2, h3, h4, h5, hl, hb⟩

theorem rx_step_next_bit {C : Nat} {line : Nat → Bool} {i e : Nat} {t : UARTBitDriver}
    (h : RxPre C line i e t) (hi : i < 9) (hC : 2 ≤ C) (he : e + 1 = C) (l : Bool) (o : Nat)
    (hl : l = line (i * C + (e + 1))) :
    (sample_rx t l o).1 = false ∧ (sample_rx t l o).2.1 = o ∧
      RxAt C line (i + 1) 0 (sample_rx t l o).2.2 := by
  have hne : e + 1 ≠ C / 2 := by omega
  obtain ⟨b, hb, hm⟩ := rx_midpoint_ok h (by omega) l hl (fun _ h' => absurd h' hne)
    (fun _ h' => absurd h' hne)
  obtain ⟨h1, h2, h3, h4, h5, h6⟩ := h
  have hidx : t.rx_bit_index ≠ -1 := by omega
  rw [sample_rx_next l o hidx hm (by show _ ≥ t.cycles_per_bit; omega)
    (by show ¬ (t.rx_bit_index + 1 ≥ 10); omega)]
  refine ⟨rfl, rfl, h1, ?_, sub64_self _, h4, h4, ?_, RxBits_next_bit hb hC (by omega)⟩
  · show t.rx_bit_index + 1 = ((i + 1 : Nat) : Int)
    omega
  · show l = line ((i + 1) * C + 0)
    rw [hl, Nat.succ_mul]
    congr 1
    omega

theorem rx_step_emit {C : Nat} {line : Nat → Bool} {e : Nat} {t : UARTBitDriver}
    (h : RxPre C line 9 e t) (hC : 2 ≤ C) (he : e + 1 = C) (l : Bool) (o : Nat)
    (hl : l = line (9 * C + (e + 1))) :
    (sample_rx t l o).1 = true ∧
      (∀ j, (sample_rx t l o).2.1.testBit j = (decide (j < 8) && line ((j + 1) * C + C / 2))) ∧
      (sample_rx t l o).2.2.rx_bit_index = -1 ∧
      (sample_rx t l o).2.2.rx_line_prev = l ∧
      (sample_rx t l o).2.2.cycles_per_bit = C ∧
      (sample_rx t l o).2.2.cycle_counter = t.cycle_counter ∧
      (sample_rx t l o).2.2.rx_bit_start_cycle < 2 ^ 64 := by
  have hne : e + 1 ≠ C / 2 := by omega
  obtain ⟨b, hb, hm⟩ := rx_midpoint_ok h (by omega) l hl (fun _ h' => absurd h' hne)
    (fun _ h' => absurd h' hne)
  obtain ⟨h1, h2, h3, h4, h5, h6⟩ := h
  have hidx : t.rx_bit_index ≠ -1 := by omega
  rw [sample_rx_emit l o hidx hm (by show _ ≥ t.cycles_per_bit; omega)
    (by show t.rx_bit_index + 1 ≥ 10; omega)]
  refine ⟨rfl, ?_, rfl, rfl, h1, rfl, h4⟩
  intro j
  show b.testBit j = _
  rw [hb j]
  have : (j < 8 ∧ (j + 1 < 9 ∨ (j + 1 = 9 ∧ C / 2 ≤ e + 1))) ↔ j < 8 := by omega
  simp only [this]

theorem rx_step_start_error {t : UARTBitDriver} (o : Nat)
    (hi : t.rx_bit_index = 0)
    (hel : sub64 t.cycle_counter t.rx_bit_start_cycle = t.cycles_per_bit / 2) :
    sample_rx t true o = (false, o, { t with rx_line_prev := true, rx_bit_index := -1 }) := by
  have hidx : t.rx_bit_index ≠ -1 := by omega
  have hm := rx_midpoint_start (s := { t with rx_line_prev := true }) true hel hi
  exact sample_rx_abort true o hidx hm

theorem rx_step_stop_error {t : UARTBitDriver} (o : Nat)
    (hi : t.rx_bit_index = 9)
    (hel : sub64 t.cycle_counter t.rx_bit_start_cycle = t.cycles_per_bit / 2) :
    sample_rx t false o = (false, o, { t with rx_line_prev := false, rx_bit_index := -1 }) := by
  have hidx : t.rx_bit_index ≠ -1 := by omega
  have hm := rx_midpoint_stop (s := { t with rx_line_prev := false }) false hel hi
  exact sample_rx_abort false o hidx hm

theorem rx_idle_no_edge {t : UARTBitDriver} (l : Bool) (o : Nat)
    (hi : t.rx_bit_index = -1) (hne : ¬ (t.rx_line_prev = true ∧ l = false)) :
    sample_rx t l o = (false, o, { t with rx_line_prev := l }) := by
  simp [sample_rx, rx_detect, hi, hne]

theorem rx_frame_start_state {t : UARTBitDriver} (o : Nat)
    (hC2 : 2 ≤ t.cycles_per_bit)
    (hi : t.rx_bit_index = -1) (hp : t.rx_line_prev = true) :
    sample_rx t false o =
      (false, o, { t with rx_bit_index := 0
                          rx_bit_start_cycle := t.cycle_counter
                          rx_byte := 0
                          rx_line_prev := false }) := by
  have hd : rx_detect t false = { t with rx_bit_index := 0
                                         rx_bit_start_cycle := t.cycle_counter
                                         rx_byte := 0
                                         rx_line_prev := false } := by
    simp [rx_detect, hi, hp]
  have hm : rx_midpoint (rx_detect t false) false
      (sub64 (rx_detect t false).cycle_counter (rx_detect t false).rx_bit_start_cycle) =
      (false, rx_detect t false) := by
    apply rx_midpoint_off
    rw [hd]
    show sub64 t.cycle_counter t.cycle_counter ≠ t.cycles_per_bit / 2
    rw [sub64_self]
    omega
  have hres : sample_rx t false o = (false, o, rx_detect t false) := by
    unfold sample_rx
    simp only [hm]
    rw [hd]
    simp [sub64_self]
    omega
  rw [hres, hd]

theorem rx_frame_start {C : Nat} (line : Nat → Bool) {t : UARTBitDriver} (o : Nat)
    (hC : t.cycles_per_bit = C) (hC2 : 2 ≤ C) (hcc : t.cycle_counter < 2 ^ 64)
    (hi : t.rx_bit_index = -1) (hp : t.rx_line_prev = true) (hl : line 0 = false) :
    (sample_rx t false o).1 = false ∧ (sample_rx t false o).2.1 = o ∧
      RxAt C line 0 0 (sample_rx t false o).2.2 := by
  rw [rx_frame_start_state o (by omega) hi hp]
  refine ⟨rfl, rfl, hC, rfl, sub64_self _, hcc, hcc, ?_, RxBits_start C line⟩
  show false = line (0 * C + 0)
  simp [hl]

end UARTBitDriver

namespace UARTBitDriver

theorem rx_run_upto {C : Nat} {line : Nat → Bool} {s : UARTBitDriver} (o K : Nat)
    (hC : s.cycles_per_bit = C) (hC2 : 2 ≤ C) (hC64 : C < 2 ^ 64)
    (hcc : s.cycle_counter < 2 ^ 64)
    (hi : s.rx_bit_index = -1) (hp : s.rx_line_prev = true) (hl0 : line 0 = false)
    (hstart : C / 2 ≤ K → line (C / 2) = false)
    (hstop : 9 * C + C / 2 ≤ K → line (9 * C + C / 2) = true) :
    ∀ k, k ≤ K → k < 10 * C →
      (rx_run s line o k).1 = false ∧ (rx_run s line o k).2.1 = o ∧
      RxAt C line (k / C) (k % C) (rx_run s line o k).2.2 := by
  intro k
  induction k with
  | zero =>
    intro _ _
    simp only [rx_run, hl0, Nat.zero_div, Nat.zero_mod]
    exact rx_frame_start line o hC hC2 hcc hi hp hl0
  | succ k ih =>
    intro hkK hk
    obtain ⟨_, ho, hinv⟩ := ih (by omega) (by omega)
    have hlt : k % C < C := Nat.mod_lt _ (by omega)
    have hdiv : (k + 1) / C < 10 := div_lt_of_lt_mul hk
    have hpos := Nat.div_add_mod' k C
    have hpre := hinv.pre (by omega)
    have hl : line (k + 1) = line (k / C * C + (k % C + 1)) := by
      congr 1; omega
    have hst : k / C = 0 → k % C + 1 = C / 2 → line (k + 1) = false := by
      intro h0 h1
      have : k + 1 = C / 2 := by rw [h0] at hpos; omega
      rw [this]; exact hstart (by omega)
    have hsp : k / C = 9 → k % C + 1 = C / 2 → line (k + 1) = true := by
      intro h0 h1
      have : k + 1 = 9 * C + C / 2 := by rw [h0] at hpos; omega
      rw [this]; exact hstop (by omega)
    simp only [rx_run, ho]
    by_cases hcase : k % C + 1 < C
    · obtain ⟨e1, e2⟩ := succ_div_mod_same hcase
      rw [e1, e2]
      exact rx_step_same_bit hpre (by omega) hcase _ o hl hst hsp
    · have hcase2 : k % C + 1 = C := by omega
      obtain ⟨e1, e2⟩ := succ_div_mod_next hcase2
      rw [e1, e2]
      exact rx_step_next_bit hpre (by omega) hC2 hcase2 _ o hl

theorem rx_run_emit {C : Nat} {line : Nat → Bool} {s : UARTBitDriver} (o : Nat)
    (hC : s.cycles_per_bit = C) (hC2 : 2 ≤ C) (hC64 : C < 2 ^ 64)
    (hcc : s.cycle_counter < 2 ^ 64)
    (hi : s.rx_bit_index = -1) (hp : s.rx_line_prev = true) (hl0 : line 0 = false)
    (hstart : line (C / 2) = false) (hstop : line (9 * C + C / 2) = true) :
    (rx_run s line o (10 * C)).1 = true ∧
    (∀ j, (rx_run s line o (10 * C)).2.1.testBit j =
      (decide (j < 8) && line ((j + 1) * C + C / 2))) ∧
    (rx_run s line o (10 * C)).2.2.rx_bit_index = -1 ∧
    (rx_run s line o (10 * C)).2.2.rx_line_prev = line (10 * C) := by
  obtain ⟨_, ho, hinv⟩ :=
    rx_run_upto o (10 * C - 1) hC hC2 hC64 hcc hi hp hl0 (fun _ => hstart) (fun _ => hstop)
      (10 * C - 1) (Nat.le_refl _) (by omega)
  have hd : (10 * C - 1) / C = 9 := Nat.div_eq_of_lt_le (by omega) (by omega)
  have hm : (10 * C - 1) % C = C - 1 := by
    have e : 10 * C - 1 = (C - 1) + C * 9 := by omega
    rw [e, Nat.add_mul_mod_self_left, Nat.mod_eq_of_lt (by omega)]
  rw [hd, hm] at hinv
  have hpre := hinv.pre (by omega)
  have hk : 10 * C = (10 * C - 1) + 1 := by omega
  have hl : line (10 * C) = line (9 * C + (C - 1 + 1)) := by
    congr 1; omega
  have := rx_step_emit hpre hC2 (by omega) (line (10 * C)) o hl
  obtain ⟨r1, r2, r3, r4, _⟩ := this
  rw [hk]
  simp only [rx_run, ho]
  rw [← hk]
  exact ⟨r1, r2, r3, r4⟩

theorem rx_run_idle {line : Nat → Bool} {s : UARTBitDriver} {o k0 : Nat}
    (h0 : (rx_run s line o k0).2.1 = o)
    (hi : (rx_run s line o k0).2.2.rx_bit_index = -1)
    (hp : (rx_run s line o k0).2.2.rx_line_prev = line k0) :
    ∀ n, (∀ j, k0 ≤ j → j < k0 + n → ¬ (line j = true ∧ line (j + 1) = false)) →
      (n ≠ 0 → (rx_run s line o (k0 + n)).1 = false) ∧
      (rx_run s line o (k0 + n)).2.1 = o ∧
      (rx_run s line o (k0 + n)).2.2.rx_bit_index = -1 ∧
      (rx_run s line o (k0 + n)).2.2.rx_line_prev = line (k0 + n) := by
  intro n
  induction n with
  | zero => intro _; exact ⟨fun h => absurd rfl h, h0, hi, hp⟩
  | succ n ih =>
    intro hne
    obtain ⟨_, a2, a3, a4⟩ := ih (fun j h1 h2 => hne j h1 (by omega))
    have hedge := hne (k0 + n) (by omega) (by omega)
    have hstep := rx_idle_no_edge (t := tick (rx_run s line o (k0 + n)).2.2)
      (line (k0 + n + 1)) o (by simpa [tick] using a3)
      (by
        show ¬ ((rx_run s line o (k0 + n)).2.2.rx_line_prev = true ∧ _)
        rw [a4]; exact hedge)
    have e : k0 + (n + 1) = (k0 + n) + 1 := by omega
    rw [e]
    simp only [rx_run, a2, hstep]
    exact ⟨fun _ => trivial, trivial, by simpa [tick] using a3, trivial⟩

end UARTBitDriver

namespace UARTBitDriver

theorem rx_detect_fields (t : UARTBitDriver) (l : Bool) :
    (rx_detect t l).cycles_per_bit = t.cycles_per_bit ∧
    (rx_detect t l).cycle_counter = t.cycle_counter ∧
    (rx_detect t l).tx_byte = t.tx_byte ∧
    (rx_detect t l).tx_bit_index = t.tx_bit_index ∧
    (rx_detect t l).tx_bit_start_cycle = t.tx_bit_start_cycle := by
  unfold rx_detect
  split_ifs <;> exact ⟨rfl, rfl, rfl, rfl, rfl⟩

theorem rx_midpoint_fields (t : UARTBitDriver) (l : Bool) (el : Nat) :
    (rx_midpoint t l el).2.cycles_per_bit = t.cycles_per_bit ∧
    (rx_midpoint t l el).2.cycle_counter = t.cycle_counter ∧
    (rx_midpoint t l el).2.tx_byte = t.tx_byte ∧
    (rx_midpoint t l el).2.tx_bit_index = t.tx_bit_index ∧
    (rx_midpoint t l el).2.tx_bit_start_cycle = t.tx_bit_start_cycle := by
  unfold rx_midpoint
  split_ifs <;> exact ⟨rfl, rfl, rfl, rfl, rfl⟩

theorem sample_rx_fields (t : UARTBitDriver) (l : Bool) (o : Nat) :
    (sample_rx t l o).2.2.cycles_per_bit = t.cycles_per_bit ∧
    (sample_rx t l o).2.2.cycle_counter = t.cycle_counter ∧
    (sample_rx t l o).2.2.tx_byte = t.tx_byte ∧
    (sample_rx t l o).2.2.tx_bit_index = t.tx_bit_index ∧
    (sample_rx t l o).2.2.tx_bit_start_cycle = t.tx_bit_start_cycle := by
  have hd := rx_detect_fields t l
  have hm := rx_midpoint_fields (rx_detect t l) l
    (sub64 (rx_detect t l).cycle_counter (rx_detect t l).rx_bit_start_cycle)
  have hmdef : ∃ m, m = rx_midpoint (rx_detect t l) l
    (sub64 (rx_detect t l).cycle_counter (rx_detect t l).rx_bit_start_cycle) := ⟨_, rfl⟩
  obtain ⟨m, hmeq⟩ := hmdef
  rw [← hmeq] at hm
  have key : ∀ (r : Bool × Nat × UARTBitDriver),
      (r = (false, o, rx_detect t l) ∨ r = (false, o, m.2) ∨
       r = (true, m.2.rx_byte, { m.2 with rx_bit_index := -1
                                          rx_bit_start_cycle := m.2.cycle_counter }) ∨
       r = (false, o, { m.2 with rx_bit_index := m.2.rx_bit_index + 1
                                 rx_bit_start_cycle := m.2.cycle_counter })) →
      r.2.2.cycles_per_bit = t.cycles_per_bit ∧
      r.2.2.cycle_counter = t.cycle_counter ∧
      r.2.2.tx_byte = t.tx_byte ∧
      r.2.2.tx_bit_index = t.tx_bit_index ∧
      r.2.2.tx_bit_start_cycle = t.tx_bit_start_cycle := by
    intro r hr
    obtain ⟨m1, m2, m3, m4, m5⟩ := hm
    obtain ⟨d1, d2, d3, d4, d5⟩ := hd
    rcases hr with h | h | h | h <;> subst h
    · exact ⟨d1, d2, d3, d4, d5⟩
    · exact ⟨m1.trans d1, m2.trans d2, m3.trans d3, m4.trans d4, m5.trans d5⟩
    · exact ⟨m1.trans d1, m2.trans d2, m3.trans d3, m4.trans d4, m5.trans d5⟩
    · exact ⟨m1.trans d1, m2.trans d2, m3.trans d3, m4.trans d4, m5.trans d5⟩
  apply key
  unfold sample_rx
  simp only [← hmeq]
  split_ifs
  · exact Or.inl rfl
  · exact Or.inr (Or.inl rfl)
  · exact Or.inr (Or.inr (Or.inl rfl))
  · exact Or.inr (Or.inr (Or.inr rfl))
  · exact Or.inr (Or.inl rfl)

end UARTBitDriver

namespace UARTBitDriver

theorem rx_run_cycles_per_bit (s : UARTBitDriver) (line : Nat → Bool) (o : Nat) :
    ∀ k, (rx_run s line o k).2.2.cycles_per_bit = s.cycles_per_bit := by
  intro k
  induction k with
  | zero => exact (sample_rx_fields s (line 0) o).1
  | succ k ih =>
    simp only [rx_run]
    rw [(sample_rx_fields _ _ _).1]
    exact ih

theorem byte_lt_of_bits {b : Nat} {f : Nat → Bool}
    (h : ∀ j, b.testBit j = (decide (j < 8) && f j)) : b < 256 := by
  have : b < 2 ^ 8 := by
    apply Nat.lt_pow_two_of_testBit
    intro i hi
    rw [h i]
    have : ¬ (i < 8) := by omega
    simp [this]
  simpa using this

/-- C3: with `C ≥ 2` cycles per bit, an idle receiver that sees a falling edge
at call 0 of a per-cycle line trace, low at the start-bit midpoint `C/2` and
high at the stop-bit midpoint `9*C + C/2`, returns false at every call before
`10*C` and true at call `10*C`, is idle afterwards, and emits the byte whose
bit `i` (`i < 8`) is the level at the single midpoint `(i+1)*C + C/2`; the byte
is the same for every other trace with the same levels at those midpoints. -/
theorem C3_receive_decoding (s : UARTBitDriver) (C : Nat) (line : Nat → Bool) (out : Nat)
    (hw : WF s) (hC : s.cycles_per_bit = C) (hC2 : 2 ≤ C)
    (hidle : s.rx_bit_index = -1) (hprev : s.rx_line_prev = true)
    (hedge : line 0 = false) (hstart : line (C / 2) = false)
    (hstop : line (9 * C + C / 2) = true) :
    (∀ k, k < 10 * C → (rx_run s line out k).1 = false) ∧
    (rx_run s line out (10 * C)).1 = true ∧
    (rx_run s line out (10 * C)).2.2.rx_bit_index = -1 ∧
    (∀ i, i < 8 →
      (rx_run s line out (10 * C)).2.1.testBit i = line ((i + 1) * C + C / 2)) ∧
    (rx_run s line out (10 * C)).2.1 < 256 ∧
    (∀ line2 : Nat → Bool, line2 0 = false → line2 (C / 2) = false →
      line2 (9 * C + C / 2) = true →
      (∀ i, i < 8 → line2 ((i + 1) * C + C / 2) = line ((i + 1) * C + C / 2)) →
      (rx_run s line2 out (10 * C)).2.1 = (rx_run s line out (10 * C)).2.1) := by
  have hC64 : C < 2 ^ 64 := by rw [← hC]; exact hw.2.1
  have hcc := hw.1
  obtain ⟨r1, r2, r3, _⟩ := rx_run_emit out hC hC2 hC64 hcc hidle hprev hedge hstart hstop
  refine ⟨?_, r1, r3, ?_, byte_lt_of_bits r2, ?_⟩
  · intro k hk
    exact (rx_run_upto out (10 * C) hC hC2 hC64 hcc hidle hprev hedge (fun _ => hstart)
      (fun _ => hstop) k (by omega) hk).1
  · intro i hi
    rw [r2 i]; simp [hi]
  · intro line2 g0 g1 g2 hsame
    obtain ⟨_, q2, _, _⟩ := rx_run_emit out hC hC2 hC64 hcc hidle hprev g0 g1 g2
    apply Nat.eq_of_testBit_eq
    intro j
    rw [q2 j, r2 j]
    by_cases hj : j < 8
    · rw [hsame j hj]
    · simp [hj]

/-- Witness of C3: 2 cycles per bit, a line that is low for calls 0..2 and high
from call 3 on. -/
theorem C3_receive_decoding_witness :
    WF (init 4 2 0) ∧
    (rx_run (init 4 2 0) (fun k => decide (3 ≤ k)) 0 (10 * 2)).1 = true ∧
    (rx_run (init 4 2 0) (fun k => decide (3 ≤ k)) 0 (10 * 2)).2.1 < 256 :=
  ⟨by decide,
   (C3_receive_decoding (init 4 2 0) 2 (fun k => decide (3 ≤ k)) 0 (by decide) (by decide)
     (by decide) (by decide) (by decide) (by decide) (by decide) (by decide)).2.1,
   (C3_receive_decoding (init 4 2 0) 2 (fun k => decide (3 ≤ k)) 0 (by decide) (by decide)
     (by decide) (by decide) (by decide) (by decide) (by decide) (by decide)).2.2.2.2.1⟩

end UARTBitDriver

namespace UARTBitDriver

theorem rx_run_start_abort {C : Nat} {line : Nat → Bool} {s : UARTBitDriver} (o : Nat)
    (hC : s.cycles_per_bit = C) (hC2 : 2 ≤ C) (hC64 : C < 2 ^ 64)
    (hcc : s.cycle_counter < 2 ^ 64)
    (hi : s.rx_bit_index = -1) (hp : s.rx_line_prev = true) (hl0 : line 0 = false)
    (hhigh : line (C / 2) = true) :
    (rx_run s line o (C / 2)).1 = false ∧ (rx_run s line o (C / 2)).2.1 = o ∧
    (rx_run s line o (C / 2)).2.2.rx_bit_index = -1 ∧
    (rx_run s line o (C / 2)).2.2.rx_line_prev = line (C / 2) := by
  obtain ⟨_, ho, hinv⟩ :=
    rx_run_upto o (C / 2 - 1) hC hC2 hC64 hcc hi hp hl0 (fun h => by omega)
      (fun h => by omega) (C / 2 - 1) (Nat.le_refl _) (by omega)
  have hd : (C / 2 - 1) / C = 0 := Nat.div_eq_of_lt (by omega)
  have hm : (C / 2 - 1) % C = C / 2 - 1 := Nat.mod_eq_of_lt (by omega)
  rw [hd, hm] at hinv
  obtain ⟨p1, p2, p3, _⟩ := hinv.pre (by omega)
  have hk : C / 2 = (C / 2 - 1) + 1 := by omega
  have hstep := rx_step_start_error (t := tick (rx_run s line o (C / 2 - 1)).2.2) o
    (by simpa using p2) (by rw [p3, p1]; omega)
  have hrun : rx_run s line o (C / 2) =
      sample_rx (tick (rx_run s line o (C / 2 - 1)).2.2) true o := by
    conv_lhs => rw [hk]
    simp only [rx_run, ho]
    rw [← hk, hhigh]
  rw [hrun, hstep, hhigh]
  exact ⟨rfl, rfl, rfl, rfl⟩

theorem rx_run_stop_abort {C : Nat} {line : Nat → Bool} {s : UARTBitDriver} (o : Nat)
    (hC : s.cycles_per_bit = C) (hC2 : 2 ≤ C) (hC64 : C < 2 ^ 64)
    (hcc : s.cycle_counter < 2 ^ 64)
    (hi : s.rx_bit_index = -1) (hp : s.rx_line_prev = true) (hl0 : line 0 = false)
    (hstart : line (C / 2) = false) (hlow : line (9 * C + C / 2) = false) :
    (rx_run s line o (9 * C + C / 2)).1 = false ∧
    (rx_run s line o (9 * C + C / 2)).2.1 = o ∧
    (rx_run s line o (9 * C + C / 2)).2.2.rx_bit_index = -1 ∧
    (rx_run s line o (9 * C + C / 2)).2.2.rx_line_prev = line (9 * C + C / 2) := by
  obtain ⟨_, ho, hinv⟩ :=
    rx_run_upto o (9 * C + C / 2 - 1) hC hC2 hC64 hcc hi hp hl0 (fun _ => hstart)
      (fun h => by omega) (9 * C + C / 2 - 1) (Nat.le_refl _) (by omega)
  have hd : (9 * C + C / 2 - 1) / C = 9 := Nat.div_eq_of_lt_le (by omega) (by omega)
  have hm : (9 * C + C / 2 - 1) % C = C / 2 - 1 := by
    have e : 9 * C + C / 2 - 1 = (C / 2 - 1) + C * 9 := by omega
    rw [e, Nat.add_mul_mod_self_left, Nat.mod_eq_of_lt (by omega)]
  rw [hd, hm] at hinv
  obtain ⟨p1, p2, p3, _⟩ := hinv.pre (by omega)
  have hk : 9 * C + C / 2 = (9 * C + C / 2 - 1) + 1 := by omega
  have hstep := rx_step_stop_error (t := tick (rx_run s line o (9 * C + C / 2 - 1)).2.2) o
    (by simpa using p2) (by rw [p3, p1]; omega)
  have hrun : rx_run s line o (9 * C + C / 2) =
      sample_rx (tick (rx_run s line o (9 * C + C / 2 - 1)).2.2) false o := by
    conv_lhs => rw [hk]
    simp only [rx_run, ho]
    rw [← hk, hlow]
  rw [hrun, hstep, hlow]
  exact ⟨rfl, rfl, rfl, rfl⟩

end UARTBitDriver

namespace UARTBitDriver

/-- C6: with `C ≥ 2` cycles per bit, if an idle receiver starts a frame on a
falling edge at call 0 and the level at the start-bit midpoint (call `C/2`) is
high, then every call up to and including that one returns false and leaves the
output byte unwritten, the receiver is idle after it, and the next
high-to-low transition of the line (at call `C/2 + n + 1`) starts a new frame:
no call up to it returns true, and it leaves `rx_bit_index = 0`, a cleared
accumulator and the current cycle as bit-start time. -/
theorem C6_start_bit_framing_error (s : UARTBitDriver) (C : Nat) (line : Nat → Bool)
    (out : Nat) (hw : WF s) (hC : s.cycles_per_bit = C) (hC2 : 2 ≤ C)
    (hidle : s.rx_bit_index = -1) (hprev : s.rx_line_prev = true)
    (hedge : line 0 = false) (hhigh : line (C / 2) = true) :
    (∀ k, k ≤ C / 2 →
      (rx_run s line out k).1 = false ∧ (rx_run s line out k).2.1 = out) ∧
    (rx_run s line out (C / 2)).2.2.rx_bit_index = -1 ∧
    (∀ n, (∀ j, C / 2 ≤ j → j < C / 2 + n → ¬ (line j = true ∧ line (j + 1) = false)) →
      line (C / 2 + n) = true → line (C / 2 + n + 1) = false →
      (∀ k, k ≤ C / 2 + n + 1 →
        (rx_run s line out k).1 = false ∧ (rx_run s line out k).2.1 = out) ∧
      (rx_run s line out (C / 2 + n + 1)).2.2.rx_bit_index = 0 ∧
      (rx_run s line out (C / 2 + n + 1)).2.2.rx_byte = 0 ∧
      (rx_run s line out (C / 2 + n + 1)).2.2.rx_bit_start_cycle =
        (rx_run s line out (C / 2 + n + 1)).2.2.cycle_counter) := by
  have hC64 : C < 2 ^ 64 := by rw [← hC]; exact hw.2.1
  have hcc := hw.1
  obtain ⟨a1, a2, a3, a4⟩ :=
    rx_run_start_abort out hC hC2 hC64 hcc hidle hprev hedge hhigh
  have hbefore : ∀ k, k ≤ C / 2 →
      (rx_run s line out k).1 = false ∧ (rx_run s line out k).2.1 = out := by
    intro k hk
    by_cases hlt : k < C / 2
    · obtain ⟨b1, b2, _⟩ :=
        rx_run_upto out (C / 2 - 1) hC hC2 hC64 hcc hidle hprev hedge (fun h => by omega)
          (fun h => by omega) k (by omega) (by omega)
      exact ⟨b1, b2⟩
    · have : k = C / 2 := by omega
      subst this
      exact ⟨a1, a2⟩
  refine ⟨hbefore, a3, ?_⟩
  intro n hno hlast hfall
  have hidl := rx_run_idle a2 a3 a4
  obtain ⟨_, c2, c3, c4⟩ := hidl n hno
  have hcpb := rx_run_cycles_per_bit s line out (C / 2 + n)
  have hstep := rx_frame_start_state
    (t := tick (rx_run s line out (C / 2 + n)).2.2) out
    (by show 2 ≤ (rx_run s line out (C / 2 + n)).2.2.cycles_per_bit; rw [hcpb, hC]; exact hC2)
    (by simpa [tick] using c3)
    (by show (rx_run s line out (C / 2 + n)).2.2.rx_line_prev = true; rw [c4]; exact hlast)
  have hrun : rx_run s line out (C / 2 + n + 1) =
      sample_rx (tick (rx_run s line out (C / 2 + n)).2.2) false out := by
    simp only [rx_run, c2, hfall]
  refine ⟨?_, ?_, ?_, ?_⟩
  · intro k hk
    by_cases h1 : k ≤ C / 2
    · exact hbefore k h1
    · by_cases h2 : k ≤ C / 2 + n
      · obtain ⟨d1, d2, _⟩ := hidl (k - C / 2) (fun j g1 g2 => hno j g1 (by omega))
        have e : C / 2 + (k - C / 2) = k := by omega
        rw [e] at d1 d2
        exact ⟨d1 (by omega), d2⟩
      · have : k = C / 2 + n + 1 := by omega
        subst this
        rw [hrun, hstep]
        exact ⟨rfl, rfl⟩
  · rw [hrun, hstep]
  · rw [hrun, hstep]
  · rw [hrun, hstep]

/-- Witness of C6: 2 cycles per bit; the line is low at call 0, high at call 1
(the start-bit midpoint) and call 2, low again at call 3. -/
theorem C6_start_bit_framing_error_witness :
    WF (init 4 2 0) ∧
    (rx_run (init 4 2 0) (fun k => decide (k = 1 ∨ k = 2)) 7 (2 / 2)).2.2.rx_bit_index = -1 ∧
    (rx_run (init 4 2 0) (fun k => decide (k = 1 ∨ k = 2)) 7 (2 / 2 + 1 + 1)).2.2.rx_bit_index
      = 0 :=
  ⟨by decide,
   (C6_start_bit_framing_error (init 4 2 0) 2 (fun k => decide (k = 1 ∨ k = 2)) 7 (by decide)
     (by decide) (by decide) (by decide) (by decide) (by decide) (by decide)).2.1,
   ((C6_start_bit_framing_error (init 4 2 0) 2 (fun k => decide (k = 1 ∨ k = 2)) 7 (by decide)
     (by decide) (by decide) (by decide) (by decide) (by decide) (by decide)).2.2 1
     (by decide) (by decide) (by decide)).2.1⟩

/-- C7: with `C ≥ 2` cycles per bit, if the line is low at the stop-bit
midpoint (call `9*C + C/2`) of a frame that started on a falling edge at call 0
with a low start bit, then every call up to and including that one returns
false and leaves the output byte unwritten, the receiver is idle after it, and
as long as no new falling edge occurs every later call returns false, leaves
the output byte unwritten and leaves the receiver idle. -/
theorem C7_stop_bit_framing_error (s : UARTBitDriver) (C : Nat) (line : Nat → Bool)
    (out : Nat) (hw : WF s) (hC : s.cycles_per_bit = C) (hC2 : 2 ≤ C)
    (hidle : s.rx_bit_index = -1) (hprev : s.rx_line_prev = true)
    (hedge : line 0 = false) (hstart : line (C / 2) = false)
    (hlow : line (9 * C + C / 2) = false) :
    (∀ k, k ≤ 9 * C + C / 2 →
      (rx_run s line out k).1 = false ∧ (rx_run s line out k).2.1 = out) ∧
    (rx_run s line out (9 * C + C / 2)).2.2.rx_bit_index = -1 ∧
    (∀ n, (∀ j, 9 * C + C / 2 ≤ j → j < 9 * C + C / 2 + n →
          ¬ (line j = true ∧ line (j + 1) = false)) →
      (rx_run s line out (9 * C + C / 2 + n)).1 = false ∧
      (rx_run s line out (9 * C + C / 2 + n)).2.1 = out ∧
      (rx_run s line out (9 * C + C / 2 + n)).2.2.rx_bit_index = -1) := by
  have hC64 : C < 2 ^ 64 := by rw [← hC]; exact hw.2.1
  have hcc := hw.1
  obtain ⟨a1, a2, a3, a4⟩ :=
    rx_run_stop_abort out hC hC2 hC64 hcc hidle hprev hedge hstart hlow
  refine ⟨?_, a3, ?_⟩
  · intro k hk
    by_cases hlt : k < 9 * C + C / 2
    · obtain ⟨b1, b2, _⟩ :=
        rx_run_upto out (9 * C + C / 2 - 1) hC hC2 hC64 hcc hidle hprev hedge
          (fun _ => hstart) (fun h => by omega) k (by omega) (by omega)
      exact ⟨b1, b2⟩
    · have : k = 9 * C + C / 2 := by omega
      subst this
      exact ⟨a1, a2⟩
  · intro n hno
    obtain ⟨c1, c2, c3, _⟩ := rx_run_idle a2 a3 a4 n hno
    refine ⟨?_, c2, c3⟩
    by_cases hn : n = 0
    · subst hn; exact a1
    · exact c1 hn

/-- Witness of C7: 2 cycles per bit and a line that stays low. -/
theorem C7_stop_bit_framing_error_witness :
    WF (init 4 2 0) ∧
    (rx_run (init 4 2 0) (fun _ => false) 7 (9 * 2 + 2 / 2)).2.2.rx_bit_index = -1 ∧
    (rx_run (init 4 2 0) (fun _ => false) 7 (9 * 2 + 2 / 2 + 5)).2.1 = 7 :=
  ⟨by decide,
   (C7_stop_bit_framing_error (init 4 2 0) 2 (fun _ => false) 7 (by decide) (by decide)
     (by decide) (by decide) (by decide) (by decide) (by decide) (by decide)).2.1,
   ((C7_stop_bit_framing_error (init 4 2 0) 2 (fun _ => false) 7 (by decide) (by decide)
     (by decide) (by decide) (by decide) (by decide) (by decide) (by decide)).2.2 5
     (by decide)).2.1⟩

end UARTBitDriver

namespace UARTBitDriver

set_option maxRecDepth 100000 in
/-- C8 fails as stated: with 2 cycles per bit, the call at the start-bit
midpoint of a frame (line high) aborts the frame, and the call at the stop-bit
midpoint of a frame on a line that stays low aborts that frame; both give the
caller the same return value and output byte as a call on the idle receiver in
which nothing happens. -/
theorem C8_counterexample :
    rx_framing_error (tick (rx_run (init 4 2 0) (fun k => decide (1 ≤ k)) 7 0).2.2) true = true ∧
    rx_framing_error (tick (rx_run (init 4 2 0) (fun _ => false) 7 18).2.2) false = true ∧
    rx_framing_error (init 4 2 0) true = false ∧
    (sample_rx (init 4 2 0) true 7).1 = false ∧
    ((sample_rx (tick (rx_run (init 4 2 0) (fun k => decide (1 ≤ k)) 7 0).2.2) true 7).1,
     (sample_rx (tick (rx_run (init 4 2 0) (fun k => decide (1 ≤ k)) 7 0).2.2) true 7).2.1) =
      ((sample_rx (init 4 2 0) true 7).1, (sample_rx (init 4 2 0) true 7).2.1) ∧
    ((sample_rx (tick (rx_run (init 4 2 0) (fun _ => false) 7 18).2.2) false 7).1,
     (sample_rx (tick (rx_run (init 4 2 0) (fun _ => false) 7 18).2.2) false 7).2.1) =
      ((sample_rx (init 4 2 0) true 7).1, (sample_rx (init 4 2 0) true 7).2.1) := by
  refine ⟨by decide, by decide, by decide, by decide, by decide, by decide⟩

/-- C8 (amended): a framing error is not visible in the result of `sample_rx`.
A call that aborts a frame returns false and leaves the output byte as it was,
and so does every call that returns false; the two results are the same. -/
theorem C8_framing_error_not_reported (s : UARTBitDriver) (rx_line : Bool) (byte_out : Nat) :
    (rx_framing_error s rx_line = true →
      (sample_rx s rx_line byte_out).1 = false ∧
      (sample_rx s rx_line byte_out).2.1 = byte_out) ∧
    ((sample_rx s rx_line byte_out).1 = false →
      (sample_rx s rx_line byte_out).2.1 = byte_out) := by
  constructor
  · intro h
    unfold rx_framing_error at h
    unfold sample_rx
    simp only at h ⊢
    split_ifs at h ⊢
    all_goals simp_all
  · intro h
    unfold sample_rx at h ⊢
    simp only at h ⊢
    split_ifs at h ⊢
    all_goals simp_all

/-- Witness of C8 (amended): the aborting call of the counterexample. -/
theorem C8_framing_error_not_reported_witness :
    (sample_rx (tick (rx_run (init 4 2 0) (fun k => decide (1 ≤ k)) 7 0).2.2) true 7).1 = false ∧
    (sample_rx (tick (rx_run (init 4 2 0) (fun k => decide (1 ≤ k)) 7 0).2.2) true 7).2.1 = 7 :=
  (C8_framing_error_not_reported
    (tick (rx_run (init 4 2 0) (fun k => decide (1 ≤ k)) 7 0).2.2) true 7).1 (by decide)

end UARTBitDriver

namespace UARTBitDriver

theorem get_tx_line_rxSame (s : UARTBitDriver) : rxSame (get_tx_line s).2 s := by
  unfold get_tx_line tx_advance
  simp only
  split_ifs <;> exact ⟨rfl, rfl, rfl, rfl, rfl, rfl⟩

theorem start_tx_rxSame (s : UARTBitDriver) (v : Nat) : rxSame (start_tx s v).2 s := by
  unfold start_tx
  split_ifs <;> exact ⟨rfl, rfl, rfl, rfl, rfl, rfl⟩

theorem rxSame.trans {a b c : UARTBitDriver} (h1 : rxSame a b) (h2 : rxSame b c) :
    rxSame a c := by
  obtain ⟨a1, a2, a3, a4, a5, a6⟩ := h1
  obtain ⟨b1, b2, b3, b4, b5, b6⟩ := h2
  exact ⟨a1.trans b1, a2.trans b2, a3.trans b3, a4.trans b4, a5.trans b5, a6.trans b6⟩

theorem TxAt_sample_rx {C v i e : Nat} {t : UARTBitDriver} (h : TxAt C v i e t)
    (l : Bool) (o : Nat) : TxAt C v i e (sample_rx t l o).2.2 := by
  obtain ⟨f1, f2, f3, f4, f5⟩ := sample_rx_fields t l o
  unfold TxAt
  rw [f1, f2, f3, f4, f5]
  exact h

theorem rx_step_no_error {C : Nat} {line : Nat → Bool} {i e : Nat} {t : UARTBitDriver}
    (h : RxPre C line i e t) (hi : i ≤ 9) (l : Bool)
    (hl : l = line (i * C + (e + 1)))
    (hstart : i = 0 → e + 1 = C / 2 → l = false)
    (hstop : i = 9 → e + 1 = C / 2 → l = true) :
    rx_framing_error t l = false := by
  obtain ⟨b, _, hm⟩ := rx_midpoint_ok h hi l hl hstart hstop
  have hidx : t.rx_bit_index ≠ -1 := by have := h.2.1; omega
  unfold rx_framing_error
  simp only [rx_detect_busy l hidx, hm]
  simp [hidx]

theorem rx_idle_no_error {t : UARTBitDriver} (l : Bool)
    (hi : t.rx_bit_index = -1) (hne : ¬ (t.rx_line_prev = true ∧ l = false)) :
    rx_framing_error t l = false := by
  simp [rx_framing_error, rx_detect, hi, hne]

theorem rx_frame_start_no_error {t : UARTBitDriver}
    (hC2 : 2 ≤ t.cycles_per_bit)
    (hi : t.rx_bit_index = -1) (hp : t.rx_line_prev = true) :
    rx_framing_error t false = false := by
  have hd : rx_detect t false = { t with rx_bit_index := 0
                                         rx_bit_start_cycle := t.cycle_counter
                                         rx_byte := 0
                                         rx_line_prev := false } := by
    simp [rx_detect, hi, hp]
  have hm : rx_midpoint (rx_detect t false) false
      (sub64 (rx_detect t false).cycle_counter (rx_detect t false).rx_bit_start_cycle) =
      (false, rx_detect t false) := by
    apply rx_midpoint_off
    rw [hd]
    show sub64 t.cycle_counter t.cycle_counter ≠ t.cycles_per_bit / 2
    rw [sub64_self]
    omega
  unfold rx_framing_error
  simp only [hm]
  simp

theorem tx_step_k {C v k : Nat} {d : UARTBitDriver} (h : TxAt C v (k / C) (k % C) d)
    (hk : k + 1 < 10 * C) (hC : C < 2 ^ 64) :
    (get_tx_line (tick d)).1 = frame_level C v (k + 1) ∧
      TxAt C v ((k + 1) / C) ((k + 1) % C) (get_tx_line (tick d)).2 := by
  have hC1 : 1 ≤ C := by omega
  have hlt : k % C < C := Nat.mod_lt _ (by omega)
  have hdiv : (k + 1) / C < 10 := div_lt_of_lt_mul hk
  rw [frame_level_eq hC1]
  by_cases hcase : k % C + 1 < C
  · obtain ⟨e1, e2⟩ := succ_div_mod_same hcase
    rw [e1, e2]
    exact tx_step_same_bit h (by omega) hcase hC
  · have hcase2 : k % C + 1 = C := by omega
    obtain ⟨e1, e2⟩ := succ_div_mod_next hcase2
    rw [e1, e2]
    exact tx_step_next_bit h (by omega) hcase2 hC

theorem rx_step_k {C : Nat} {line : Nat → Bool} {k : Nat} {t : UARTBitDriver}
    (h : RxPre C line (k / C) (k % C) t) (hk : k + 1 < 10 * C) (hC2 : 2 ≤ C)
    (l : Bool) (o : Nat) (hl : l = line (k + 1))
    (hstart : k + 1 = C / 2 → l = false)
    (hstop : k + 1 = 9 * C + C / 2 → l = true) :
    (sample_rx t l o).1 = false ∧ (sample_rx t l o).2.1 = o ∧
      RxAt C line ((k + 1) / C) ((k + 1) % C) (sample_rx t l o).2.2 ∧
      rx_framing_error t l = false := by
  have hlt : k % C < C := Nat.mod_lt _ (by omega)
  have hdiv : (k + 1) / C < 10 := div_lt_of_lt_mul hk
  have hpos := Nat.div_add_mod' k C
  have hl2 : l = line (k / C * C + (k % C + 1)) := by
    rw [hl]; congr 1; omega
  have hst : k / C = 0 → k % C + 1 = C / 2 → l = false := by
    intro h0 h1
    exact hstart (by rw [h0] at hpos; omega)
  have hsp : k / C = 9 → k % C + 1 = C / 2 → l = true := by
    intro h0 h1
    exact hstop (by rw [h0] at hpos; omega)
  by_cases hcase : k % C + 1 < C
  · obtain ⟨e1, e2⟩ := succ_div_mod_same hcase
    have hi9 : k / C ≤ 9 := by omega
    rw [e1, e2]
    obtain ⟨r1, r2, r3⟩ := rx_step_same_bit h hi9 hcase l o hl2 hst hsp
    exact ⟨r1, r2, r3, rx_step_no_error h hi9 l hl2 hst hsp⟩
  · have hcase2 : k % C + 1 = C := by omega
    obtain ⟨e1, e2⟩ := succ_div_mod_next hcase2
    have hi9 : k / C < 9 := by omega
    rw [e1, e2]
    obtain ⟨r1, r2, r3⟩ := rx_step_next_bit h hi9 hC2 hcase2 l o hl2
    exact ⟨r1, r2, r3, rx_step_no_error h (by omega) l hl2 hst hsp⟩

end UARTBitDriver

namespace UARTBitDriver

theorem frame_level_start {C v k : Nat} (hk : k < C) : frame_level C v k = false := by
  simp [frame_level, hk]

theorem frame_level_stop {C v k : Nat} (hk : 9 * C ≤ k) : frame_level C v k = true := by
  have h1 : ¬ (k < C) := by omega
  have h2 : ¬ (k < 9 * C) := by omega
  simp [frame_level, h1, h2]

theorem frame_level_data {C v j : Nat} (hC : 2 ≤ C) (hj : j < 8) :
    frame_level C v ((j + 1) * C + C / 2) = v.testBit j := by
  have hlo : (j + 1) * C ≤ (j + 1) * C + C / 2 := by omega
  have hhi : (j + 1) * C + C / 2 < (j + 1 + 1) * C := by
    rw [Nat.succ_mul (j + 1) C]; omega
  have hd : ((j + 1) * C + C / 2) / C = j + 1 := Nat.div_eq_of_lt_le hlo hhi
  have h1 : ¬ ((j + 1) * C + C / 2 < C) := by
    have : C ≤ (j + 1) * C := Nat.le_mul_of_pos_left C (by omega)
    omega
  have h2 : (j + 1) * C + C / 2 < 9 * C := by
    have : (j + 1 + 1) * C ≤ 9 * C := Nat.mul_le_mul_right C (by omega)
    omega
  simp [frame_level, h1, h2, hd]

theorem byte_eq_of_bits {b v C : Nat} (hC : 2 ≤ C) (hv : v < 256)
    (h : ∀ j, b.testBit j = (decide (j < 8) && frame_level C v ((j + 1) * C + C / 2))) :
    b = v := by
  apply Nat.eq_of_testBit_eq
  intro j
  rw [h j]
  by_cases hj : j < 8
  · simp [hj, frame_level_data hC hj]
  · have hp : (2 : Nat) ^ 8 ≤ 2 ^ j := Nat.pow_le_pow_right (by omega) (by omega)
    have : v < 2 ^ j := by omega
    simp [hj, Nat.testBit_lt_two_pow this]

end UARTBitDriver

namespace Loopback

open UARTBitDriver

theorem finish_frame_step {C v k : Nat} (L : Loopback) (p : List Nat)
    (h : InFrame C v k L.drv) (hk : k + 1 < 10 * C) (hC2 : 2 ≤ C) (hC : C < 2 ^ 64) :
    InFrame C v (k + 1) (finish (tick L.drv) p L).drv ∧
    (finish (tick L.drv) p L).pending = p ∧
    (finish (tick L.drv) p L).received = L.received ∧
    (finish (tick L.drv) p L).framing_errors = L.framing_errors := by
  obtain ⟨htx, hrx⟩ := h
  have hlt : k % C < C := Nat.mod_lt _ (by omega)
  obtain ⟨t1, t2⟩ := tx_step_k htx hk hC
  have hpre : RxPre C (frame_level C v) (k / C) (k % C) (get_tx_line (tick L.drv)).2 :=
    RxPre.congr (get_tx_line_rxSame _) (hrx.pre (by omega))
  obtain ⟨r1, _, r3, r4⟩ := rx_step_k hpre hk hC2 (get_tx_line (tick L.drv)).1 0 t1
    (fun h' => by rw [t1]; exact frame_level_start (by omega))
    (fun h' => by rw [t1]; exact frame_level_stop (by omega))
  refine ⟨⟨TxAt_sample_rx t2 _ _, r3⟩, rfl, ?_, ?_⟩
  · simp only [finish, r1]; rfl
  · simp only [finish, r4]; rfl

theorem finish_frame_end {C v : Nat} (L : Loopback) (p : List Nat)
    (h : InFrame C v (10 * C - 1) L.drv) (hC2 : 2 ≤ C) (hC : C < 2 ^ 64) (hv : v < 256) :
    Ready C (finish (tick L.drv) p L).drv ∧
    (finish (tick L.drv) p L).pending = p ∧
    (finish (tick L.drv) p L).received = L.received ++ [v] ∧
    (finish (tick L.drv) p L).framing_errors = L.framing_errors := by
  obtain ⟨htx, hrx⟩ := h
  have hd : (10 * C - 1) / C = 9 := Nat.div_eq_of_lt_le (by omega) (by omega)
  have hm : (10 * C - 1) % C = C - 1 := by
    have e : 10 * C - 1 = (C - 1) + C * 9 := by omega
    rw [e, Nat.add_mul_mod_self_left, Nat.mod_eq_of_lt (by omega)]
  rw [hd, hm] at htx hrx
  obtain ⟨t1, t2⟩ := tx_step_done htx (by omega) hC
  have hsame := get_tx_line_rxSame (tick L.drv)
  have hpre : RxPre C (frame_level C v) 9 (C - 1) (get_tx_line (tick L.drv)).2 :=
    RxPre.congr hsame (hrx.pre (by omega))
  have hl : (get_tx_line (tick L.drv)).1 = frame_level C v (9 * C + (C - 1 + 1)) := by
    rw [t1, frame_level_stop (by omega)]
  obtain ⟨r1, r2, r3, r4, r5, r6, _⟩ := rx_step_emit hpre hC2 (by omega) _ 0 hl
  have hne : C - 1 + 1 ≠ C / 2 := by omega
  have r7 := rx_step_no_error hpre (by omega) _ hl (fun _ h' => absurd h' hne)
    (fun _ h' => absurd h' hne)
  have hbyte := byte_eq_of_bits hC2 hv r2
  refine ⟨⟨r5, ?_, r3, ?_, ?_⟩, rfl, ?_, ?_⟩
  · show (sample_rx _ _ _).2.2.tx_bit_index = -1
    rw [(sample_rx_fields _ _ _).2.2.2.1]; exact t2
  · show (sample_rx _ _ _).2.2.rx_line_prev = true
    rw [r4]; exact t1
  · show (sample_rx _ _ _).2.2.cycle_counter < 2 ^ 64
    rw [r6, hsame.1]
    exact inc64_lt _
  · simp only [finish, r1, hbyte]; rfl
  · simp only [finish, r7]; rfl

theorem finish_frame_begin {C : Nat} (v : Nat) (L : Loopback) (p : List Nat)
    (h : Ready C L.drv) (hC2 : 2 ≤ C) :
    InFrame C v 0 (finish (start_tx (tick L.drv) v).2 p L).drv ∧
    (finish (start_tx (tick L.drv) v).2 p L).pending = p ∧
    (finish (start_tx (tick L.drv) v).2 p L).received = L.received ∧
    (finish (start_tx (tick L.drv) v).2 p L).framing_errors = L.framing_errors := by
  obtain ⟨g1, g2, g3, g4, g5⟩ := h
  have hcc : (tick L.drv).cycle_counter < 2 ^ 64 := inc64_lt _
  obtain ⟨_, htx⟩ := start_tx_TxAt (s := tick L.drv) v hcc (by simpa [tick] using g2)
  have hC' : (tick L.drv).cycles_per_bit = C := g1
  rw [hC'] at htx
  have hfirst := tx_first_call htx (by omega)
  obtain ⟨q1, q2, q3, q4, q5, q6⟩ := start_tx_rxSame (tick L.drv) v
  have hst := rx_frame_start (C := C) (frame_level C v)
    (t := (start_tx (tick L.drv) v).2) 0
    (by rw [q2]; exact g1) hC2 (by rw [q1]; exact hcc) (by rw [q3]; exact g3)
    (by rw [q6]; exact g4) (frame_level_start (by omega))
  have herr := rx_frame_start_no_error (t := (start_tx (tick L.drv) v).2)
    (by rw [q2, hC']; exact hC2) (by rw [q3]; exact g3) (by rw [q6]; exact g4)
  obtain ⟨r1, _, r3⟩ := hst
  have hdrv : (finish (start_tx (tick L.drv) v).2 p L).drv =
      (sample_rx (start_tx (tick L.drv) v).2 false 0).2.2 := by
    simp only [finish, hfirst]
  refine ⟨?_, rfl, ?_, ?_⟩
  · rw [hdrv]
    simp only [InFrame, Nat.zero_div, Nat.zero_mod]
    exact ⟨TxAt_sample_rx htx _ _, r3⟩
  · simp only [finish, hfirst, r1]; rfl
  · simp only [finish, hfirst, herr]; rfl

theorem finish_ready {C : Nat} (L : Loopback) (p : List Nat) (h : Ready C L.drv) :
    Ready C (finish (tick L.drv) p L).drv ∧
    (finish (tick L.drv) p L).pending = p ∧
    (finish (tick L.drv) p L).received = L.received ∧
    (finish (tick L.drv) p L).framing_errors = L.framing_errors := by
  obtain ⟨g1, g2, g3, g4, g5⟩ := h
  have hpoll := tx_idle_poll (s := L.drv) g2
  have hne : ¬ ((tick L.drv).rx_line_prev = true ∧ true = false) := by simp
  have hrx := rx_idle_no_edge (t := tick L.drv) true 0 (by simpa [tick] using g3) hne
  have herr := rx_idle_no_error (t := tick L.drv) true (by simpa [tick] using g3) hne
  refine ⟨?_, rfl, ?_, ?_⟩
  · simp only [finish, hpoll, hrx]
    exact ⟨g1, g2, g3, rfl, inc64_lt _⟩
  · simp only [finish, hpoll, hrx]; rfl
  · simp only [finish, hpoll, herr]; rfl

end Loopback

namespace Loopback

open UARTBitDriver

theorem loop_cycle_busy (L : Loopback) (h : L.drv.tx_bit_index ≠ -1) :
    loop_cycle L = finish (tick L.drv) L.pending L := by
  unfold loop_cycle
  cases hp : L.pending with
  | nil => rfl
  | cons b rest =>
    have : is_idle (tick L.drv) = false := by simp [is_idle, tick, h]
    simp [this]

theorem loop_cycle_begin (L : Loopback) {v : Nat} {rest : List Nat}
    (hp : L.pending = v :: rest) (h : L.drv.tx_bit_index = -1) :
    loop_cycle L = finish (start_tx (tick L.drv) v).2 rest L := by
  unfold loop_cycle
  have : is_idle (tick L.drv) = true := by simp [is_idle, tick, h]
  simp [hp, this]

theorem loop_cycle_empty (L : Loopback) (hp : L.pending = []) :
    loop_cycle L = finish (tick L.drv) [] L := by
  unfold loop_cycle
  simp [hp]

theorem loop_run_add (L : Loopback) (m n : Nat) :
    loop_run L (m + n) = loop_run (loop_run L m) n := by
  induction n with
  | zero => rfl
  | succ n ih =>
    show loop_cycle (loop_run L (m + n)) = loop_cycle (loop_run (loop_run L m) n)
    rw [ih]

theorem loop_frame {C v : Nat} {rest : List Nat} (L : Loopback)
    (h : Ready C L.drv) (hp : L.pending = v :: rest) (hC2 : 2 ≤ C) (hC : C < 2 ^ 64) :
    ∀ n, n < 10 * C →
      InFrame C v n (loop_run L (n + 1)).drv ∧
      (loop_run L (n + 1)).pending = rest ∧
      (loop_run L (n + 1)).received = L.received ∧
      (loop_run L (n + 1)).framing_errors = L.framing_errors := by
  intro n
  induction n with
  | zero =>
    intro _
    show _ ∧ (loop_cycle L).pending = _ ∧ (loop_cycle L).received = _ ∧
      (loop_cycle L).framing_errors = _
    show InFrame C v 0 (loop_cycle L).drv ∧ _
    rw [loop_cycle_begin L hp h.2.1]
    exact finish_frame_begin v L rest h hC2
  | succ n ih =>
    intro hn
    obtain ⟨a1, a2, a3, a4⟩ := ih (by omega)
    have hbusy : (loop_run L (n + 1)).drv.tx_bit_index ≠ -1 := by
      obtain ⟨⟨_, _, hidx, _⟩, _⟩ := a1
      generalize n / C = q at hidx
      omega
    show InFrame C v (n + 1) (loop_cycle (loop_run L (n + 1))).drv ∧
      (loop_cycle (loop_run L (n + 1))).pending = _ ∧
      (loop_cycle (loop_run L (n + 1))).received = _ ∧
      (loop_cycle (loop_run L (n + 1))).framing_errors = _
    rw [loop_cycle_busy _ hbusy]
    obtain ⟨b1, b2, b3, b4⟩ := finish_frame_step (loop_run L (n + 1))
      (loop_run L (n + 1)).pending a1 (by omega) hC2 hC
    exact ⟨b1, b2.trans a2, b3.trans a3, b4.trans a4⟩

theorem loop_frame_end {C v : Nat} {rest : List Nat} (L : Loopback)
    (h : Ready C L.drv) (hp : L.pending = v :: rest) (hC2 : 2 ≤ C) (hC : C < 2 ^ 64)
    (hv : v < 256) :
    Ready C (loop_run L (10 * C + 1)).drv ∧
    (loop_run L (10 * C + 1)).pending = rest ∧
    (loop_run L (10 * C + 1)).received = L.received ++ [v] ∧
    (loop_run L (10 * C + 1)).framing_errors = L.framing_errors := by
  obtain ⟨a1, a2, a3, a4⟩ := loop_frame L h hp hC2 hC (10 * C - 1) (by omega)
  have e : 10 * C - 1 + 1 = 10 * C := by omega
  rw [e] at a1 a2 a3 a4
  have hbusy : (loop_run L (10 * C)).drv.tx_bit_index ≠ -1 := by
    obtain ⟨⟨_, _, hidx, _⟩, _⟩ := a1
    generalize (10 * C - 1) / C = q at hidx
    omega
  show Ready C (loop_cycle (loop_run L (10 * C))).drv ∧
    (loop_cycle (loop_run L (10 * C))).pending = _ ∧
    (loop_cycle (loop_run L (10 * C))).received = _ ∧
    (loop_cycle (loop_run L (10 * C))).framing_errors = _
  rw [loop_cycle_busy _ hbusy]
  obtain ⟨b1, b2, b3, b4⟩ := finish_frame_end (loop_run L (10 * C))
    (loop_run L (10 * C)).pending a1 hC2 hC hv
  exact ⟨b1, b2.trans a2, by rw [b3, a3], b4.trans a4⟩

theorem loop_idle {C : Nat} (L : Loopback) (h : Ready C L.drv) (hp : L.pending = []) :
    ∀ n, Ready C (loop_run L n).drv ∧ (loop_run L n).pending = [] ∧
      (loop_run L n).received = L.received ∧
      (loop_run L n).framing_errors = L.framing_errors := by
  intro n
  induction n with
  | zero => exact ⟨h, hp, rfl, rfl⟩
  | succ n ih =>
    obtain ⟨a1, a2, a3, a4⟩ := ih
    show Ready C (loop_cycle (loop_run L n)).drv ∧ (loop_cycle (loop_run L n)).pending = [] ∧
      (loop_cycle (loop_run L n)).received = _ ∧ (loop_cycle (loop_run L n)).framing_errors = _
    rw [loop_cycle_empty _ a2]
    obtain ⟨b1, b2, b3, b4⟩ := finish_ready (loop_run L n) [] a1
    exact ⟨b1, b2, b3.trans a3, b4.trans a4⟩

theorem loop_main {C : Nat} (hC2 : 2 ≤ C) (hC : C < 2 ^ 64) :
    ∀ (b : List Nat) (L : Loopback) (N : Nat), Ready C L.drv → L.pending = b →
      (∀ x ∈ b, x < 256) →
      (loop_run L N).received = L.received ++ b.take (N / (10 * C + 1)) ∧
      (loop_run L N).framing_errors = L.framing_errors := by
  intro b
  induction b with
  | nil =>
    intro L N hr hp _
    obtain ⟨_, _, a3, a4⟩ := loop_idle L hr hp N
    exact ⟨by simp [a3], a4⟩
  | cons v rest ih =>
    intro L N hr hp hb
    have hv : v < 256 := hb v (List.mem_cons_self _ _)
    by_cases hN : N < 10 * C + 1
    · rw [Nat.div_eq_of_lt hN]
      cases N with
      | zero => exact ⟨by simp [loop_run], rfl⟩
      | succ n =>
        obtain ⟨_, _, a3, a4⟩ := loop_frame L hr hp hC2 hC n (by omega)
        exact ⟨by simp [a3], a4⟩
    · obtain ⟨M, hM⟩ : ∃ M, N = (10 * C + 1) + M := ⟨N - (10 * C + 1), by omega⟩
      subst hM
      obtain ⟨e1, e2, e3, e4⟩ := loop_frame_end L hr hp hC2 hC hv
      obtain ⟨f1, f2⟩ := ih (loop_run L (10 * C + 1)) M e1 e2
        (fun x hx => hb x (List.mem_cons_of_mem _ hx))
      rw [loop_run_add, Nat.add_div_left _ (by omega)]
      refine ⟨?_, f2.trans e4⟩
      rw [f1, e3]
      simp

end Loopback

namespace Loopback

open UARTBitDriver

set_option maxRecDepth 100000 in
/-- C1 fails as stated: with 1 cycle per bit (clock frequency equal to the baud
rate) the loopback of the single byte 0xFF makes `sample_rx` emit 0x00 in
cycle 11, without any framing error, and the received list is `[0]`, not
`[255]`. -/
theorem C1_counterexample :
    (init 1 1 0).cycles_per_bit = 1 ∧
    (loop_run (start (init 1 1 0) [255]) 11).received = [0] ∧
    (loop_run (start (init 1 1 0) [255]) 11).framing_errors = 0 ∧
    (loop_run (start (init 1 1 0) [255]) 11).pending = [] := by
  refine ⟨by decide, by decide, by decide, by decide⟩

/-- C1 (amended): for every byte sequence `b` and every constant
cycles-per-bit value `C ≥ 2`, the loopback driven as the control loop does,
from a driver with both directions idle, has after `N` cycles received exactly
the first `N / (10*C + 1)` bytes of `b`, in order, with no framing error; so
from cycle `|b| * (10*C + 1)` on the received bytes are exactly `b`, each once. -/
theorem C1_loopback_round_trip (d : UARTBitDriver) (C : Nat) (b : List Nat)
    (hw : WF d) (hC : d.cycles_per_bit = C) (hC2 : 2 ≤ C)
    (htx : d.tx_bit_index = -1) (hrx : d.rx_bit_index = -1)
    (hprev : d.rx_line_prev = true) (hb : ∀ x ∈ b, x < 256) :
    (∀ N, (loop_run (start d b) N).received = b.take (N / (10 * C + 1)) ∧
      (loop_run (start d b) N).framing_errors = 0) ∧
    (∀ N, b.length * (10 * C + 1) ≤ N → (loop_run (start d b) N).received = b) := by
  have hC64 : C < 2 ^ 64 := by rw [← hC]; exact hw.2.1
  have hready : Ready C (start d b).drv := ⟨hC, htx, hrx, hprev, hw.1⟩
  have main : ∀ N, (loop_run (start d b) N).received = b.take (N / (10 * C + 1)) ∧
      (loop_run (start d b) N).framing_errors = 0 := by
    intro N
    obtain ⟨m1, m2⟩ := loop_main hC2 hC64 b (start d b) N hready rfl hb
    exact ⟨by simpa [start] using m1, by simpa [start] using m2⟩
  refine ⟨main, ?_⟩
  intro N hN
  rw [(main N).1]
  apply List.take_of_length_le
  exact (Nat.le_div_iff_mul_le (by omega)).2 hN

/-- Witness of C1 (amended): 2 cycles per bit, the bytes 0x41 0x42, 42 cycles. -/
theorem C1_loopback_round_trip_witness :
    WF (init 4 2 0) ∧ (loop_run (start (init 4 2 0) [65, 66]) 42).received = [65, 66] :=
  ⟨by decide,
   (C1_loopback_round_trip (init 4 2 0) 2 [65, 66] (by decide) (by decide) (by decide)
     (by decide) (by decide) (by decide) (by decide)).2 42 (by decide)⟩

end Loopback

namespace Loader

theorem hex_digit_lt {c v : Nat} (h : hex_digit c = some v) : v < 16 := by
  unfold hex_digit at h
  split_ifs at h <;> simp at h <;> omega

theorem is_hex_facts {c : Nat} (h : is_hex c = true) :
    isspace c = false ∧ is_blank c = false ∧ c ≠ 45 ∧ c ≠ 43 ∧ c ≠ 120 ∧ c ≠ 88 ∧ c ≠ 0 := by
  have hc : (48 ≤ c ∧ c ≤ 57) ∨ (97 ≤ c ∧ c ≤ 102) ∨ (65 ≤ c ∧ c ≤ 70) := by
    unfold is_hex hex_digit at h
    split_ifs at h with h1 h2 h3
    · exact Or.inl h1
    · exact Or.inr (Or.inl h2)
    · exact Or.inr (Or.inr h3)
    · simp at h
  refine ⟨?_, ?_, ?_, ?_, ?_, ?_, ?_⟩
  · simp only [isspace, decide_eq_false_iff_not]; omega
  · simp only [is_blank, decide_eq_false_iff_not]; omega
  all_goals omega

theorem hex_value_bound (ds : List Nat) (acc : Nat) :
    List.foldl (fun acc c => acc * 16 + (hex_digit c).getD 0) acc ds + 1 ≤
      (acc + 1) * 16 ^ ds.length := by
  induction ds generalizing acc with
  | nil => simp
  | cons c ds ih =>
    simp only [List.foldl_cons, List.length_cons]
    have hd : (hex_digit c).getD 0 < 16 := by
      cases h : hex_digit c with
      | none => simp
      | some v => simpa using hex_digit_lt h
    calc List.foldl (fun acc c => acc * 16 + (hex_digit c).getD 0)
            (acc * 16 + (hex_digit c).getD 0) ds + 1
        ≤ (acc * 16 + (hex_digit c).getD 0 + 1) * 16 ^ ds.length := ih _
      _ ≤ ((acc + 1) * 16) * 16 ^ ds.length := Nat.mul_le_mul_right _ (by omega)
      _ = (acc + 1) * 16 ^ (ds.length + 1) := by rw [Nat.pow_succ]; ring

theorem hex_value_lt (ds : List Nat) (h : ds.length ≤ 8) : hex_value ds < 2 ^ 32 := by
  have h1 := hex_value_bound ds 0
  have h2 : 16 ^ ds.length ≤ 16 ^ 8 := Nat.pow_le_pow_right (by omega) h
  have h3 : (16 : Nat) ^ 8 = 2 ^ 32 := by norm_num
  unfold hex_value
  omega

theorem takeWhile_run {p : Nat → Bool} (l r : List Nat) (hl : ∀ c ∈ l, p c = true)
    (hr : ∀ c, r.head? = some c → p c = false) : (l ++ r).takeWhile p = l := by
  induction l with
  | nil =>
    cases r with
    | nil => rfl
    | cons c r => simp [List.takeWhile_cons, hr c rfl]
  | cons a l ih =>
    have ha := hl a (List.mem_cons_self _ _)
    simp only [List.cons_append, List.takeWhile_cons, ha, if_true]
    rw [ih (fun c hc => hl c (List.mem_cons_of_mem _ hc))]

theorem dropWhile_run {p : Nat → Bool} (l r : List Nat) (hl : ∀ c ∈ l, p c = true)
    (hr : ∀ c, r.head? = some c → p c = false) : (l ++ r).dropWhile p = r := by
  induction l with
  | nil =>
    cases r with
    | nil => rfl
    | cons c r => simp [List.dropWhile_cons, hr c rfl]
  | cons a l ih =>
    have ha := hl a (List.mem_cons_self _ _)
    simp only [List.cons_append, List.dropWhile_cons, ha, if_true]
    exact ih (fun c hc => hl c (List.mem_cons_of_mem _ hc))

end Loader

namespace Loader

theorem write_le_at (buf : Nat → Nat) (a v : Nat) :
    ∀ n i, i < n → a + n ≤ 2 ^ 32 →
      write_le buf a v n (a + i) = (v >>> (i * 8)) &&& 0xFF := by
  intro n
  induction n with
  | zero => intro i hi; omega
  | succ n ih =>
    intro i hi hn
    have hmod : add32 a n = a + n := Nat.mod_eq_of_lt (by omega)
    show Function.update (write_le buf a v n) (add32 a n) _ (a + i) = _
    rw [hmod]
    by_cases h : i = n
    · subst h; rw [Function.update_same]
    · rw [Function.update_noteq (by omega)]
      exact ih i (by omega) (by omega)

theorem write_le_other (buf : Nat → Nat) (a v : Nat) :
    ∀ n j, (j < a ∨ a + n ≤ j) → a + n ≤ 2 ^ 32 → write_le buf a v n j = buf j := by
  intro n
  induction n with
  | zero => intro j _ _; rfl
  | succ n ih =>
    intro j hj hn
    have hmod : add32 a n = a + n := Nat.mod_eq_of_lt (by omega)
    show Function.update (write_le buf a v n) (add32 a n) _ j = _
    rw [hmod]
    rw [Function.update_noteq (by omega)]
    exact ih j (by omega) (by omega)

end Loader

namespace Loader

theorem read_line_chunk : ∀ (l : List Nat) (n : Nat) (f : List Nat), l.length ≤ n →
    (∀ c ∈ l.dropLast, c ≠ 10) →
    (l.getLast? = some 10 ∨ f = [] ∨ l.length = n) →
    read_line n (l ++ f) = (l, f) := by
  intro l
  induction l with
  | nil =>
    intro n f _ _ hend
    cases n with
    | zero => rfl
    | succ n =>
      rcases hend with h | h | h
      · simp at h
      · rw [h]; rfl
      · simp at h
  | cons c l ih =>
    intro n f hlen hnl hend
    cases n with
    | zero => simp at hlen
    | succ n =>
      simp only [List.length_cons] at hlen hend
      cases l with
      | nil =>
        by_cases hc : c = 10
        · show (if c = 10 then ([c], [] ++ f) else _) = _
          rw [if_pos hc]
          rfl
        · have hf : read_line n ([] ++ f) = ([], f) := by
            refine ih n f (by simp) (by simp) ?_
            rcases hend with h | h | h
            · simp at h; exact absurd h hc
            · exact Or.inr (Or.inl h)
            · right; right
              simp only [List.length_nil] at h ⊢
              omega
          show (if c = 10 then ([c], [] ++ f)
            else (c :: (read_line n ([] ++ f)).1, (read_line n ([] ++ f)).2)) = _
          rw [if_neg hc, hf]
      | cons d l =>
        have hc : c ≠ 10 := hnl c (by simp [List.dropLast])
        have hf : read_line n ((d :: l) ++ f) = (d :: l, f) := by
          refine ih n f (by simp only [List.length_cons] at hlen ⊢; omega) ?_ ?_
          · intro x hx
            exact hnl x (by
              rw [List.dropLast_cons_of_ne_nil (by simp)]
              exact List.mem_cons_of_mem _ hx)
          · rcases hend with h | h | h
            · left
              rw [List.getLast?_cons_cons] at h
              exact h
            · exact Or.inr (Or.inl h)
            · right; right
              simp only [List.length_cons] at h ⊢
              omega
        show (if c = 10 then ([c], (d :: l) ++ f)
          else (c :: (read_line n ((d :: l) ++ f)).1, (read_line n ((d :: l) ++ f)).2)) = _
        rw [if_neg hc, hf]

theorem fgets_chunk (chunk file2 : List Nat) (hne : chunk ≠ []) (hlen : chunk.length ≤ 255)
    (hnl : ∀ c ∈ chunk.dropLast, c ≠ 10)
    (hend : chunk.getLast? = some 10 ∨ file2 = [] ∨ chunk.length = 255) :
    fgets (chunk ++ file2) = some (chunk, file2) := by
  unfold fgets
  cases hc : chunk ++ file2 with
  | nil =>
    exfalso
    exact hne (List.append_eq_nil.1 hc).1
  | cons x xs =>
    show some (read_line 255 (x :: xs)) = _
    rw [← hc, read_line_chunk chunk 255 file2 hlen hnl hend]

theorem cstr_id (l : List Nat) (h : ∀ c ∈ l, c ≠ 0) : cstr l = l := by
  unfold cstr
  rw [List.takeWhile_eq_self_iff]
  intro c hc
  simpa using h c hc

/-- The loader on a file that starts with a chunk `fgets` reads in one call and
that is neither skipped nor an address directive: the chunk is what the data
loop gets. -/
theorem load_lines_chunk (B n : Nat) (st0 : LoadState) (chunk file2 : List Nat)
    (hne : chunk ≠ []) (hlen : chunk.length ≤ 255)
    (hnl : ∀ c ∈ chunk.dropLast, c ≠ 10)
    (hend : chunk.getLast? = some 10 ∨ file2 = [] ∨ chunk.length = 255)
    (hnul : ∀ c ∈ chunk, c ≠ 0)
    (hhead : ∀ c, chunk.head? = some c → c ≠ 10 ∧ c ≠ 13 ∧ c ≠ 35 ∧ c ≠ 47 ∧ c ≠ 64) :
    load_lines B (n + 1) (chunk ++ file2) st0 =
      (match parse_data B (chunk.length + 1) chunk st0 with
        | (Status.ok, st1) => load_lines B n file2 st1
        | r => r) := by
  have hskip : ¬ (chunk.head? = some 10 ∨ chunk.head? = some 13 ∨ chunk.head? = some 35 ∨
      chunk.head? = some 47) := by
    rintro (h | h | h | h)
    · exact (hhead _ h).1 rfl
    · exact (hhead _ h).2.1 rfl
    · exact (hhead _ h).2.2.1 rfl
    · exact (hhead _ h).2.2.2.1 rfl
  have hdir : ¬ (chunk.head? = some 64) := fun h => (hhead _ h).2.2.2.2 rfl
  rw [load_lines, fgets_chunk chunk file2 hne hlen hnl hend]
  simp only [cstr_id chunk hnul, if_neg hskip, if_neg hdir]

theorem scan_base_plain (d : Nat) (ds rest : List Nat) (hds : ∀ c ∈ ds, is_hex c = true)
    (hrest : ∀ c, rest.head? = some c → d = 48 → ds = [] → c ≠ 120 ∧ c ≠ 88) :
    ¬ (d = 48 ∧ ((ds ++ rest).head? = some 120 ∨ (ds ++ rest).head? = some 88)) := by
  rintro ⟨h48, h⟩
  cases ds with
  | nil =>
    simp only [List.nil_append] at h
    rcases h with h | h
    · exact (hrest _ h h48 rfl).1 rfl
    · exact (hrest _ h h48 rfl).2 rfl
  | cons e ds =>
    have he := is_hex_facts (hds e (List.mem_cons_self _ _))
    simp only [List.cons_append, List.head?_cons, Option.some.injEq] at h
    omega

/-- The call `sscanf(ptr, "%x%n", ...)` at a token made of an optional `0x` or
`0X` and of at most 8 hex digits: the value of the digits and the length of
the token. -/
theorem scan_hex_token2 (p : List Nat) (d : Nat) (ds rest : List Nat)
    (hp : p = [] ∨ p = [48, 120] ∨ p = [48, 88])
    (hd : is_hex d = true) (hds : ∀ c ∈ ds, is_hex c = true) (hlen : ds.length + 1 ≤ 8)
    (hrest : ∀ c, rest.head? = some c →
      is_hex c = false ∧ (p = [] → d = 48 → ds = [] → c ≠ 120 ∧ c ≠ 88)) :
    scan_hex (p ++ d :: (ds ++ rest)) =
      some (hex_value (d :: ds), p.length + (ds.length + 1)) := by
  obtain ⟨f1, _, f3, f4, _, _, _⟩ := is_hex_facts hd
  have htake : (d :: (ds ++ rest)).takeWhile is_hex = d :: ds := by
    have := takeWhile_run (p := is_hex) (d :: ds) rest
      (fun c hc => by
        rcases List.mem_cons.1 hc with h | h
        · rw [h]; exact hd
        · exact hds c h)
      (fun c hc => (hrest c hc).1)
    simpa using this
  have hval := hex_value_lt (d :: ds) (by simpa using hlen)
  have hnot : ¬ (hex_value (d :: ds) ≥ 2 ^ 64) := by omega
  rcases hp with hp | hp | hp
  · subst hp
    have h2 := scan_base_plain d ds rest hds (fun c hc => (hrest c hc).2 rfl)
    have hws : (d :: (ds ++ rest)).takeWhile isspace = [] := by
      simp [List.takeWhile_cons, f1]
    have hdw : (d :: (ds ++ rest)).dropWhile isspace = d :: (ds ++ rest) := by
      simp [List.dropWhile_cons, f1]
    have hsign : scan_sign (d :: (ds ++ rest)) = (false, 0, d :: (ds ++ rest)) := by
      unfold scan_sign
      rw [if_neg (by simp only [List.head?_cons, Option.some.injEq]; exact f3),
        if_neg (by simp only [List.head?_cons, Option.some.injEq]; exact f4)]
    have hbase : scan_base (d :: (ds ++ rest)) = (0, d :: (ds ++ rest)) := by
      unfold scan_base
      rw [if_neg (fun h => h2 ⟨by simpa using h.1, h.2⟩)]
    have hne : ¬ ((0 : Nat) = 0 ∧ d :: ds = []) := by simp
    unfold scan_hex
    simp only [List.nil_append, hws, hdw, hsign, hbase, htake, if_false, hnot, hne,
      List.length_nil, List.length_cons, Nat.mod_eq_of_lt hval, Bool.false_eq_true]
    simp
  · subst hp
    have hws : (48 :: 120 :: d :: (ds ++ rest)).takeWhile isspace = [] := by
      simp [List.takeWhile_cons, isspace]
    have hdw : (48 :: 120 :: d :: (ds ++ rest)).dropWhile isspace =
        48 :: 120 :: d :: (ds ++ rest) := by
      simp [List.dropWhile_cons, isspace]
    have hsign : scan_sign (48 :: 120 :: d :: (ds ++ rest)) =
        (false, 0, 48 :: 120 :: d :: (ds ++ rest)) := by
      unfold scan_sign
      rw [if_neg (by simp), if_neg (by simp)]
    have hbase : scan_base (48 :: 120 :: d :: (ds ++ rest)) = (2, d :: (ds ++ rest)) := by
      unfold scan_base
      rw [if_pos (by simp)]
      rfl
    have hne : ¬ ((2 : Nat) = 0 ∧ d :: ds = []) := by simp
    unfold scan_hex
    simp only [List.cons_append, List.nil_append, hws, hdw, hsign, hbase, htake, if_false,
      hnot, hne, List.length_nil, List.length_cons, Nat.mod_eq_of_lt hval,
      Bool.false_eq_true]
  · subst hp
    have hws : (48 :: 88 :: d :: (ds ++ rest)).takeWhile isspace = [] := by
      simp [List.takeWhile_cons, isspace]
    have hdw : (48 :: 88 :: d :: (ds ++ rest)).dropWhile isspace =
        48 :: 88 :: d :: (ds ++ rest) := by
      simp [List.dropWhile_cons, isspace]
    have hsign : scan_sign (48 :: 88 :: d :: (ds ++ rest)) =
        (false, 0, 48 :: 88 :: d :: (ds ++ rest)) := by
      unfold scan_sign
      rw [if_neg (by simp), if_neg (by simp)]
    have hbase : scan_base (48 :: 88 :: d :: (ds ++ rest)) = (2, d :: (ds ++ rest)) := by
      unfold scan_base
      rw [if_pos (by simp)]
      rfl
    have hne : ¬ ((2 : Nat) = 0 ∧ d :: ds = []) := by simp
    unfold scan_hex
    simp only [List.cons_append, List.nil_append, hws, hdw, hsign, hbase, htake, if_false,
      hnot, hne, List.length_nil, List.length_cons, Nat.mod_eq_of_lt hval,
      Bool.false_eq_true]

/-- One iteration of the data loop at a token made of an optional `0x` or `0X`
and of `ds.length + 1` hex digits, after blanks. -/
theorem parse_data_token2 (B fuel : Nat) (st : LoadState) (ws p : List Nat) (d : Nat)
    (ds rest : List Nat)
    (hws : ∀ c ∈ ws, is_blank c = true)
    (hp : p = [] ∨ p = [48, 120] ∨ p = [48, 88])
    (hd : is_hex d = true)
    (hds : ∀ c ∈ ds, is_hex c = true) (hlen : ds.length + 1 ≤ 8)
    (hrest : ∀ c, rest.head? = some c →
      is_hex c = false ∧ (p = [] → d = 48 → ds = [] → c ≠ 120 ∧ c ≠ 88))
    (hfit : add32 st.current_addr (spec_size (ds.length + 1)) ≤ B) :
    parse_data B (fuel + 1) (ws ++ (p ++ d :: ds) ++ rest) st =
      parse_data B fuel rest
        { buffer := write_le st.buffer st.current_addr (hex_value (d :: ds))
            (spec_size (ds.length + 1))
          current_addr := add32 st.current_addr (spec_size (ds.length + 1))
          max_addr :=
            if add32 st.current_addr (spec_size (ds.length + 1)) > st.max_addr then
              add32 st.current_addr (spec_size (ds.length + 1))
            else st.max_addr
          tokens := st.tokens ++
            [⟨st.current_addr, spec_size (ds.length + 1), hex_value (d :: ds)⟩] } := by
  obtain ⟨_, f2, _, _, _, _, _⟩ := is_hex_facts hd
  have hscan := scan_hex_token2 p d ds rest hp hd hds hlen hrest
  have hsize : bytes_for ((ds.length + 1 : Nat) : Int) = spec_size (ds.length + 1) := by
    unfold bytes_for spec_size
    split_ifs <;> first | rfl | omega
  have hnot : ¬ (add32 st.current_addr (spec_size (ds.length + 1)) > B) := by omega
  have hassoc : ws ++ (p ++ d :: ds) ++ rest = ws ++ (p ++ d :: (ds ++ rest)) := by simp
  have hstep : ∀ (c : Nat) (tl : List Nat) (k : Nat), p ++ d :: (ds ++ rest) = c :: tl →
      is_blank c = false →
      digit_count c tl (k + (ds.length + 1)) = ((ds.length + 1 : Nat) : Int) →
      p.length = k → List.drop (k + (ds.length + 1)) (c :: tl) = rest →
      parse_data B (fuel + 1) (ws ++ (p ++ d :: ds) ++ rest) st = parse_data B fuel rest
        { buffer := write_le st.buffer st.current_addr (hex_value (d :: ds))
            (spec_size (ds.length + 1))
          current_addr := add32 st.current_addr (spec_size (ds.length + 1))
          max_addr :=
            if add32 st.current_addr (spec_size (ds.length + 1)) > st.max_addr then
              add32 st.current_addr (spec_size (ds.length + 1))
            else st.max_addr
          tokens := st.tokens ++
            [⟨st.current_addr, spec_size (ds.length + 1), hex_value (d :: ds)⟩] } := by
    intro c tl k hct hb hcount hk hdropn
    have hdrop : (ws ++ (p ++ d :: ds) ++ rest).dropWhile is_blank = c :: tl := by
      rw [hassoc, hct]
      exact dropWhile_run (p := is_blank) ws (c :: tl) hws
        (fun x hx => by
          simp only [List.head?_cons, Option.some.injEq] at hx
          rw [← hx]; exact hb)
    have hscan2 : scan_hex (c :: tl) =
        some (hex_value (d :: ds), k + (ds.length + 1)) := by
      rw [← hct, hscan, hk]
    have htok : token_step B st (hex_value (d :: ds))
        (digit_count c tl (k + (ds.length + 1))) =
        (Status.ok,
          { buffer := write_le st.buffer st.current_addr (hex_value (d :: ds))
              (spec_size (ds.length + 1))
            current_addr := add32 st.current_addr (spec_size (ds.length + 1))
            max_addr :=
              if add32 st.current_addr (spec_size (ds.length + 1)) > st.max_addr then
                add32 st.current_addr (spec_size (ds.length + 1))
              else st.max_addr
            tokens := st.tokens ++
              [⟨st.current_addr, spec_size (ds.length + 1), hex_value (d :: ds)⟩] }) := by
      unfold token_step
      simp only [hcount, hsize, hnot, if_false]
    rw [parse_data, hdrop]
    simp only [hscan2, htok, hdropn]
  rcases hp with hp | hp | hp
  · subst hp
    have h2 := scan_base_plain d ds rest hds (fun c hc => (hrest c hc).2 rfl)
    refine hstep d (ds ++ rest) 0 rfl f2 ?_ rfl (by simp)
    unfold digit_count
    rw [if_neg h2]
    simp
  · subst hp
    refine hstep 48 (120 :: d :: (ds ++ rest)) 2 rfl (by decide) ?_ rfl (by
      have e : 2 + (ds.length + 1) = (48 :: 120 :: d :: ds).length := by
        simp only [List.length_cons]
        omega
      rw [e]
      exact List.drop_left (48 :: 120 :: d :: ds) rest)
    unfold digit_count
    rw [if_pos (by simp)]
    push_cast
    omega
  · subst hp
    refine hstep 48 (88 :: d :: (ds ++ rest)) 2 rfl (by decide) ?_ rfl (by
      have e : 2 + (ds.length + 1) = (48 :: 88 :: d :: ds).length := by
        simp only [List.length_cons]
        omega
      rw [e]
      exact List.drop_left (48 :: 88 :: d :: ds) rest)
    unfold digit_count
    rw [if_pos (by simp)]
    push_cast
    omega

set_option maxRecDepth 1000000 in
/-- C9 fails as stated, in three ways.  In a buffer of `2^33` bytes, the
8-digit token `DEADBEEF` read at cursor `0xFFFFFFFE` fits
(`cursor + 4 ≤ 2^33`), but the cursor becomes 2, not `0xFFFFFFFE + 4`; byte
`cursor + 2` is not written, and bytes 0 and 1 of the buffer change.  In a line
of 251 blanks followed by `DEADBEEF`, `fgets` stores the first 255 characters,
so the 8-digit token is read as the two 4-digit tokens `DEAD` and `BEEF`: two
writes of two bytes leave `AD DE EF BE` at indices 0 to 3, not the
little-endian bytes `EF BE AD DE` of the value `0xDEADBEEF`.  And the two-digit
token `AB` with a sign in front, `+AB`, is counted as three characters and
written as two bytes. -/
theorem C9_counterexample :
    (load_image (some (bytes "@FFFFFFFE\nDEADBEEF\n")) (fun _ => 0) (2 ^ 33)).1 = Status.ok ∧
    (load_image (some (bytes "@FFFFFFFE\nDEADBEEF\n")) (fun _ => 0) (2 ^ 33)).2.tokens =
      [⟨0xFFFFFFFE, 4, 0xDEADBEEF⟩] ∧
    0xFFFFFFFE + 4 ≤ 2 ^ 33 ∧
    (load_image (some (bytes "@FFFFFFFE\nDEADBEEF\n")) (fun _ => 0) (2 ^ 33)).2.current_addr
      = 2 ∧
    (load_image (some (bytes "@FFFFFFFE\nDEADBEEF\n")) (fun _ => 0) (2 ^ 33)).2.buffer
      (0xFFFFFFFE + 2) = 0 ∧
    (0xDEADBEEF >>> (8 * 2)) &&& 0xFF = 0xAD ∧
    (load_image (some (bytes "@FFFFFFFE\nDEADBEEF\n")) (fun _ => 0) (2 ^ 33)).2.buffer 0
      = 0xAD ∧
    (load_image (some (List.replicate 251 32 ++ bytes "DEADBEEF\n")) (fun _ => 0)
      0x1000000).1 = Status.ok ∧
    (load_image (some (List.replicate 251 32 ++ bytes "DEADBEEF\n")) (fun _ => 0)
      0x1000000).2.tokens = [⟨0, 2, 0xDEAD⟩, ⟨2, 2, 0xBEEF⟩] ∧
    (load_image (some (List.replicate 251 32 ++ bytes "DEADBEEF\n")) (fun _ => 0)
      0x1000000).2.buffer 0 = 0xAD ∧
    (0xDEADBEEF >>> (8 * 0)) &&& 0xFF = 0xEF ∧
    fgets (List.replicate 251 32 ++ bytes "DEADBEEF\n") =
      some (List.replicate 251 32 ++ bytes "DEAD", bytes "BEEF\n") ∧
    (load_image (some (bytes "+AB\n")) (fun _ => 0) 0x1000000).1 = Status.ok ∧
    (load_image (some (bytes "+AB\n")) (fun _ => 0) 0x1000000).2.tokens = [⟨0, 2, 0xAB⟩] ∧
    (load_image (some (bytes "+AB\n")) (fun _ => 0) 0x1000000).2.current_addr = 2 := by
  refine ⟨by decide, by decide, by decide, by decide, by decide, by decide, by decide,
    by decide, by decide, by decide, by decide, by decide, by decide, by decide, by decide⟩

/-- C9 (amended): let `fgets` read, in one call, a chunk of the image of at
most 255 characters (no newline before its last character; it ends with a
newline, or the file ends with it, or it has 255 characters; it has no NUL and
does not start with a newline, `\r`, `#`, `/` or `@`), and let the data loop on
that chunk reach, with the loader variables `st` (cursor `a`), a data token
that lies inside the chunk: after blanks `ws`, an optional `0x` or `0X`, then
`d` hex digits (`1 ≤ d ≤ 8`) with value `v`, followed in the chunk by its end or
by a character that is not a hex digit (nor `x`/`X` after the single digit `0`
with no prefix).  If the write fits in the buffer and ends below `2^32`, the
loader writes `spec_size d` bytes (1 for `d ≤ 2`, 2 for `d ≤ 4`, else 4) in
little-endian order, `buffer[a+i] = (v >> 8*i) & 0xFF`, the cursor becomes `a`
plus the number of bytes written, no other byte of the buffer changes, and the
loader goes on with the rest of the chunk and then with the rest of the
file. -/
theorem C9_token_write (B n fuel : Nat) (st0 st : LoadState)
    (before ws pre digits rest file2 : List Nat)
    (hlen : (before ++ (ws ++ (pre ++ digits) ++ rest)).length ≤ 255)
    (hnl : ∀ c ∈ (before ++ (ws ++ (pre ++ digits) ++ rest)).dropLast, c ≠ 10)
    (hend : (before ++ (ws ++ (pre ++ digits) ++ rest)).getLast? = some 10 ∨ file2 = [] ∨
      (before ++ (ws ++ (pre ++ digits) ++ rest)).length = 255)
    (hnul : ∀ c ∈ before ++ (ws ++ (pre ++ digits) ++ rest), c ≠ 0)
    (hhead : ∀ c, (before ++ (ws ++ (pre ++ digits) ++ rest)).head? = some c →
      c ≠ 10 ∧ c ≠ 13 ∧ c ≠ 35 ∧ c ≠ 47 ∧ c ≠ 64)
    (hreach : parse_data B ((before ++ (ws ++ (pre ++ digits) ++ rest)).length + 1)
        (before ++ (ws ++ (pre ++ digits) ++ rest)) st0 =
      parse_data B (fuel + 1) (ws ++ (pre ++ digits) ++ rest) st)
    (hws : ∀ c ∈ ws, is_blank c = true)
    (hpre : pre = [] ∨ pre = [48, 120] ∨ pre = [48, 88])
    (hdig : ∀ c ∈ digits, is_hex c = true)
    (h1 : 1 ≤ digits.length) (h8 : digits.length ≤ 8)
    (hrest : ∀ c, rest.head? = some c →
      is_hex c = false ∧ (pre = [] → digits = [48] → c ≠ 120 ∧ c ≠ 88))
    (hfit : st.current_addr + spec_size digits.length ≤ B)
    (h32 : st.current_addr + spec_size digits.length < 2 ^ 32) :
    (spec_size digits.length = if digits.length ≤ 2 then 1
      else if digits.length ≤ 4 then 2 else 4) ∧
    fgets (before ++ (ws ++ (pre ++ digits) ++ rest) ++ file2) =
      some (before ++ (ws ++ (pre ++ digits) ++ rest), file2) ∧
    ∃ st2 : LoadState,
      load_lines B (n + 1) (before ++ (ws ++ (pre ++ digits) ++ rest) ++ file2) st0 =
        (match parse_data B fuel rest st2 with
          | (Status.ok, st3) => load_lines B n file2 st3
          | r => r) ∧
      parse_data B (fuel + 1) (ws ++ (pre ++ digits) ++ rest) st =
        parse_data B fuel rest st2 ∧
      st2.current_addr = st.current_addr + spec_size digits.length ∧
      (∀ i, i < spec_size digits.length →
        st2.buffer (st.current_addr + i) = (hex_value digits >>> (8 * i)) &&& 0xFF) ∧
      (∀ j, j < st.current_addr ∨ st.current_addr + spec_size digits.length ≤ j →
        st2.buffer j = st.buffer j) ∧
      st2.tokens = st.tokens ++ [⟨st.current_addr, spec_size digits.length,
        hex_value digits⟩] := by
  have hne : before ++ (ws ++ (pre ++ digits) ++ rest) ≠ [] := by
    intro h
    have := congrArg List.length h
    simp only [List.length_append, List.length_nil] at this
    omega
  refine ⟨rfl, fgets_chunk _ file2 hne hlen hnl hend, ?_⟩
  have hchunk := load_lines_chunk B n st0 (before ++ (ws ++ (pre ++ digits) ++ rest)) file2
    hne hlen hnl hend hnul hhead
  cases digits with
  | nil => simp at h1
  | cons d ds =>
    simp only [List.length_cons] at hfit h32 h8 ⊢
    have hadd : add32 st.current_addr (spec_size (ds.length + 1)) =
        st.current_addr + spec_size (ds.length + 1) := Nat.mod_eq_of_lt h32
    have hstep := parse_data_token2 B fuel st ws pre d ds rest hws hpre
      (hdig d (List.mem_cons_self _ _)) (fun c hc => hdig c (List.mem_cons_of_mem _ hc))
      h8 (fun c hc => ⟨(hrest c hc).1, fun hp hd48 hds => (hrest c hc).2 hp (by
        rw [hd48, hds])⟩) (by omega)
    refine ⟨_, ?_, hstep, ?_, ?_, ?_, rfl⟩
    · rw [hchunk, hreach, hstep]
    · exact hadd
    · intro i hi
      have := write_le_at st.buffer st.current_addr (hex_value (d :: ds))
        (spec_size (ds.length + 1)) i hi (by omega)
      rw [Nat.mul_comm 8 i]
      exact this
    · intro j hj
      exact write_le_other st.buffer st.current_addr (hex_value (d :: ds))
        (spec_size (ds.length + 1)) j hj (by omega)

set_option maxRecDepth 100000 in
/-- Witness of C9 (amended): the line `AA 0xBEEF 12` followed by the line `34`,
loaded into a 256-byte buffer; the token `0xBEEF` is the second token of its
line and is reached at cursor 1. -/
theorem C9_token_write_witness :
    fgets (bytes "AA" ++ (bytes " " ++ (bytes "0x" ++ bytes "BEEF") ++ bytes " 12\n") ++
        bytes "34\n") =
      some (bytes "AA" ++ (bytes " " ++ (bytes "0x" ++ bytes "BEEF") ++ bytes " 12\n"),
        bytes "34\n") ∧
    ∃ st2 : LoadState,
      load_lines 256 (1 + 1)
          (bytes "AA" ++ (bytes " " ++ (bytes "0x" ++ bytes "BEEF") ++ bytes " 12\n") ++
            bytes "34\n")
          ⟨fun _ => 0, 0, 0, []⟩ =
        (match parse_data 256 12 (bytes " 12\n") st2 with
          | (Status.ok, st3) => load_lines 256 1 (bytes "34\n") st3
          | r => r) ∧
      parse_data 256 (12 + 1) (bytes " " ++ (bytes "0x" ++ bytes "BEEF") ++ bytes " 12\n")
          (token_step 256 ⟨fun _ => 0, 0, 0, []⟩ 0xAA 2).2 =
        parse_data 256 12 (bytes " 12\n") st2 ∧
      st2.current_addr =
        (token_step 256 ⟨fun _ => 0, 0, 0, []⟩ 0xAA 2).2.current_addr +
          spec_size (bytes "BEEF").length ∧
      (∀ i, i < spec_size (bytes "BEEF").length →
        st2.buffer ((token_step 256 ⟨fun _ => 0, 0, 0, []⟩ 0xAA 2).2.current_addr + i) =
          (hex_value (bytes "BEEF") >>> (8 * i)) &&& 0xFF) ∧
      (∀ j, j < (token_step 256 ⟨fun _ => 0, 0, 0, []⟩ 0xAA 2).2.current_addr ∨
          (token_step 256 ⟨fun _ => 0, 0, 0, []⟩ 0xAA 2).2.current_addr +
            spec_size (bytes "BEEF").length ≤ j →
        st2.buffer j = (token_step 256 ⟨fun _ => 0, 0, 0, []⟩ 0xAA 2).2.buffer j) ∧
      st2.tokens = (token_step 256 ⟨fun _ => 0, 0, 0, []⟩ 0xAA 2).2.tokens ++
        [⟨(token_step 256 ⟨fun _ => 0, 0, 0, []⟩ 0xAA 2).2.current_addr,
          spec_size (bytes "BEEF").length, hex_value (bytes "BEEF")⟩] :=
  (C9_token_write 256 1 12 ⟨fun _ => 0, 0, 0, []⟩
    (token_step 256 ⟨fun _ => 0, 0, 0, []⟩ 0xAA 2).2
    (bytes "AA") (bytes " ") (bytes "0x") (bytes "BEEF") (bytes " 12\n") (bytes "34\n")
    (by decide) (by decide) (by decide) (by decide) (by decide) rfl
    (by decide) (by decide) (by decide) (by decide) (by decide) (by decide) (by decide)
    (by decide)).2

end Loader

namespace Loader

theorem bytes_for_pos (n : Int) : 1 ≤ bytes_for n := by
  unfold bytes_for
  split_ifs <;> omega

theorem max_end_append (ts : List Token) (t : Token) :
    max_end (ts ++ [t]) = max (max_end ts) (t.addr + t.size) := by
  simp [max_end, List.foldl_append]

theorem foldl_max_ge (ts : List Token) (m : Nat) :
    m ≤ ts.foldl (fun m t => max m (t.addr + t.size)) m ∧
    ∀ t ∈ ts, t.addr + t.size ≤ ts.foldl (fun m t => max m (t.addr + t.size)) m := by
  induction ts generalizing m with
  | nil => simp
  | cons a ts ih =>
    simp only [List.foldl_cons, List.mem_cons]
    obtain ⟨h1, h2⟩ := ih (max m (a.addr + a.size))
    refine ⟨by omega, ?_⟩
    rintro t (rfl | ht)
    · omega
    · exact h2 t ht

theorem foldl_max_le (ts : List Token) (m M : Nat) (hm : m ≤ M)
    (h : ∀ t ∈ ts, t.addr + t.size ≤ M) :
    ts.foldl (fun m t => max m (t.addr + t.size)) m ≤ M := by
  induction ts generalizing m with
  | nil => simpa using hm
  | cons a ts ih =>
    simp only [List.foldl_cons]
    apply ih
    · have := h a (List.mem_cons_self _ _); omega
    · intro t ht; exact h t (List.mem_cons_of_mem _ ht)

theorem token_step_tokens (B : Nat) (st : LoadState) (v : Nat) (n : Int) :
    (token_step B st v n).2.tokens = st.tokens ++ [⟨st.current_addr, bytes_for n, v⟩] := by
  unfold token_step
  simp only
  split_ifs <;> rfl

theorem token_step_tracked (B : Nat) (st : LoadState) (v : Nat) (n : Int)
    (hst : Tracked st) (hfit : st.current_addr + bytes_for n ≤ B)
    (h31 : st.current_addr + bytes_for n < 2 ^ 31) :
    (token_step B st v n).1 = Status.ok ∧ Tracked (token_step B st v n).2 := by
  have hadd : add32 st.current_addr (bytes_for n) = st.current_addr + bytes_for n :=
    Nat.mod_eq_of_lt (by omega)
  have hnot : ¬ (add32 st.current_addr (bytes_for n) > B) := by omega
  unfold token_step
  simp only [hnot, if_false]
  refine ⟨trivial, ?_, ?_⟩
  · show (if _ then _ else _) = max_end (st.tokens ++ [_])
    rw [max_end_append, ← hst.1, Nat.max_def]
    dsimp only
    split_ifs <;> omega
  · intro t ht
    rcases List.mem_append.1 ht with h | h
    · exact hst.2 t h
    · simp only [List.mem_singleton] at h
      rw [h]; exact bytes_for_pos _

theorem parse_data_tokens (B : Nat) :
    ∀ fuel ptr st, ∃ extra, (parse_data B fuel ptr st).2.tokens = st.tokens ++ extra := by
  intro fuel
  induction fuel with
  | zero => intro ptr st; exact ⟨[], by simp [parse_data]⟩
  | succ fuel ih =>
    intro ptr st
    rw [parse_data]
    split
    · exact ⟨[], by simp⟩
    · rename_i c rest _
      split
      · rename_i value chars_read _
        have ht := token_step_tokens B st value (digit_count c rest chars_read)
        split
        · rename_i st1 heq
          rw [heq] at ht
          simp only at ht
          obtain ⟨extra, he⟩ := ih (List.drop chars_read (c :: rest)) st1
          refine ⟨⟨st.current_addr, bytes_for (digit_count c rest chars_read), value⟩ :: extra,
            ?_⟩
          rw [he, ht]; simp
        · exact ⟨_, ht⟩
      · exact ih _ _

theorem parse_data_tracked (B : Nat) :
    ∀ fuel ptr st,
      (∀ t ∈ (parse_data B fuel ptr st).2.tokens,
        t.addr + t.size ≤ B ∧ t.addr + t.size < 2 ^ 31) →
      Tracked st →
      (parse_data B fuel ptr st).1 = Status.ok ∧ Tracked (parse_data B fuel ptr st).2 := by
  intro fuel
  induction fuel with
  | zero => intro ptr st _ hst; exact ⟨rfl, hst⟩
  | succ fuel ih =>
    intro ptr st
    rw [parse_data]
    split
    · intro _ hst; exact ⟨rfl, hst⟩
    · rename_i c rest _
      split
      · rename_i value chars_read _
        have ht := token_step_tokens B st value (digit_count c rest chars_read)
        split
        · rename_i st1 heq
          intro hfit hst
          rw [heq] at ht
          simp only at ht
          obtain ⟨extra, he⟩ := parse_data_tokens B fuel (List.drop chars_read (c :: rest)) st1
          have hthis := hfit ⟨st.current_addr, bytes_for (digit_count c rest chars_read), value⟩
            (by rw [he, ht]; simp)
          have htr := token_step_tracked B st value (digit_count c rest chars_read) hst
            hthis.1 hthis.2
          rw [heq] at htr
          exact ih _ _ hfit htr.2
        · rename_i hne
          intro hfit hst
          have hthis := hfit ⟨st.current_addr, bytes_for (digit_count c rest chars_read), value⟩
            (by rw [ht]; simp)
          exact token_step_tracked B st value (digit_count c rest chars_read) hst
            hthis.1 hthis.2
      · exact ih _ _

end Loader

namespace Loader

theorem load_lines_tokens (B : Nat) :
    ∀ fuel file st, ∃ extra, (load_lines B fuel file st).2.tokens = st.tokens ++ extra := by
  intro fuel
  induction fuel with
  | zero => intro file st; exact ⟨[], by simp [load_lines]⟩
  | succ fuel ih =>
    intro file st
    rw [load_lines]
    split
    · exact ⟨[], by simp⟩
    · rename_i raw rest _
      simp only
      split_ifs
      · exact ih _ _
      · split
        · exact ih _ _
        · exact ⟨[], by simp⟩
      · obtain ⟨e1, he1⟩ := parse_data_tokens B ((cstr raw).length + 1) (cstr raw) st
        split
        · rename_i st1 heq
          rw [heq] at he1
          simp only at he1
          obtain ⟨e2, he2⟩ := ih rest st1
          exact ⟨e1 ++ e2, by rw [he2, he1, List.append_assoc]⟩
        · exact ⟨e1, he1⟩

theorem load_lines_tracked (B : Nat) :
    ∀ fuel file st,
      (∀ t ∈ (load_lines B fuel file st).2.tokens,
        t.addr + t.size ≤ B ∧ t.addr + t.size < 2 ^ 31) →
      Tracked st →
      ((load_lines B fuel file st).1 = Status.ok ∨
        (load_lines B fuel file st).1 = Status.bad_directive) ∧
      Tracked (load_lines B fuel file st).2 := by
  intro fuel
  induction fuel with
  | zero => intro file st _ hst; exact ⟨Or.inl rfl, hst⟩
  | succ fuel ih =>
    intro file st
    rw [load_lines]
    split
    · intro _ hst; exact ⟨Or.inl rfl, hst⟩
    · rename_i raw rest _
      simp only
      split_ifs
      · exact ih _ _
      · split
        · intro hfit hst
          exact ih _ _ hfit hst
        · intro _ hst; exact ⟨Or.inr rfl, hst⟩
      · obtain ⟨e1, he1⟩ := parse_data_tokens B ((cstr raw).length + 1) (cstr raw) st
        have hp := parse_data_tracked B ((cstr raw).length + 1) (cstr raw) st
        split
        · rename_i st1 heq
          intro hfit hst
          rw [heq] at hp he1
          simp only at hp he1
          obtain ⟨e2, he2⟩ := load_lines_tokens B fuel rest st1
          have hst1 := (hp (fun t ht => hfit t (by
            rw [he2]; exact List.mem_append_left _ ht)) hst).2
          exact ih rest st1 hfit hst1
        · rename_i hne
          intro hfit hst
          obtain ⟨h1, h2⟩ := hp hfit hst
          exact ⟨Or.inl h1, h2⟩

theorem max_end_ge {ts : List Token} {t : Token} (ht : t ∈ ts) :
    t.addr + t.size ≤ max_end ts :=
  (foldl_max_ge ts 0).2 t ht

theorem max_end_le {ts : List Token} {M : Nat} (h : ∀ t ∈ ts, t.addr + t.size ≤ M) :
    max_end ts ≤ M :=
  foldl_max_le ts 0 M (Nat.zero_le _) h

end Loader

namespace Loader

set_option maxRecDepth 100000 in
/-- C10 fails as stated.  The image `@7FFFFFFF`, `AA` in a buffer of
`2^31 + 16` bytes has one data token whose write fits, the cursor reaches
`0x80000000`, and the value returned is `-2147483648`.  The image `AA`, `@`
in a 256-byte buffer has one data token whose write fits and reaches cursor 1,
and the value returned is `-1` because of the address directive without
address. -/
theorem C10_counterexample :
    (load_image (some (bytes "@7FFFFFFF\nAA\n")) (fun _ => 0) (2 ^ 31 + 16)).2.tokens =
      [⟨0x7FFFFFFF, 1, 0xAA⟩] ∧
    0x7FFFFFFF + 1 ≤ 2 ^ 31 + 16 ∧
    (validate_and_load_binary (some (bytes "@7FFFFFFF\nAA\n")) (fun _ => 0) (2 ^ 31 + 16)).1 =
      -2147483648 ∧
    (load_image (some (bytes "AA\n@\n")) (fun _ => 0) 256).2.tokens = [⟨0, 1, 0xAA⟩] ∧
    (load_image (some (bytes "AA\n@\n")) (fun _ => 0) 256).1 = Status.bad_directive ∧
    (validate_and_load_binary (some (bytes "AA\n@\n")) (fun _ => 0) 256).1 = -1 := by
  refine ⟨by decide, by decide, by decide, by decide, by decide, by decide⟩

/-- C10 (amended): `validate_and_load_binary` reports the maximum extent, not
the number of bytes written: for every image that does not stop the loader at
a malformed address directive, that contains at least one data token and whose
writes all fit in the buffer and end below `2^31`, the load succeeds and the
value returned is the largest cursor value reached after any token write,
whatever the order of the address directives. -/
theorem C10_max_extent (file : List Nat) (buffer : Nat → Nat) (B : Nat)
    (hdir : (load_image (some file) buffer B).1 ≠ Status.bad_directive)
    (htok : (load_image (some file) buffer B).2.tokens ≠ [])
    (hfit : ∀ t ∈ (load_image (some file) buffer B).2.tokens,
      t.addr + t.size ≤ B ∧ t.addr + t.size < 2 ^ 31) :
    (load_image (some file) buffer B).1 = Status.ok ∧
    (validate_and_load_binary (some file) buffer B).1 =
      ((max_end (load_image (some file) buffer B).2.tokens : Nat) : Int) := by
  have hinit : Tracked ⟨buffer, 0, 0, []⟩ := ⟨rfl, fun t ht => by simp at ht⟩
  have htr := load_lines_tracked B (file.length + 1) file ⟨buffer, 0, 0, []⟩
  have himg : load_image (some file) buffer B =
      match load_lines B (file.length + 1) file ⟨buffer, 0, 0, []⟩ with
      | (Status.ok, st) => if st.max_addr = 0 then (Status.no_data, st) else (Status.ok, st)
      | r => r := rfl
  rcases hr : load_lines B (file.length + 1) file ⟨buffer, 0, 0, []⟩ with ⟨s, st⟩
  rw [hr] at htr himg
  have hstate : (load_image (some file) buffer B).2 = st := by
    rw [himg]
    cases s <;> simp only
    split_ifs <;> rfl
  rw [hstate] at htok hfit
  obtain ⟨hs, hmax, _⟩ := htr hfit hinit
  simp only at hs hmax
  obtain ⟨t, ht⟩ := List.exists_mem_of_ne_nil _ htok
  have hge := max_end_ge ht
  have hle : max_end st.tokens ≤ 2 ^ 31 - 1 :=
    max_end_le (fun t ht => by have := (hfit t ht).2; omega)
  have hsize : 1 ≤ t.size := by
    have := (htr hfit hinit).2.2 t ht
    exact this
  rcases hs with hs | hs
  · subst hs
    have hne : ¬ (st.max_addr = 0) := by omega
    have himg2 : load_image (some file) buffer B = (Status.ok, st) := by
      rw [himg]; simp only [hne, if_false]
    refine ⟨by rw [himg2], ?_⟩
    unfold validate_and_load_binary
    rw [himg2]
    simp only
    rw [← hmax]
    unfold to_int32
    rw [if_pos (by omega)]
  · subst hs
    exfalso
    apply hdir
    rw [himg]

set_option maxRecDepth 100000 in
/-- Witness of C10 (amended): the image `@10`, `AA`, `@0`, `BB` in a 256-byte
buffer returns `0x11` although two bytes were written. -/
theorem C10_max_extent_witness :
    (load_image (some (bytes "@10\nAA\n@0\nBB\n")) (fun _ => 0) 256).2.tokens =
      [⟨0x10, 1, 0xAA⟩, ⟨0, 1, 0xBB⟩] ∧
    max_end [⟨0x10, 1, 0xAA⟩, ⟨0, 1, 0xBB⟩] = 0x11 ∧
    (validate_and_load_binary (some (bytes "@10\nAA\n@0\nBB\n")) (fun _ => 0) 256).1 = 0x11 ∧
    (validate_and_load_binary (some (bytes "@10\nAA\n@0\nBB\n")) (fun _ => 0) 256).1 =
      ((max_end (load_image (some (bytes "@10\nAA\n@0\nBB\n")) (fun _ => 0) 256).2.tokens
        : Nat) : Int) :=
  ⟨by decide, by decide, by decide,
   (C10_max_extent (bytes "@10\nAA\n@0\nBB\n") (fun _ => 0) 256 (by decide) (by decide)
     (by decide)).2⟩

end Loader

namespace Loader

theorem scan_hex_pos {s : List Nat} {v n : Nat} (h : scan_hex s = some (v, n)) : 1 ≤ n := by
  unfold scan_hex at h
  dsimp only at h
  split_ifs at h with hcond
  all_goals
    simp only [Option.some.injEq, Prod.mk.injEq] at h
    obtain ⟨_, hn⟩ := h
    rw [← hn]
    by_cases hp : (scan_base (scan_sign (List.dropWhile isspace s)).2.2).1 = 0
    · have hds := fun h' => hcond ⟨hp, h'⟩
      have := List.length_pos.2 hds
      omega
    · omega

theorem read_line_length : ∀ n (f : List Nat), (read_line n f).2.length ≤ f.length := by
  intro n
  induction n with
  | zero => intro f; simp [read_line]
  | succ n ih =>
    intro f
    cases f with
    | nil => simp [read_line]
    | cons c f =>
      simp only [read_line]
      split_ifs
      · simp
      · have := ih f
        simp only [List.length_cons]
        omega

theorem fgets_length {file raw rest : List Nat} (h : fgets file = some (raw, rest)) :
    rest.length < file.length := by
  cases file with
  | nil => simp [fgets] at h
  | cons c f =>
    simp only [fgets, Option.some.injEq] at h
    have hr : rest = (read_line 255 (c :: f)).2 := by rw [h]
    rw [hr]
    show (read_line (254 + 1) (c :: f)).2.length < _
    simp only [read_line]
    split_ifs
    · simp
    · have := read_line_length 254 f
      simp only [List.length_cons]
      omega

theorem parse_data_fuel (B : Nat) :
    ∀ f1 f2 ptr st, ptr.length < f1 → ptr.length < f2 →
      parse_data B f1 ptr st = parse_data B f2 ptr st := by
  intro f1
  induction f1 with
  | zero => intro f2 ptr st h; omega
  | succ n ih =>
    intro f2 ptr st h1 h2
    cases f2 with
    | zero => omega
    | succ m =>
      have hlen := (List.dropWhile_sublist (l := ptr) is_blank).length_le
      cases hdw : ptr.dropWhile is_blank with
      | nil => simp only [parse_data, hdw]
      | cons c rest =>
        rw [hdw] at hlen
        simp only [List.length_cons] at hlen
        cases hsc : scan_hex (c :: rest) with
        | none =>
          simp only [parse_data, hdw, hsc]
          exact ih m rest st (by omega) (by omega)
        | some p =>
          obtain ⟨value, chars_read⟩ := p
          have hpos := scan_hex_pos hsc
          have hdl : (List.drop chars_read (c :: rest)).length ≤ rest.length := by
            simp only [List.length_drop, List.length_cons]; omega
          simp only [parse_data, hdw, hsc]
          rcases hts : token_step B st value (digit_count c rest chars_read) with ⟨s1, st1⟩
          cases s1 <;> simp only
          exact ih m _ st1 (by omega) (by omega)

theorem load_lines_fuel (B : Nat) :
    ∀ f1 f2 file st, file.length < f1 → file.length < f2 →
      load_lines B f1 file st = load_lines B f2 file st := by
  intro f1
  induction f1 with
  | zero => intro f2 file st h; omega
  | succ n ih =>
    intro f2 file st h1 h2
    cases f2 with
    | zero => omega
    | succ m =>
      cases hfg : fgets file with
      | none => simp only [load_lines, hfg]
      | some p =>
        obtain ⟨raw, rest⟩ := p
        have hlen := fgets_length hfg
        simp only [load_lines, hfg]
        split_ifs
        · exact ih m rest st (by omega) (by omega)
        · cases hsc : scan_hex (cstr raw).tail with
          | none => rfl
          | some q => exact ih m rest _ (by omega) (by omega)
        · rcases hpd : parse_data B ((cstr raw).length + 1) (cstr raw) st with ⟨s1, st1⟩
          cases s1 <;> simp only
          exact ih m rest st1 (by omega) (by omega)

end Loader

namespace Loader

theorem token_step_mono {B B2 : Nat} (hB : B ≤ B2) (st : LoadState) (v : Nat) (n : Int)
    (h : (token_step B st v n).1 ≠ Status.out_of_bounds) :
    token_step B2 st v n = token_step B st v n := by
  unfold token_step at h ⊢
  dsimp only at h ⊢
  by_cases hc : add32 st.current_addr (bytes_for n) > B
  · rw [if_pos hc] at h
    exact absurd rfl h
  · have hc2 : ¬ (add32 st.current_addr (bytes_for n) > B2) := by omega
    rw [if_neg hc, if_neg hc2]

theorem parse_data_mono {B B2 : Nat} (hB : B ≤ B2) :
    ∀ fuel ptr st, (parse_data B fuel ptr st).1 ≠ Status.out_of_bounds →
      parse_data B2 fuel ptr st = parse_data B fuel ptr st := by
  intro fuel
  induction fuel with
  | zero => intro ptr st _; rfl
  | succ fuel ih =>
    intro ptr st
    cases hdw : ptr.dropWhile is_blank with
    | nil => intro _; simp only [parse_data, hdw]
    | cons c rest =>
      cases hsc : scan_hex (c :: rest) with
      | none =>
        simp only [parse_data, hdw, hsc]
        exact ih rest st
      | some p =>
        obtain ⟨value, chars_read⟩ := p
        simp only [parse_data, hdw, hsc]
        rcases hts : token_step B st value (digit_count c rest chars_read) with ⟨s1, st1⟩
        have hm := token_step_mono hB st value (digit_count c rest chars_read)
        rw [hts] at hm
        cases s1
        case out_of_bounds => intro h; exact absurd rfl h
        all_goals
          rw [hm (by simp)]
          simp only
        all_goals first | exact ih _ st1 | exact fun _ => trivial

theorem load_lines_mono {B B2 : Nat} (hB : B ≤ B2) :
    ∀ fuel file st, (load_lines B fuel file st).1 ≠ Status.out_of_bounds →
      load_lines B2 fuel file st = load_lines B fuel file st := by
  intro fuel
  induction fuel with
  | zero => intro file st _; rfl
  | succ fuel ih =>
    intro file st
    cases hfg : fgets file with
    | none => intro _; simp only [load_lines, hfg]
    | some p =>
      obtain ⟨raw, rest⟩ := p
      simp only [load_lines, hfg]
      split_ifs
      · exact ih rest st
      · cases hsc : scan_hex (cstr raw).tail with
        | none => intro _; rfl
        | some q => exact ih rest _
      · rcases hpd : parse_data B ((cstr raw).length + 1) (cstr raw) st with ⟨s1, st1⟩
        have hm := parse_data_mono hB ((cstr raw).length + 1) (cstr raw) st
        rw [hpd] at hm
        cases s1
        all_goals first
          | (intro h; exact absurd rfl h)
          | (rw [hm (by simp)]; simp only; first | exact ih rest st1 | exact fun _ => trivial)

theorem load_image_mono {B B2 : Nat} (hB : B ≤ B2) (file : Option (List Nat))
    (buffer : Nat → Nat)
    (h : (load_image file buffer B).1 ≠ Status.out_of_bounds) :
    load_image file buffer B2 = load_image file buffer B := by
  cases file with
  | none => rfl
  | some f =>
    unfold load_image at h ⊢
    dsimp only at h ⊢
    rcases hl : load_lines B (f.length + 1) f ⟨buffer, 0, 0, []⟩ with ⟨s1, st1⟩
    have hm := load_lines_mono hB (f.length + 1) f ⟨buffer, 0, 0, []⟩
    rw [hl] at hm h
    cases s1
    case out_of_bounds => exact absurd rfl h
    all_goals rw [hm (by simp)]

end Loader

namespace Loader

theorem validate_mono {B B2 : Nat} (hB : B ≤ B2) (file : Option (List Nat))
    (buffer : Nat → Nat)
    (h : (load_image file buffer B).1 ≠ Status.out_of_bounds) :
    validate_and_load_binary file buffer B2 = validate_and_load_binary file buffer B := by
  unfold validate_and_load_binary
  rw [load_image_mono hB file buffer h]

set_option maxRecDepth 100000 in
/-- C11 fails as stated: loading the image `@100` newline `DE AD BE EF` into a
zeroed 256-byte buffer returns -1, because the first token is at cursor 0x100
and `0x100 + 1 > 256`: the loader stops at its bounds check. -/
theorem C11_counterexample :
    (validate_and_load_binary (some (bytes "@100\nDE AD BE EF")) (fun _ => 0) 256).1 = -1 ∧
    (load_image (some (bytes "@100\nDE AD BE EF")) (fun _ => 0) 256).1 =
      Status.out_of_bounds ∧
    (load_image (some (bytes "@100\nDE AD BE EF")) (fun _ => 0) 256).2.tokens =
      [⟨0x100, 1, 0xDE⟩] := by
  refine ⟨by decide, by decide, by decide⟩

set_option maxRecDepth 100000 in
/-- C11 (amended): loading the image `@100` newline `DE AD BE EF` with
`validate_and_load_binary` into a zeroed buffer of at least 0x104 bytes
succeeds, leaves bytes 0x100..0x103 equal to 0xDE, 0xAD, 0xBE, 0xEF and returns
0x104. -/
theorem C11_load_example (B : Nat) (hB : 0x104 ≤ B) :
    (validate_and_load_binary (some (bytes "@100\nDE AD BE EF")) (fun _ => 0) B).1 = 0x104 ∧
    (validate_and_load_binary (some (bytes "@100\nDE AD BE EF")) (fun _ => 0) B).2 0x100 = 0xDE ∧
    (validate_and_load_binary (some (bytes "@100\nDE AD BE EF")) (fun _ => 0) B).2 0x101 = 0xAD ∧
    (validate_and_load_binary (some (bytes "@100\nDE AD BE EF")) (fun _ => 0) B).2 0x102 = 0xBE ∧
    (validate_and_load_binary (some (bytes "@100\nDE AD BE EF")) (fun _ => 0) B).2 0x103 = 0xEF := by
  rw [validate_mono hB (some (bytes "@100\nDE AD BE EF")) (fun _ => 0) (by decide)]
  refine ⟨by decide, by decide, by decide, by decide, by decide⟩

/-- Witness of C11 (amended): a zeroed 512-byte buffer. -/
theorem C11_load_example_witness :
    (validate_and_load_binary (some (bytes "@100\nDE AD BE EF")) (fun _ => 0) 512).1 = 0x104 :=
  (C11_load_example 512 (by decide)).1

end Loader

namespace Loader

set_option maxRecDepth 100000 in
/-- C12, the code at the failing input: the image `@FFFFFFFF`, `DEADBEEF` and
the 16 MiB capacity.  The write would extend past the capacity
(`0xFFFFFFFF + 4 > 0x1000000`), but the sum is computed modulo `2^32` and the
check passes: the load succeeds with value 3, and the byte at index
`0xFFFFFFFF`, which is not below the capacity, has been written. -/
theorem C12_failing_input :
    (load_image (some (bytes "@FFFFFFFF\nDEADBEEF\n")) (fun _ => 0) 0x1000000).2.tokens =
      [⟨0xFFFFFFFF, 4, 0xDEADBEEF⟩] ∧
    0xFFFFFFFF + 4 > 0x1000000 ∧
    (validate_and_load_binary (some (bytes "@FFFFFFFF\nDEADBEEF\n")) (fun _ => 0)
      0x1000000).1 = 3 ∧
    (validate_and_load_binary (some (bytes "@FFFFFFFF\nDEADBEEF\n")) (fun _ => 0)
      0x1000000).2 0xFFFFFFFF = 0xEF ∧
    0xFFFFFFFF ≥ 0x1000000 := by
  refine ⟨by decide, by decide, by decide, by decide, by decide⟩

set_option maxRecDepth 100000 in
/-- C13, the code at the failing input: the image is one comment line, `#`
followed by 254 spaces and `AB`.  `fgets` stores the first 255 characters; the
next call returns `AB` as a line of its own, which is loaded as data: the
value returned is 1 and byte 0 of the buffer is 0xAB. -/
theorem C13_failing_input :
    (validate_and_load_binary (some (35 :: (List.replicate 254 32 ++ bytes "AB\n")))
      (fun _ => 0) 0x1000000).1 = 1 ∧
    (validate_and_load_binary (some (35 :: (List.replicate 254 32 ++ bytes "AB\n")))
      (fun _ => 0) 0x1000000).2 0 = 0xAB ∧
    fgets (35 :: (List.replicate 254 32 ++ bytes "AB\n")) =
      some (35 :: List.replicate 254 32, bytes "AB\n") := by
  refine ⟨by decide, by decide, by decide⟩

end Loader

namespace Loader

theorem init_words_at (e : Nat) (imem : Nat → Nat) :
    ∀ k j, j < 4 * k → init_words e k imem j = (e >>> (8 * (j % 4))) &&& 0xFF := by
  intro k
  induction k with
  | zero => intro j hj; omega
  | succ k ih =>
    intro j hj
    simp only [init_words, Function.update_apply]
    by_cases h3 : j = 4 * k + 3
    · have : j % 4 = 3 := by omega
      rw [if_pos h3, this]
    · rw [if_neg h3]
      by_cases h2 : j = 4 * k + 2
      · have : j % 4 = 2 := by omega
        rw [if_pos h2, this]
      · rw [if_neg h2]
        by_cases h1 : j = 4 * k + 1
        · have : j % 4 = 1 := by omega
          rw [if_pos h1, this]
        · rw [if_neg h1]
          by_cases h0 : j = 4 * k + 0
          · have : j % 4 = 0 := by omega
            rw [if_pos h0, this]
          · rw [if_neg h0]
            exact ih j (by omega)

theorem init_at (imem : Nat → Nat) (j : Nat) (hj : j < 0x1000000) :
    init imem j = trap_byte j := by
  unfold init
  rw [init_words_at 0x00100073 imem 0x400000 j (by omega)]
  unfold trap_byte
  have h4 : j % 4 < 4 := Nat.mod_lt _ (by omega)
  split_ifs with a b c
  · rw [a]; decide
  · rw [b]; decide
  · rw [c]; decide
  · have : j % 4 = 3 := by omega
    rw [this]; decide

theorem bytes_for_le (n : Int) : bytes_for n ≤ 4 := by
  unfold bytes_for
  split_ifs <;> omega

theorem write_le_frame (buf : Nat → Nat) (a v : Nat) :
    ∀ n j, (∀ k, k < n → j ≠ add32 a k) → write_le buf a v n j = buf j := by
  intro n
  induction n with
  | zero => intro j _; rfl
  | succ n ih =>
    intro j hj
    show Function.update (write_le buf a v n) (add32 a n) _ j = _
    rw [Function.update_noteq (hj n (by omega))]
    exact ih j (fun k hk => hj k (by omega))

theorem scan_hex_lt {s : List Nat} {v n : Nat} (h : scan_hex s = some (v, n)) :
    v < 2 ^ 32 := by
  unfold scan_hex at h
  dsimp only at h
  split_ifs at h
  all_goals
    simp only [Option.some.injEq, Prod.mk.injEq] at h
    obtain ⟨hv, _⟩ := h
    rw [← hv]
    exact Nat.mod_lt _ (by norm_num)

theorem token_step_untouched (B : Nat) (b0 : Nat → Nat) (st : LoadState) (v : Nat)
    (n : Int) (h : Untouched B b0 st) : Untouched B b0 (token_step B st v n).2 := by
  obtain ⟨h1, h2, h3⟩ := h
  have hn := bytes_for_le n
  have hn1 := bytes_for_pos n
  unfold token_step
  dsimp only
  by_cases hc : add32 st.current_addr (bytes_for n) > B
  · rw [if_pos hc]
    exact ⟨h1, h2, h3⟩
  · rw [if_neg hc]
    have hcur : add32 st.current_addr (bytes_for n) < 2 ^ 32 := Nat.mod_lt _ (by norm_num)
    refine ⟨hcur, ?_, ?_⟩
    · dsimp only
      split_ifs <;> omega
    · intro j hj1 hj2
      dsimp only at hj1 ⊢
      have hmax : st.max_addr ≤ j ∧ add32 st.current_addr (bytes_for n) ≤ j := by
        split_ifs at hj1 <;> omega
      rw [write_le_frame]
      · exact h3 j hmax.1 hj2
      · intro k hk
        have := hmax.2
        unfold add32 at this ⊢
        omega

end Loader

namespace Loader

theorem parse_data_untouched (B : Nat) (b0 : Nat → Nat) :
    ∀ fuel ptr st, Untouched B b0 st → Untouched B b0 (parse_data B fuel ptr st).2 := by
  intro fuel
  induction fuel with
  | zero => intro ptr st h; exact h
  | succ fuel ih =>
    intro ptr st h
    cases hdw : ptr.dropWhile is_blank with
    | nil => simp only [parse_data, hdw]; exact h
    | cons c rest =>
      cases hsc : scan_hex (c :: rest) with
      | none =>
        simp only [parse_data, hdw, hsc]
        exact ih rest st h
      | some p =>
        obtain ⟨value, chars_read⟩ := p
        simp only [parse_data, hdw, hsc]
        have ht := token_step_untouched B b0 st value (digit_count c rest chars_read) h
        rcases hts : token_step B st value (digit_count c rest chars_read) with ⟨s1, st1⟩
        rw [hts] at ht
        cases s1
        all_goals first | exact ih _ st1 ht | exact ht

theorem load_lines_untouched (B : Nat) (b0 : Nat → Nat) :
    ∀ fuel file st, Untouched B b0 st → Untouched B b0 (load_lines B fuel file st).2 := by
  intro fuel
  induction fuel with
  | zero => intro file st h; exact h
  | succ fuel ih =>
    intro file st h
    cases hfg : fgets file with
    | none => simp only [load_lines, hfg]; exact h
    | some p =>
      obtain ⟨raw, rest⟩ := p
      simp only [load_lines, hfg]
      split_ifs
      · exact ih rest st h
      · cases hsc : scan_hex (cstr raw).tail with
        | none => exact h
        | some q =>
          obtain ⟨a, m⟩ := q
          exact ih rest _ ⟨scan_hex_lt hsc, h.2.1, h.2.2⟩
      · have hp := parse_data_untouched B b0 ((cstr raw).length + 1) (cstr raw) st h
        rcases hpd : parse_data B ((cstr raw).length + 1) (cstr raw) st with ⟨s1, st1⟩
        rw [hpd] at hp
        cases s1
        all_goals first | exact ih rest st1 hp | exact hp

theorem load_image_untouched (B : Nat) (file : Option (List Nat)) (b0 : Nat → Nat) :
    Untouched B b0 (load_image file b0 B).2 := by
  have hinit : Untouched B b0 ⟨b0, 0, 0, []⟩ :=
    ⟨by norm_num, Nat.zero_le _, fun j _ _ => rfl⟩
  cases file with
  | none => exact hinit
  | some f =>
    have hl := load_lines_untouched B b0 (f.length + 1) f ⟨b0, 0, 0, []⟩ hinit
    unfold load_image
    dsimp only
    rcases hr : load_lines B (f.length + 1) f ⟨b0, 0, 0, []⟩ with ⟨s1, st1⟩
    rw [hr] at hl
    cases s1
    all_goals first | exact hl | (dsimp only; split_ifs <;> exact hl)

/-- C14: after `init()` followed by a successful `validate_and_load_binary`
into the 16 MiB instruction memory that returns `n`, every byte of that memory
at an index `i ≥ n` still holds the trap pattern: byte `i mod 4` of the
little-endian EBREAK word 0x00100073 (0x73, 0x00, 0x10, 0x00). -/
theorem C14_trap_fill (prior : Nat → Nat) (file : Option (List Nat)) (n : Nat)
    (hret : (validate_and_load_binary file (init prior) 0x1000000).1 = (n : Int)) :
    ∀ i, n ≤ i → i < 0x1000000 →
      (validate_and_load_binary file (init prior) 0x1000000).2 i = trap_byte i := by
  intro i hni hi
  obtain ⟨_, h2, h3⟩ := load_image_untouched 0x1000000 file (init prior)
  unfold validate_and_load_binary at hret ⊢
  revert h2 h3 hret
  rcases load_image file (init prior) 0x1000000 with ⟨s1, st1⟩
  intro hret h2 h3
  replace h2 : st1.max_addr ≤ 0x1000000 := h2
  replace h3 : ∀ j, st1.max_addr ≤ j → j < 2 ^ 32 - 4 → st1.buffer j = init prior j := h3
  cases s1
  case ok =>
    dsimp only at hret ⊢
    have hn : st1.max_addr = n := by
      unfold to_int32 at hret
      rw [if_pos (by omega)] at hret
      exact_mod_cast hret
    rw [h3 i (by omega) (by omega)]
    exact init_at prior i hi
  all_goals
    dsimp only at hret
    omega

set_option maxRecDepth 100000 in
/-- Witness of C14: the image of C11 loaded after `init()` returns 0x104, and
the byte at 0x104 is the first byte of an EBREAK word. -/
theorem C14_trap_fill_witness :
    (validate_and_load_binary (some (bytes "@100\nDE AD BE EF")) (init (fun _ => 0))
      0x1000000).1 = ((0x104 : Nat) : Int) ∧
    (validate_and_load_binary (some (bytes "@100\nDE AD BE EF")) (init (fun _ => 0))
      0x1000000).2 0x104 = trap_byte 0x104 :=
  ⟨by decide,
   C14_trap_fill (fun _ => 0) (some (bytes "@100\nDE AD BE EF")) 0x104 (by decide) 0x104
     (by decide) (by decide)⟩

end Loader

namespace Fifo

theorem reads_congr (arr : Nat → Nat) :
    ∀ (l : List Nat) (h h2 : Nat), h % 256 = h2 % 256 → Reads arr h l → Reads arr h2 l := by
  intro l
  induction l with
  | nil => intro h h2 _ _; trivial
  | cons x l ih =>
    intro h h2 he hr
    obtain ⟨r1, r2⟩ := hr
    refine ⟨by rw [← he]; exact r1, ih (h + 1) (h2 + 1) (by omega) r2⟩

theorem reads_update (arr : Nat → Nat) (b : Nat) :
    ∀ (l : List Nat) (h : Nat), l.length < 256 → Reads arr h l →
      Reads (Function.update arr ((h + l.length) % 256) b) h l := by
  intro l
  induction l with
  | nil => intro h _ _; trivial
  | cons x l ih =>
    intro h hlen hr
    obtain ⟨r1, r2⟩ := hr
    simp only [List.length_cons] at hlen ⊢
    refine ⟨?_, ?_⟩
    · rw [Function.update_noteq (by omega)]
      exact r1
    · have e : (h + (l.length + 1)) % 256 = (h + 1 + l.length) % 256 := by
        congr 1; omega
      rw [e]
      exact ih (h + 1) (by omega) r2

theorem reads_append (arr : Nat → Nat) (b : Nat) :
    ∀ (l : List Nat) (h : Nat), Reads arr h l → arr ((h + l.length) % 256) = b →
      Reads arr h (l ++ [b]) := by
  intro l
  induction l with
  | nil =>
    intro h _ hb
    exact ⟨by simpa using hb, trivial⟩
  | cons x l ih =>
    intro h hr hb
    obtain ⟨r1, r2⟩ := hr
    refine ⟨r1, ih (h + 1) r2 ?_⟩
    rw [← hb]
    simp only [List.length_cons]
    congr 1
    omega

theorem holds_empty (arr : Nat → Nat) : Holds (empty arr) [] :=
  ⟨by simp, by simp [empty], by simp [empty], trivial⟩

theorem holds_bounds {q : Fifo} {l : List Nat} (h : Holds q l) :
    q.rx_fifo_head < 256 ∧ q.rx_fifo_tail < 256 := by
  obtain ⟨_, h2, h3, _⟩ := h
  exact ⟨h2, by omega⟩

theorem enqueue_holds {q : Fifo} {l : List Nat} (b : Nat) (h : Holds q l)
    (hl : l.length < 255) :
    accepts q = true ∧ Holds (enqueue b q) (l ++ [b]) := by
  obtain ⟨h1, h2, h3, h4⟩ := h
  have hne : (q.rx_fifo_tail + 1) % 256 ≠ q.rx_fifo_head := by omega
  refine ⟨by simp [accepts, hne], ?_⟩
  unfold enqueue
  dsimp only
  rw [if_pos hne]
  refine ⟨by simp; omega, h2, ?_, ?_⟩
  · show (q.rx_fifo_tail + 1) % 256 = (q.rx_fifo_head + (l ++ [b]).length) % 256
    simp only [List.length_append, List.length_singleton]
    omega
  · show Reads (Function.update q.rx_fifo q.rx_fifo_tail b) q.rx_fifo_head (l ++ [b])
    rw [h3]
    apply reads_append
    · exact reads_update q.rx_fifo b l q.rx_fifo_head h1 h4
    · rw [Function.update_same]

theorem enqueue_full {q : Fifo} {l : List Nat} (b : Nat) (h : Holds q l)
    (hl : l.length = 255) :
    accepts q = false ∧ enqueue b q = q := by
  obtain ⟨h1, h2, h3, h4⟩ := h
  have he : (q.rx_fifo_tail + 1) % 256 = q.rx_fifo_head := by omega
  refine ⟨by simp [accepts, he], ?_⟩
  unfold enqueue
  dsimp only
  rw [if_neg (by simpa using he)]

theorem dequeue_cons {q : Fifo} {x : Nat} {l : List Nat} (h : Holds q (x :: l)) :
    (dequeue q).1 = some x ∧ Holds (dequeue q).2 l := by
  obtain ⟨h1, h2, h3, h4, h5⟩ := h
  simp only [List.length_cons] at h1 h3
  have hne : q.rx_fifo_head ≠ q.rx_fifo_tail := by omega
  unfold dequeue
  rw [if_pos hne]
  refine ⟨?_, by omega, Nat.mod_lt _ (by omega), ?_, ?_⟩
  · show some (q.rx_fifo q.rx_fifo_head) = some x
    rw [← h4, Nat.mod_eq_of_lt h2]
  · show q.rx_fifo_tail = ((q.rx_fifo_head + 1) % 256 + l.length) % 256
    omega
  · show Reads q.rx_fifo ((q.rx_fifo_head + 1) % 256) l
    exact reads_congr q.rx_fifo l (q.rx_fifo_head + 1) _ (by omega) h5

theorem dequeue_nil {q : Fifo} (h : Holds q []) : dequeue q = (none, q) := by
  obtain ⟨_, h2, h3, _⟩ := h
  simp only [List.length_nil, Nat.add_zero] at h3
  have he : q.rx_fifo_head = q.rx_fifo_tail := by omega
  unfold dequeue
  rw [if_neg (by simpa using he)]

theorem drain_holds : ∀ (l : List Nat) (q : Fifo) (fuel : Nat), Holds q l →
    l.length ≤ fuel → drain fuel q = l := by
  intro l
  induction l with
  | nil =>
    intro q fuel h _
    cases fuel with
    | zero => rfl
    | succ n => simp only [drain, dequeue_nil h]
  | cons x l ih =>
    intro q fuel h hf
    cases fuel with
    | zero => simp at hf
    | succ n =>
      obtain ⟨d1, d2⟩ := dequeue_cons h
      simp only [List.length_cons] at hf
      have hd : dequeue q = (some x, (dequeue q).2) := by
        rw [← d1]
      rw [drain, hd]
      simp only
      rw [ih _ n d2 (by omega)]

theorem enqueue_all_holds : ∀ (bs : List Nat) (q : Fifo) (l : List Nat), Holds q l →
    l.length ≤ 255 → Holds (enqueue_all bs q) ((l ++ bs).take 255) := by
  intro bs
  induction bs with
  | nil =>
    intro q l h hl
    simp only [enqueue_all, List.foldl_nil, List.append_nil]
    rw [List.take_of_length_le hl]
    exact h
  | cons b bs ih =>
    intro q l h hl
    show Holds (enqueue_all bs (enqueue b q)) _
    by_cases hlt : l.length < 255
    · have := ih (enqueue b q) (l ++ [b]) (enqueue_holds b h hlt).2 (by simp; omega)
      simpa using this
    · have hl255 : l.length = 255 := by omega
      rw [(enqueue_full b h hl255).2]
      have := ih q l h hl
      rw [List.take_left' hl255] at this ⊢
      exact this

end Fifo

namespace Fifo

theorem enqueue_head (b : Nat) (q : Fifo) : (enqueue b q).rx_fifo_head = q.rx_fifo_head := by
  unfold enqueue
  dsimp only
  split_ifs <;> rfl

theorem enqueue_all_head : ∀ (bs : List Nat) (q : Fifo),
    (enqueue_all bs q).rx_fifo_head = q.rx_fifo_head := by
  intro bs
  induction bs with
  | nil => intro q; rfl
  | cons b bs ih =>
    intro q
    show (enqueue_all bs (enqueue b q)).rx_fifo_head = _
    rw [ih, enqueue_head]

theorem enqueue_all_full : ∀ (bs : List Nat) (q : Fifo) (l : List Nat), Holds q l →
    l.length = 255 → enqueue_all bs q = q := by
  intro bs
  induction bs with
  | nil => intro q l _ _; rfl
  | cons b bs ih =>
    intro q l h hl
    show enqueue_all bs (enqueue b q) = q
    rw [(enqueue_full b h hl).2]
    exact ih q l h hl

theorem enqueue_all_append (xs ys : List Nat) (q : Fifo) :
    enqueue_all (xs ++ ys) q = enqueue_all ys (enqueue_all xs q) := by
  simp [enqueue_all, List.foldl_append]

theorem enqueue_300 (arr : Nat → Nat) (bs : List Nat) (hb : bs.length = 300) :
    drain 256 (enqueue_all bs (empty arr)) = bs.take 255 ∧
    (bs.take 255).length = 255 ∧
    (enqueue_all bs (empty arr)).rx_fifo_head = 0 ∧
    (enqueue_all bs (empty arr)).rx_fifo_tail = 255 ∧
    enqueue_all bs (empty arr) = enqueue_all (bs.take 255) (empty arr) := by
  have hh := enqueue_all_holds bs (empty arr) [] (holds_empty arr) (by simp)
  simp only [List.nil_append] at hh
  have hlen : (bs.take 255).length = 255 := by
    rw [List.length_take, hb]; rfl
  have hhead : (enqueue_all bs (empty arr)).rx_fifo_head = 0 := by
    rw [enqueue_all_head]; rfl
  refine ⟨drain_holds _ _ 256 hh (by omega), hlen, hhead, ?_, ?_⟩
  · obtain ⟨_, _, h3, _⟩ := hh
    rw [h3, hhead, hlen]
  · have h255 := enqueue_all_holds (bs.take 255) (empty arr) [] (holds_empty arr) (by simp)
    simp only [List.nil_append] at h255
    have ht : (bs.take 255).take 255 = bs.take 255 := by simp [List.take_take]
    rw [ht] at h255
    conv_lhs => rw [← List.take_append_drop 255 bs]
    rw [enqueue_all_append]
    exact enqueue_all_full _ _ _ h255 hlen

/-- C15 fails as stated: after enqueuing the 300 bytes `0, 1, .., 255, 0, ..,
43` into the empty queue, the queue holds the first 255 of them, not the first
256: the tail index is 255 and the byte offered 256th is not retained. -/
theorem C15_counterexample :
    drain 256 (enqueue_all ((List.range 300).map (fun i => i % 256)) (empty (fun _ => 0))) =
      ((List.range 300).map (fun i => i % 256)).take 255 ∧
    (drain 256 (enqueue_all ((List.range 300).map (fun i => i % 256))
      (empty (fun _ => 0)))).length = 255 ∧
    drain 256 (enqueue_all ((List.range 300).map (fun i => i % 256)) (empty (fun _ => 0))) ≠
      ((List.range 300).map (fun i => i % 256)).take 256 := by
  obtain ⟨h1, h2, _⟩ := enqueue_300 (fun _ => 0) ((List.range 300).map (fun i => i % 256))
    (by simp)
  refine ⟨h1, by rw [h1, h2], ?_⟩
  intro h
  have := congrArg List.length h
  rw [h1, h2] at this
  simp at this

/-- C15 (amended): starting from the empty pending-byte queue (256-slot ring,
head = tail = 0), enqueuing 300 bytes in sequence with no dequeue in between
retains exactly the first 255 of them in FIFO order and silently drops the
remaining 45: the queue is the one the first 255 bytes alone give. -/
theorem C15_enqueue_300 (arr : Nat → Nat) (bs : List Nat) (hb : bs.length = 300) :
    drain 256 (enqueue_all bs (empty arr)) = bs.take 255 ∧
    (bs.take 255).length = 255 ∧ (bs.drop 255).length = 45 ∧
    (enqueue_all bs (empty arr)).rx_fifo_head = 0 ∧
    (enqueue_all bs (empty arr)).rx_fifo_tail = 255 ∧
    enqueue_all bs (empty arr) = enqueue_all (bs.take 255) (empty arr) := by
  obtain ⟨h1, h2, h3, h4, h5⟩ := enqueue_300 arr bs hb
  refine ⟨h1, h2, ?_, h3, h4, h5⟩
  rw [List.length_drop, hb]

/-- Witness of C15 (amended): the bytes `0, 1, .., 255, 0, .., 43`. -/
theorem C15_enqueue_300_witness :
    ((List.range 300).map (fun i => i % 256)).length = 300 ∧
    (enqueue_all ((List.range 300).map (fun i => i % 256)) (empty (fun _ => 0))).rx_fifo_tail
      = 255 :=
  ⟨by simp,
   (C15_enqueue_300 (fun _ => 0) ((List.range 300).map (fun i => i % 256))
     (by simp)).2.2.2.2.1⟩

theorem step_inv (t : Trace) (op : Op)
    (h : ∃ l, Holds t.q l ∧ t.dequeued ++ l = t.accepted) :
    ∃ l, Holds (step t op).q l ∧ (step t op).dequeued ++ l = (step t op).accepted := by
  obtain ⟨l, hl, he⟩ := h
  cases op with
  | enq b =>
    by_cases hlt : l.length < 255
    · obtain ⟨a1, a2⟩ := enqueue_holds b hl hlt
      refine ⟨l ++ [b], a2, ?_⟩
      show t.dequeued ++ (l ++ [b]) = if accepts t.q then t.accepted ++ [b] else t.accepted
      rw [a1, ← he]
      simp
    · have hl255 : l.length = 255 := by have := hl.1; omega
      obtain ⟨a1, a2⟩ := enqueue_full b hl hl255
      refine ⟨l, by show Holds (enqueue b t.q) l; rw [a2]; exact hl, ?_⟩
      show t.dequeued ++ l = if accepts t.q then t.accepted ++ [b] else t.accepted
      rw [a1]
      simpa using he
  | deq =>
    cases l with
    | nil =>
      have hd := dequeue_nil hl
      refine ⟨[], by show Holds (dequeue t.q).2 []; rw [hd]; exact hl, ?_⟩
      show (match (dequeue t.q).1 with
        | some b => t.dequeued ++ [b]
        | none => t.dequeued) ++ [] = t.accepted
      rw [hd]
      simpa using he
    | cons x l =>
      obtain ⟨d1, d2⟩ := dequeue_cons hl
      refine ⟨l, d2, ?_⟩
      show (match (dequeue t.q).1 with
        | some b => t.dequeued ++ [b]
        | none => t.dequeued) ++ l = t.accepted
      rw [d1, ← he]
      simp

theorem run_inv : ∀ (ops : List Op) (t : Trace),
    (∃ l, Holds t.q l ∧ t.dequeued ++ l = t.accepted) →
    ∃ l, Holds (ops.foldl step t).q l ∧
      (ops.foldl step t).dequeued ++ l = (ops.foldl step t).accepted := by
  intro ops
  induction ops with
  | nil => intro t h; exact h
  | cons op ops ih =>
    intro t h
    exact ih (step t op) (step_inv t op h)

/-- C16: every sequence of enqueues and dequeues starting from the empty queue
keeps head and tail in `[0, 256)`; an enqueue on a full queue
(`(tail + 1) mod 256 = head`) leaves head, tail and the stored bytes unchanged
and accepts nothing; and the bytes dequeued, followed by the bytes still
queued, are exactly the accepted bytes in the order they were accepted. -/
theorem C16_queue_invariant (arr : Nat → Nat) (ops : List Op) :
    (run arr ops).q.rx_fifo_head < 256 ∧ (run arr ops).q.rx_fifo_tail < 256 ∧
    (∀ b, ((run arr ops).q.rx_fifo_tail + 1) % 256 = (run arr ops).q.rx_fifo_head →
      enqueue b (run arr ops).q = (run arr ops).q ∧
      (step (run arr ops) (Op.enq b)).accepted = (run arr ops).accepted) ∧
    (run arr ops).dequeued ++ drain 256 (run arr ops).q = (run arr ops).accepted := by
  obtain ⟨l, hl, he⟩ := run_inv ops ⟨empty arr, [], []⟩ ⟨[], holds_empty arr, rfl⟩
  obtain ⟨b1, b2⟩ := holds_bounds hl
  refine ⟨b1, b2, ?_, ?_⟩
  · intro b hfull
    have hacc : accepts (run arr ops).q = false := by simp [accepts, hfull]
    refine ⟨?_, ?_⟩
    · unfold enqueue
      dsimp only
      rw [if_neg (by simpa using hfull)]
    · show (if accepts (run arr ops).q then _ else _) = _
      rw [hacc]
      simp
  · show (ops.foldl step ⟨empty arr, [], []⟩).dequeued ++
      drain 256 (ops.foldl step ⟨empty arr, [], []⟩).q = _
    rw [drain_holds l _ 256 hl (by have := hl.1; omega)]
    exact he

/-- Witness of C16: after two enqueues and one dequeue the dequeued byte
followed by the byte still queued is the accepted sequence `1, 2`. -/
theorem C16_queue_invariant_witness :
    (run (fun _ => 0) [Op.enq 1, Op.enq 2, Op.deq]).accepted = [1, 2] ∧
    (run (fun _ => 0) [Op.enq 1, Op.enq 2, Op.deq]).dequeued ++
      drain 256 (run (fun _ => 0) [Op.enq 1, Op.enq 2, Op.deq]).q =
      (run (fun _ => 0) [Op.enq 1, Op.enq 2, Op.deq]).accepted :=
  ⟨by decide, (C16_queue_invariant (fun _ => 0) [Op.enq 1, Op.enq 2, Op.deq]).2.2.2⟩

end Fifo

namespace Loader

/-- When the loop over the symbol listing finds no line or a nonzero address,
`load_elf` returns -1, leaves the buffer as it was and runs no `objcopy`. -/
theorem load_elf_entry_check (w : ElfWorld) (buffer : Nat → Nat) (B : Nat) (listing : List Nat)
    (hw : w.nm_output = some listing)
    (h : (find_start (listing.length + 1) listing (false, 0xFFFFFFFF)).1 = false ∨
      (find_start (listing.length + 1) listing (false, 0xFFFFFFFF)).2 ≠ 0) :
    (load_elf w buffer B).ret = -1 ∧ (load_elf w buffer B).buffer = buffer ∧
    Command.objcopy ∉ (load_elf w buffer B).commands := by
  unfold load_elf
  rw [hw]
  dsimp only
  by_cases h1 : w.mkstemp_text = false
  · rw [if_pos h1]; exact ⟨rfl, rfl, by simp⟩
  rw [if_neg h1]
  by_cases h2 : w.mkstemp_nm = false
  · rw [if_pos h2]; exact ⟨rfl, rfl, by simp⟩
  rw [if_neg h2]
  by_cases h3 : (find_start (listing.length + 1) listing (false, 0xFFFFFFFF)).1 = false
  · rw [if_pos h3]; exact ⟨rfl, rfl, by simp⟩
  rw [if_neg h3]
  rcases h with h | h
  · exact absurd h h3
  · rw [if_pos h]; exact ⟨rfl, rfl, by simp⟩

set_option maxRecDepth 100000 in
/-- C17, the code at the failing inputs.  In the listing `00000000 T
__text_start`, `00000010 T _start` the entry symbol `_start` resolves to 0x10,
and in the listing `00000000 T my_start` it is missing; in both the loop takes
the first line that contains the characters `_start`, reads address 0 from it
and passes the entry check: `objcopy` is run, the buffer is written and the
value returned is the section size 4, not -1. -/
theorem C17_failing_input :
    spec_entry_address (bytes "00000000 T __text_start\n00000010 T _start\n") = some 0x10 ∧
    find_start 100 (bytes "00000000 T __text_start\n00000010 T _start\n") (false, 0xFFFFFFFF) =
      (true, 0) ∧
    (load_elf ⟨true, true, some (bytes "00000000 T __text_start\n00000010 T _start\n"), 0,
      some [0x13, 0, 0, 0], 4⟩ (fun _ => 0xFF) 0x1000000).ret = 4 ∧
    (load_elf ⟨true, true, some (bytes "00000000 T __text_start\n00000010 T _start\n"), 0,
      some [0x13, 0, 0, 0], 4⟩ (fun _ => 0xFF) 0x1000000).commands =
      [Command.nm, Command.objcopy] ∧
    (load_elf ⟨true, true, some (bytes "00000000 T __text_start\n00000010 T _start\n"), 0,
      some [0x13, 0, 0, 0], 4⟩ (fun _ => 0xFF) 0x1000000).buffer 0 = 0x13 ∧
    spec_entry_address (bytes "00000000 T my_start\n") = none ∧
    (load_elf ⟨true, true, some (bytes "00000000 T my_start\n"), 0,
      some [0x13, 0, 0, 0], 4⟩ (fun _ => 0xFF) 0x1000000).ret = 4 ∧
    (load_elf ⟨true, true, some (bytes "00000000 T my_start\n"), 0,
      some [0x13, 0, 0, 0], 4⟩ (fun _ => 0xFF) 0x1000000).commands =
      [Command.nm, Command.objcopy] := by
  refine ⟨by decide, by decide, by decide, by decide, by decide, by decide, by decide,
    by decide⟩

end Loader

namespace SramLoad

theorem word_eq (imem : Nat → Nat) (i : Nat) (hb : ∀ k, imem k < 256) :
    word imem i =
      imem i + 2 ^ 8 * imem (i + 1) + 2 ^ 16 * imem (i + 2) + 2 ^ 24 * imem (i + 3) := by
  have h0 := hb i
  have h1 := hb (i + 1)
  have h2 := hb (i + 2)
  have h3 := hb (i + 3)
  unfold word
  simp only [Nat.shiftLeft_eq, Nat.add_zero]
  have e1 : imem i ||| imem (i + 1) * 2 ^ 8 = 2 ^ 8 * imem (i + 1) + imem i := by
    rw [Nat.lor_comm, Nat.mul_comm]
    exact (Nat.mul_add_lt_is_or (by omega : imem i < 2 ^ 8) _).symm
  have e2 : (2 ^ 8 * imem (i + 1) + imem i) ||| imem (i + 2) * 2 ^ 16 =
      2 ^ 16 * imem (i + 2) + (2 ^ 8 * imem (i + 1) + imem i) := by
    rw [Nat.lor_comm, Nat.mul_comm]
    exact (Nat.mul_add_lt_is_or (by omega) _).symm
  have e3 : (2 ^ 16 * imem (i + 2) + (2 ^ 8 * imem (i + 1) + imem i)) |||
      imem (i + 3) * 2 ^ 24 =
      2 ^ 24 * imem (i + 3) + (2 ^ 16 * imem (i + 2) + (2 ^ 8 * imem (i + 1) + imem i)) := by
    rw [Nat.lor_comm, Nat.mul_comm]
    exact (Nat.mul_add_lt_is_or (by omega) _).symm
  rw [e1, e2, e3]
  omega

theorem shr2 (i : Nat) : i >>> 2 = i / 4 := by
  rw [Nat.shiftRight_eq_div_pow]

theorem copy_loop_spec (imem : Nat → Nat) (n : Int) : ∀ (fuel : Nat) (s : SramLoad),
    s.i % 4 = 0 →
    (copy_loop imem n fuel s).i % 4 = 0 ∧ s.i ≤ (copy_loop imem n fuel s).i ∧
    ((copy_loop imem n fuel s).i = s.i ∨
      (((copy_loop imem n fuel s).i : Int) < n + 4 ∧
        (copy_loop imem n fuel s).i < 0x1000000 + 4)) ∧
    (0x1000000 ≤ s.i + 4 * fuel →
      ¬ (((copy_loop imem n fuel s).i : Int) < n ∧ (copy_loop imem n fuel s).i < 0x1000000)) ∧
    (∀ k, k < s.i / 4 ∨ (copy_loop imem n fuel s).i / 4 ≤ k →
      (copy_loop imem n fuel s).mem k = s.mem k) ∧
    (∀ j, j % 4 = 0 → s.i ≤ j → j < (copy_loop imem n fuel s).i →
      (copy_loop imem n fuel s).mem (j / 4) = word imem j) ∧
    (∀ x ∈ (copy_loop imem n fuel s).reads, x ∈ s.reads ∨ x < 0x1000000) ∧
    (∀ x ∈ (copy_loop imem n fuel s).writes,
      x ∈ s.writes ∨ ((4 * x : Int) < n ∧ x < 0x400000)) := by
  intro fuel
  induction fuel with
  | zero =>
    intro s hs
    refine ⟨hs, le_refl _, Or.inl rfl, ?_, fun _ _ => rfl, ?_, fun x hx => Or.inl hx,
      fun x hx => Or.inl hx⟩
    · intro h
      show ¬ ((s.i : Int) < n ∧ s.i < 0x1000000)
      omega
    · intro j _ h1 h2
      have : j < s.i := h2
      omega
  | succ fuel ih =>
    intro s hs
    by_cases hc : (s.i : Int) < n ∧ s.i < 0x1000000
    · have hstep : copy_loop imem n (fuel + 1) s = copy_loop imem n fuel
          { i := s.i + 4
            mem := Function.update s.mem (s.i / 4) (word imem s.i)
            reads := s.reads ++ [s.i + 0, s.i + 1, s.i + 2, s.i + 3]
            writes := s.writes ++ [s.i / 4] } := by
        show (if (s.i : Int) < n ∧ s.i < 0x1000000 then _ else _) = _
        rw [if_pos hc, shr2]
      rw [hstep]
      obtain ⟨a1, a2, a3, a4, a5, a6, a7, a8⟩ := ih
        { i := s.i + 4
          mem := Function.update s.mem (s.i / 4) (word imem s.i)
          reads := s.reads ++ [s.i + 0, s.i + 1, s.i + 2, s.i + 3]
          writes := s.writes ++ [s.i / 4] } (by show (s.i + 4) % 4 = 0; omega)
      generalize copy_loop imem n fuel
        { i := s.i + 4
          mem := Function.update s.mem (s.i / 4) (word imem s.i)
          reads := s.reads ++ [s.i + 0, s.i + 1, s.i + 2, s.i + 3]
          writes := s.writes ++ [s.i / 4] } = r at a1 a2 a3 a4 a5 a6 a7 a8 ⊢
      replace a2 : s.i + 4 ≤ r.i := a2
      replace a3 : r.i = s.i + 4 ∨ ((r.i : Int) < n + 4 ∧ r.i < 0x1000000 + 4) := a3
      replace a4 : 0x1000000 ≤ s.i + 4 + 4 * fuel → ¬ ((r.i : Int) < n ∧ r.i < 0x1000000) := a4
      replace a5 : ∀ k, k < (s.i + 4) / 4 ∨ r.i / 4 ≤ k →
          r.mem k = Function.update s.mem (s.i / 4) (word imem s.i) k := a5
      replace a6 : ∀ j, j % 4 = 0 → s.i + 4 ≤ j → j < r.i → r.mem (j / 4) = word imem j := a6
      replace a7 : ∀ x ∈ r.reads,
          x ∈ s.reads ++ [s.i + 0, s.i + 1, s.i + 2, s.i + 3] ∨ x < 0x1000000 := a7
      replace a8 : ∀ x ∈ r.writes,
          x ∈ s.writes ++ [s.i / 4] ∨ ((4 * x : Int) < n ∧ x < 0x400000) := a8
      refine ⟨a1, by omega, Or.inr (by omega), fun h => a4 (by omega), ?_, ?_, ?_, ?_⟩
      · intro k hk
        rw [a5 k (by omega), Function.update_noteq (by omega)]
      · intro j hj h1 h2
        by_cases hjs : j = s.i
        · rw [hjs, a5 (s.i / 4) (by omega), Function.update_same]
        · exact a6 j hj (by omega) h2
      · intro x hx
        rcases a7 x hx with h | h
        · rcases List.mem_append.1 h with h | h
          · exact Or.inl h
          · simp only [List.mem_cons, List.mem_singleton, List.not_mem_nil, or_false] at h
            right; omega
        · exact Or.inr h
      · intro x hx
        rcases a8 x hx with h | h
        · rcases List.mem_append.1 h with h | h
          · exact Or.inl h
          · simp only [List.mem_singleton] at h
            right; omega
        · exact Or.inr h
    · have hstep : copy_loop imem n (fuel + 1) s = s := by
        show (if (s.i : Int) < n ∧ s.i < 0x1000000 then _ else _) = _
        rw [if_neg hc]
      rw [hstep]
      refine ⟨hs, le_refl _, Or.inl rfl, fun _ => hc, fun _ _ => rfl, ?_, fun x hx => Or.inl hx,
        fun x hx => Or.inl hx⟩
      intro j _ h1 h2
      omega

/-- C18: for every `bytes_loaded` `n` with `0 < n <= 0x1000000` and every `i`
that is a multiple of 4 with `i < n`, the copy loop runs to its exit condition
and leaves in model memory word `i / 4` the value
`imem[i] + 2^8 * imem[i+1] + 2^16 * imem[i+2] + 2^24 * imem[i+3]`; it reads no
byte of `imem` at an index `>= 0x1000000`, writes no word of index
`>= ceil(n / 4)`, and leaves every such word of the memory as it was. -/
theorem C18_sram_load (imem mem : Nat → Nat) (n : Nat) (i : Nat)
    (hb : ∀ k, imem k < 256) (hn : 0 < n) (hn2 : n ≤ 0x1000000)
    (hi : i % 4 = 0) (hin : i < n) :
    (sram_load imem n mem).mem (i / 4) =
      imem i + 2 ^ 8 * imem (i + 1) + 2 ^ 16 * imem (i + 2) + 2 ^ 24 * imem (i + 3) ∧
    (sram_load imem n mem).mem (i / 4) < 2 ^ 32 ∧
    ¬ (((sram_load imem n mem).i : Int) < n ∧ (sram_load imem n mem).i < 0x1000000) ∧
    (∀ x ∈ (sram_load imem n mem).reads, x < 0x1000000) ∧
    (∀ x ∈ (sram_load imem n mem).writes, x < (n + 3) / 4) ∧
    (∀ k, (n + 3) / 4 ≤ k → (sram_load imem n mem).mem k = mem k) := by
  obtain ⟨a1, a2, a3, a4, a5, a6, a7, a8⟩ :=
    copy_loop_spec imem n 0x400000 ⟨0, mem, [], []⟩ rfl
  unfold sram_load
  generalize copy_loop imem n 0x400000 ⟨0, mem, [], []⟩ = r at a1 a2 a3 a4 a5 a6 a7 a8 ⊢
  replace a3 : r.i = 0 ∨ ((r.i : Int) < n + 4 ∧ r.i < 0x1000000 + 4) := a3
  replace a4 : ¬ ((r.i : Int) < n ∧ r.i < 0x1000000) := a4 (by show 0x1000000 ≤ 0 + 4 * 0x400000; omega)
  replace a5 : ∀ k, k < 0 / 4 ∨ r.i / 4 ≤ k → r.mem k = mem k := a5
  replace a6 : ∀ j, j % 4 = 0 → 0 ≤ j → j < r.i → r.mem (j / 4) = word imem j := a6
  replace a7 : ∀ x ∈ r.reads, x ∈ ([] : List Nat) ∨ x < 0x1000000 := a7
  replace a8 : ∀ x ∈ r.writes, x ∈ ([] : List Nat) ∨ ((4 * x : Int) < n ∧ x < 0x400000) := a8
  have hw : r.mem (i / 4) = word imem i := a6 i hi (Nat.zero_le _) (by omega)
  refine ⟨by rw [hw, word_eq imem i hb], ?_, a4, ?_, ?_, ?_⟩
  · rw [hw]
    exact Nat.mod_lt _ (by decide)
  · intro x hx
    rcases a7 x hx with h | h
    · simp at h
    · exact h
  · intro x hx
    rcases a8 x hx with h | h
    · simp at h
    · omega
  · intro k hk
    exact a5 k (by omega)

/-- Witness of C18: an image of 8 bytes `0, 1, .., 7`; word 1 is
`4 + 2^8 * 5 + 2^16 * 6 + 2^24 * 7`. -/
theorem C18_sram_load_witness :
    (sram_load (fun k => k % 256) 8 (fun _ => 0)).mem (4 / 4) =
      4 % 256 + 2 ^ 8 * ((4 + 1) % 256) + 2 ^ 16 * ((4 + 2) % 256) + 2 ^ 24 * ((4 + 3) % 256) :=
  (C18_sram_load (fun k => k % 256) (fun _ => 0) 8 4 (fun k => Nat.mod_lt k (by decide))
    (by decide) (by decide) (by decide) (by decide)).1

end SramLoad

namespace Sim

variable {D : Type}

theorem body_tick_flags (s : Sim D) :
    (body_tick s).interrupted = s.interrupted ∧ (body_tick s).ebreak_hit = s.ebreak_hit :=
  ⟨rfl, rfl⟩

theorem body_read_flags (h : Host) (s : Sim D) :
    (body_read h s).1.interrupted = s.interrupted ∧
    (body_read h s).1.ebreak_hit = s.ebreak_hit := by
  unfold body_read
  split_ifs <;> exact ⟨rfl, rfl⟩

theorem body_feed_flags (par_txrx : Bool) (s : Sim D) :
    (body_feed par_txrx s).interrupted = s.interrupted ∧
    (body_feed par_txrx s).ebreak_hit = s.ebreak_hit := by
  unfold body_feed
  dsimp only
  split_ifs <;> exact ⟨rfl, rfl⟩

theorem body_clock_flags (eval : Vtop D → Vtop D) (s : Sim D) :
    (body_clock eval s).interrupted = s.interrupted ∧
    (body_clock eval s).ebreak_hit = s.ebreak_hit :=
  ⟨rfl, rfl⟩

theorem body_sample_flags (par_txrx : Bool) (h : Host) (s : Sim D) :
    (body_sample par_txrx h s).interrupted = s.interrupted ∧
    (body_sample par_txrx h s).ebreak_hit = s.ebreak_hit := by
  unfold body_sample
  dsimp only
  split_ifs <;> exact ⟨rfl, rfl⟩

theorem body_count_flags (s : Sim D) :
    (body_count s).interrupted = s.interrupted ∧ (body_count s).ebreak_hit = s.ebreak_hit :=
  ⟨rfl, rfl⟩

theorem loop_body_flags (eval : Vtop D → Vtop D) (par_txrx : Bool) (h : Host) (s : Sim D) :
    (loop_body eval par_txrx h s).1.interrupted = s.interrupted ∧
    (loop_body eval par_txrx h s).1.ebreak_hit = s.ebreak_hit := by
  have h1 := body_tick_flags s
  have h2 := body_read_flags h (body_tick s)
  unfold loop_body
  dsimp only
  split_ifs
  · exact ⟨h2.1.trans h1.1, h2.2.trans h1.2⟩
  · have h3 := body_feed_flags par_txrx (body_read h (body_tick s)).1
    have h4 := body_clock_flags eval (body_feed par_txrx (body_read h (body_tick s)).1)
    have h5 := body_sample_flags par_txrx h
      (body_clock eval (body_feed par_txrx (body_read h (body_tick s)).1))
    have h6 := body_count_flags (body_sample par_txrx h
      (body_clock eval (body_feed par_txrx (body_read h (body_tick s)).1)))
    exact ⟨h6.1.trans (h5.1.trans (h4.1.trans (h3.1.trans (h2.1.trans h1.1)))),
      h6.2.trans (h5.2.trans (h4.2.trans (h3.2.trans (h2.2.trans h1.2))))⟩

theorem control_iteration_flags (eval : Vtop D → Vtop D) (par_txrx : Bool) (h : Host)
    (s : Sim D) :
    (control_iteration eval par_txrx h s).1.interrupted = s.interrupted ∧
    (control_iteration eval par_txrx h s).1.ebreak_hit = s.ebreak_hit := by
  unfold control_iteration
  split_ifs
  · exact loop_body_flags eval par_txrx h s
  · exact ⟨rfl, rfl⟩

theorem signal_handler_flags (signum : Int) (s : Sim D) :
    ((signal_handler signum s).interrupted = s.interrupted ∨
      (signal_handler signum s).interrupted = 1) ∧
    ((signal_handler signum s).ebreak_hit = s.ebreak_hit ∨
      (signal_handler signum s).ebreak_hit = 1) := by
  unfold signal_handler
  split_ifs
  · exact ⟨Or.inr rfl, Or.inl rfl⟩
  · exact ⟨Or.inl rfl, Or.inl rfl⟩

theorem monitor_body_flags (s : Sim D) :
    ((monitor_body s).1.interrupted = s.interrupted ∨ (monitor_body s).1.interrupted = 1) ∧
    ((monitor_body s).1.ebreak_hit = s.ebreak_hit ∨ (monitor_body s).1.ebreak_hit = 1) := by
  unfold monitor_body
  split_ifs
  · exact ⟨Or.inl rfl, Or.inr rfl⟩
  · exact ⟨Or.inl rfl, Or.inl rfl⟩

theorem step_flags (eval : Vtop D → Vtop D) (par_txrx : Bool) (s : Sim D) (e : Event) :
    ((step eval par_txrx s e).interrupted = s.interrupted ∨
      (step eval par_txrx s e).interrupted = 1) ∧
    ((step eval par_txrx s e).ebreak_hit = s.ebreak_hit ∨
      (step eval par_txrx s e).ebreak_hit = 1) := by
  cases e with
  | signal signum => exact signal_handler_flags signum s
  | monitor => exact monitor_body_flags s
  | control h =>
    have := control_iteration_flags eval par_txrx h s
    exact ⟨Or.inl this.1, Or.inl this.2⟩
  | drain => exact ⟨Or.inr rfl, Or.inl rfl⟩

theorem run_flags (eval : Vtop D → Vtop D) (par_txrx : Bool) : ∀ (es : List Event) (s : Sim D),
    (s.interrupted = 1 → (run eval par_txrx s es).interrupted = 1) ∧
    (s.ebreak_hit = 1 → (run eval par_txrx s es).ebreak_hit = 1) := by
  intro es
  induction es with
  | nil => intro s; exact ⟨id, id⟩
  | cons e es ih =>
    intro s
    have h1 := step_flags eval par_txrx s e
    have h2 := ih (step eval par_txrx s e)
    refine ⟨fun h => ?_, fun h => ?_⟩
    · exact h2.1 (by rcases h1.1 with h3 | h3; rw [h3, h]; exact h3)
    · exact h2.2 (by rcases h1.2 with h3 | h3; rw [h3, h]; exact h3)

/-- C19: in the step relation made of the signal handler, the body of one
iteration of the monitor thread (run in any state, since the thread sleeps
between the test of its loop condition and the body), one iteration of the
control loop and the drain step, no step changes `interrupted` or `ebreak_hit`
from 1 back to 0: a flag that is 1 is still 1 after the step, after every
sequence of steps, and after a whole iteration of the monitor thread. -/
theorem C19_flags_never_lowered (eval : Vtop D → Vtop D) (par_txrx : Bool) (s : Sim D)
    (e : Event) (es : List Event) :
    (s.interrupted = 1 → (step eval par_txrx s e).interrupted = 1) ∧
    (s.ebreak_hit = 1 → (step eval par_txrx s e).ebreak_hit = 1) ∧
    (s.interrupted = 1 → (run eval par_txrx s es).interrupted = 1) ∧
    (s.ebreak_hit = 1 → (run eval par_txrx s es).ebreak_hit = 1) ∧
    (s.interrupted = 1 → (monitor_iteration s).1.interrupted = 1) ∧
    (s.ebreak_hit = 1 → (monitor_iteration s).1.ebreak_hit = 1) := by
  have h1 := step_flags eval par_txrx s e
  have h2 := run_flags eval par_txrx es s
  have h4 := monitor_body_flags s
  refine ⟨fun h => ?_, fun h => ?_, h2.1, h2.2, fun h => ?_, fun h => ?_⟩
  · rcases h1.1 with h3 | h3
    · rw [h3, h]
    · exact h3
  · rcases h1.2 with h3 | h3
    · rw [h3, h]
    · exact h3
  · unfold monitor_iteration
    split_ifs
    · rcases h4.1 with h3 | h3
      · exact h3.trans h
      · exact h3
    · exact h
  · unfold monitor_iteration
    split_ifs
    · rcases h4.2 with h3 | h3
      · exact h3.trans h
      · exact h3
    · exact h

/-- Witness of C19: after Ctrl+C, a loop iteration, a monitor step, another
signal and the drain step, `interrupted` is still 1. -/
theorem C19_flags_never_lowered_witness :
    (run id true (signal_handler 2 (start (⟨0, 1, true, 0, 0, false, false, 0, true, false, ()⟩ :
        Vtop Unit) (fun _ => 0) 0))
      [Event.control ⟨false, 1, 65, 0⟩, Event.monitor, Event.signal 15,
        Event.drain]).interrupted = 1 :=
  (C19_flags_never_lowered id true
    (signal_handler 2 (start (⟨0, 1, true, 0, 0, false, false, 0, true, false, ()⟩ :
      Vtop Unit) (fun _ => 0) 0))
    Event.drain
    [Event.control ⟨false, 1, 65, 0⟩, Event.monitor, Event.signal 15, Event.drain]).2.2.1 rfl

/-- C20 fails as stated: with no flag raised, an iteration that reads the host
byte 4 (Ctrl+D) leaves the Running phase by `break`, and so does an iteration
at which the model reports finish; in both states left `interrupted` and
`ebreak_hit` are still 0. -/
theorem C20_counterexample :
    (start (⟨0, 1, true, 0, 0, false, false, 0, true, false, ()⟩ : Vtop Unit)
      (fun _ => 0) 0).interrupted = 0 ∧
    (start (⟨0, 1, true, 0, 0, false, false, 0, true, false, ()⟩ : Vtop Unit)
      (fun _ => 0) 0).ebreak_hit = 0 ∧
    (control_iteration id true ⟨false, 1, 4, 0⟩
      (start (⟨0, 1, true, 0, 0, false, false, 0, true, false, ()⟩ : Vtop Unit)
        (fun _ => 0) 0)).2 = false ∧
    (control_iteration id true ⟨false, 1, 4, 0⟩
      (start (⟨0, 1, true, 0, 0, false, false, 0, true, false, ()⟩ : Vtop Unit)
        (fun _ => 0) 0)).1.interrupted = 0 ∧
    (control_iteration id true ⟨false, 1, 4, 0⟩
      (start (⟨0, 1, true, 0, 0, false, false, 0, true, false, ()⟩ : Vtop Unit)
        (fun _ => 0) 0)).1.ebreak_hit = 0 ∧
    (control_iteration id true ⟨true, 0, 0, 0⟩
      (start (⟨0, 1, true, 0, 0, false, false, 0, true, false, ()⟩ : Vtop Unit)
        (fun _ => 0) 0)).2 = false ∧
    (control_iteration id true ⟨true, 0, 0, 0⟩
      (start (⟨0, 1, true, 0, 0, false, false, 0, true, false, ()⟩ : Vtop Unit)
        (fun _ => 0) 0)).1.interrupted = 0 ∧
    (control_iteration id true ⟨true, 0, 0, 0⟩
      (start (⟨0, 1, true, 0, 0, false, false, 0, true, false, ()⟩ : Vtop Unit)
        (fun _ => 0) 0)).1.ebreak_hit = 0 := by
  refine ⟨rfl, rfl, by decide, by decide, by decide, by decide, by decide, by decide⟩

/-- C20 (amended): an iteration of the control loop leaves the Running phase
exactly when, at the test of the loop condition, `interrupted` or `ebreak_hit`
is raised or the model reports finish, or when the byte read from the host in
the iteration is 4 (Ctrl+D); the iteration itself changes neither flag, and
the drain step that follows raises `interrupted`. -/
theorem C20_loop_exit (eval : Vtop D → Vtop D) (par_txrx : Bool) (h : Host) (s : Sim D)
    (hexit : (control_iteration eval par_txrx h s).2 = false) :
    ((s.interrupted ≠ 0 ∨ s.ebreak_hit ≠ 0) ∨ h.gotFinish = true ∨ (h.n > 0 ∧ h.ch = 4)) ∧
    (control_iteration eval par_txrx h s).1.interrupted = s.interrupted ∧
    (control_iteration eval par_txrx h s).1.ebreak_hit = s.ebreak_hit ∧
    (drain (control_iteration eval par_txrx h s).1).interrupted = 1 := by
  refine ⟨?_, (control_iteration_flags eval par_txrx h s).1,
    (control_iteration_flags eval par_txrx h s).2, rfl⟩
  unfold control_iteration at hexit
  by_cases hc : loop_cond h s = true
  · rw [if_pos hc] at hexit
    right; right
    have hb : (loop_body eval par_txrx h s).2 = true := by simpa using hexit
    unfold loop_body at hb
    dsimp only at hb
    by_cases hr : (body_read h (body_tick s)).2 = true
    · unfold body_read at hr
      by_cases hn : h.n > 0
      · rw [if_pos hn] at hr
        by_cases h4 : h.ch = 4
        · exact ⟨hn, h4⟩
        · rw [if_neg h4] at hr
          exact absurd hr (by simp)
      · rw [if_neg hn] at hr
        exact absurd hr (by simp)
    · rw [if_neg hr] at hb
      exact absurd hb (by simp)
  · unfold loop_cond at hc
    simp only [Bool.and_eq_true, Bool.not_eq_true', decide_eq_true_eq, not_and] at hc
    by_cases hf : h.gotFinish = true
    · exact Or.inr (Or.inl hf)
    · left
      by_cases hi : s.interrupted = 0
      · exact Or.inr (hc ⟨by simpa using hf, hi⟩)
      · exact Or.inl hi

/-- Witness of C20 (amended): the iteration that reads Ctrl+D. -/
theorem C20_loop_exit_witness :
    (drain (control_iteration id true ⟨false, 1, 4, 0⟩
      (start (⟨0, 1, true, 0, 0, false, false, 0, true, false, ()⟩ : Vtop Unit)
        (fun _ => 0) 0)).1).interrupted = 1 :=
  (C20_loop_exit id true ⟨false, 1, 4, 0⟩
    (start (⟨0, 1, true, 0, 0, false, false, 0, true, false, ()⟩ : Vtop Unit) (fun _ => 0) 0)
    (by decide)).2.2.2

end Sim

namespace UARTBitDriver

/-- C23: the constructor sets `cycles_per_bit` to the integer quotient of
`clk_freq` by `baud_rate`, which for every `baud_rate > 0` is the floor of the
ratio (`cycles_per_bit * baud_rate <= clk_freq < (cycles_per_bit + 1) *
baud_rate`); with the defaults 50,000,000 and 115,200 it is 434. -/
theorem C23_cycles_per_bit (clk_freq baud_rate tx_byte0 : Nat) (hb : 0 < baud_rate) :
    (init clk_freq baud_rate tx_byte0).cycles_per_bit = clk_freq / baud_rate ∧
    (init clk_freq baud_rate tx_byte0).cycles_per_bit * baud_rate ≤ clk_freq ∧
    clk_freq < ((init clk_freq baud_rate tx_byte0).cycles_per_bit + 1) * baud_rate ∧
    (init 50000000 115200 tx_byte0).cycles_per_bit = 434 := by
  have h1 := Nat.div_add_mod clk_freq baud_rate
  have h2 := Nat.mod_lt clk_freq hb
  refine ⟨rfl, ?_, ?_, rfl⟩
  · show clk_freq / baud_rate * baud_rate ≤ clk_freq
    rw [Nat.mul_comm]
    omega
  · show clk_freq < (clk_freq / baud_rate + 1) * baud_rate
    rw [Nat.add_mul, Nat.one_mul, Nat.mul_comm]
    omega

/-- Witness of C23: a 100 MHz clock at 9600 baud gives 10416 cycles per bit. -/
theorem C23_cycles_per_bit_witness :
    (init 100000000 9600 0).cycles_per_bit = 100000000 / 9600 :=
  (C23_cycles_per_bit 100000000 9600 0 (by decide)).1

end UARTBitDriver

namespace Matmul

/-- C24, the code on its own data: `matmul` stores in `C[0][0]` the value
`1*8 + 2*7 + 3*6 + 4*5 + 5*4 + 6*3 + 7*2 + 8*1 = 120`, not the value 204 the
result check compares it with, so the check fails and the line printed is
`Result verification: FAIL`. -/
theorem C24_failing_input :
    elem (matmul A B) 0 0 = 120 ∧ expected = 204 ∧ verification (matmul A B) = false := by
  refine ⟨by decide, rfl, by decide⟩

end Matmul

namespace Argmax

theorem argmax_loop_spec (arr : Nat → Int) (n : Nat) : ∀ (fuel i max_idx : Nat),
    n ≤ fuel + i → max_idx < i → i ≤ n →
    (∀ j, j < i → arr j ≤ arr max_idx) → (∀ j, j < max_idx → arr j < arr max_idx) →
    argmax_loop arr n fuel i max_idx (arr max_idx) < n ∧
    (∀ j, j < n → arr j ≤ arr (argmax_loop arr n fuel i max_idx (arr max_idx))) ∧
    (∀ j, j < argmax_loop arr n fuel i max_idx (arr max_idx) →
      arr j < arr (argmax_loop arr n fuel i max_idx (arr max_idx))) := by
  intro fuel
  induction fuel with
  | zero =>
    intro i m h1 h2 h3 h4 h5
    have : i = n := by omega
    subst this
    exact ⟨h2, h4, h5⟩
  | succ fuel ih =>
    intro i m h1 h2 h3 h4 h5
    by_cases hc : (i : Int) < (n : Int)
    · have hin : i < n := by omega
      by_cases hgt : arr i > arr m
      · have e : argmax_loop arr n (fuel + 1) i m (arr m) =
            argmax_loop arr n fuel (i + 1) i (arr i) := by
          show (if (i : Int) < (n : Int) then _ else _) = _
          rw [if_pos hc, if_pos hgt]
        rw [e]
        refine ih (i + 1) i (by omega) (by omega) (by omega) ?_ ?_
        · intro j hj
          by_cases hji : j = i
          · rw [hji]
          · have := h4 j (by omega)
            omega
        · intro j hj
          have := h4 j hj
          omega
      · have e : argmax_loop arr n (fuel + 1) i m (arr m) =
            argmax_loop arr n fuel (i + 1) m (arr m) := by
          show (if (i : Int) < (n : Int) then _ else _) = _
          rw [if_pos hc, if_neg hgt]
        rw [e]
        refine ih (i + 1) m (by omega) (by omega) (by omega) ?_ h5
        intro j hj
        by_cases hji : j = i
        · rw [hji]; omega
        · exact h4 j (by omega)
    · have e : argmax_loop arr n (fuel + 1) i m (arr m) = m := by
        show (if (i : Int) < (n : Int) then _ else _) = _
        rw [if_neg hc]
      rw [e]
      have : i = n := by omega
      subst this
      exact ⟨h2, h4, h5⟩

/-- C27: for every array and every size `n >= 1`, `argmax_int32` returns an
index `r < n` with `arr[r] >= arr[i]` for every `i < n`, and every index below
`r` holds a smaller value: `r` is the first index of the maximum. -/
theorem C27_argmax (arr : Nat → Int) (n : Nat) (hn : 1 ≤ n) :
    argmax_int32 arr n < n ∧
    (∀ i, i < n → arr i ≤ arr (argmax_int32 arr n)) ∧
    (∀ i, i < argmax_int32 arr n → arr i < arr (argmax_int32 arr n)) := by
  unfold argmax_int32
  rw [Int.toNat_ofNat]
  refine argmax_loop_spec arr n n 1 0 (by omega) (by omega) hn ?_ ?_
  · intro j hj
    have : j = 0 := by omega
    rw [this]
  · intro j hj
    omega

/-- Witness of C27: in `3, 9, 2, 9` the first maximum is at index 1. -/
theorem C27_argmax_witness :
    argmax_int32 (fun i => [3, 9, 2, 9].getD i 0) 4 < 4 ∧
    (∀ i, i < argmax_int32 (fun i => [3, 9, 2, 9].getD i 0) 4 →
      (fun i => ([3, 9, 2, 9] : List Int).getD i 0) i <
        (fun i => ([3, 9, 2, 9] : List Int).getD i 0)
          (argmax_int32 (fun i => [3, 9, 2, 9].getD i 0) 4)) :=
  ⟨(C27_argmax (fun i => [3, 9, 2, 9].getD i 0) 4 (by decide)).1,
   (C27_argmax (fun i => [3, 9, 2, 9].getD i 0) 4 (by decide)).2.2⟩

end Argmax

namespace Print

theorem wrap32_id (x : Int) (h1 : -2147483648 ≤ x) (h2 : x < 2147483648) : wrap32 x = x := by
  unfold wrap32
  omega

theorem digit_at_lt (mem : Int → Nat) (d : Nat) (hd : d < 16) :
    digit_at mem (d : Int) = digit_char d := by
  unfold digit_at
  rw [if_pos (by omega)]
  rw [Int.toNat_ofNat]
  interval_cases d <;> rfl

theorem hex_digit_char (d : Nat) (hd : d < 16) :
    (Loader.hex_digit (digit_char d)).getD 0 = d := by
  interval_cases d <;> rfl

/-- The digit loop on a value `n >= 0` in base `b >= 2`: it stores the digits
of `n`, least significant first, leaves `x = 0`, and reads the digit table at
indices from 0 to 15 only. -/
theorem digit_loop_nat (mem : Int → Nat) (b : Nat) (hb : 2 ≤ b) (hb16 : b ≤ 16) :
    ∀ (fuel n : Nat) (buf : List Nat) (lk : List Int), n < 2 ^ fuel →
    (digit_loop mem b (fuel + 1) ⟨buf, n, lk⟩).buf =
      buf ++ (if n = 0 then [48] else (Nat.digits b n).map digit_char) ∧
    (digit_loop mem b (fuel + 1) ⟨buf, n, lk⟩).x = 0 ∧
    (∀ idx ∈ (digit_loop mem b (fuel + 1) ⟨buf, n, lk⟩).lookups,
      idx ∈ lk ∨ (0 ≤ idx ∧ idx < 16)) := by
  intro fuel
  induction fuel with
  | zero =>
    intro n buf lk hn
    have h0 : n = 0 := by simpa using hn
    subst h0
    have e : digit_loop mem b (0 + 1) ⟨buf, ((0 : Nat) : Int), lk⟩ =
        ⟨buf ++ [digit_at mem (Int.tmod ((0 : Nat) : Int) b)], Int.tdiv ((0 : Nat) : Int) b,
          lk ++ [Int.tmod ((0 : Nat) : Int) b]⟩ := by
      show (if Int.tdiv ((0 : Nat) : Int) (b : Int) ≠ 0 then _ else _) = _
      rw [if_neg (by simp)]
    rw [e]
    have hm : Int.tmod ((0 : Nat) : Int) (b : Int) = ((0 : Nat) : Int) := by simp
    have hd : Int.tdiv ((0 : Nat) : Int) (b : Int) = 0 := by simp
    rw [hm, hd, digit_at_lt mem 0 (by omega)]
    refine ⟨by simp [digit_char], rfl, ?_⟩
    intro idx hidx
    rcases List.mem_append.1 hidx with h | h
    · exact Or.inl h
    · simp only [List.mem_singleton] at h
      right; omega
  | succ fuel ih =>
    intro n buf lk hn
    have hm : Int.tmod (n : Int) (b : Int) = ((n % b : Nat) : Int) := rfl
    have hd : Int.tdiv (n : Int) (b : Int) = ((n / b : Nat) : Int) := rfl
    have hlt : n % b < 16 := by
      have := Nat.mod_lt n (by omega : 0 < b)
      omega
    have hq : n / b < 2 ^ fuel := by
      have h2 : n / b ≤ n / 2 := Nat.div_le_div_left hb (by omega)
      have h3 : n / 2 < 2 ^ fuel := by
        rw [Nat.pow_succ] at hn
        omega
      omega
    by_cases hz : n / b = 0
    · have e : digit_loop mem b (fuel + 1 + 1) ⟨buf, (n : Int), lk⟩ =
          ⟨buf ++ [digit_at mem (Int.tmod (n : Int) b)], Int.tdiv (n : Int) b,
            lk ++ [Int.tmod (n : Int) b]⟩ := by
        show (if Int.tdiv (n : Int) (b : Int) ≠ 0 then _ else _) = _
        rw [if_neg (by rw [hd, hz]; simp)]
      rw [e, hm, hd, hz, digit_at_lt mem _ hlt]
      refine ⟨?_, rfl, ?_⟩
      · by_cases hn0 : n = 0
        · subst hn0
          simp [digit_char]
        · rw [if_neg hn0, Nat.digits_of_two_le_of_pos hb (by omega), hz]
          simp
      · intro idx hidx
        rcases List.mem_append.1 hidx with h | h
        · exact Or.inl h
        · simp only [List.mem_singleton] at h
          right; omega
    · have e : digit_loop mem b (fuel + 1 + 1) ⟨buf, (n : Int), lk⟩ =
          digit_loop mem b (fuel + 1)
            ⟨buf ++ [digit_at mem (Int.tmod (n : Int) b)], Int.tdiv (n : Int) b,
              lk ++ [Int.tmod (n : Int) b]⟩ := by
        show (if Int.tdiv (n : Int) (b : Int) ≠ 0 then _ else _) = _
        rw [if_pos (by rw [hd]; exact_mod_cast hz)]
      rw [e, hm, hd, digit_at_lt mem _ hlt]
      obtain ⟨i1, i2, i3⟩ := ih (n / b) (buf ++ [digit_char (n % b)])
        (lk ++ [((n % b : Nat) : Int)]) hq
      have hn0 : n ≠ 0 := by
        intro h; rw [h] at hz; simp at hz
      refine ⟨?_, i2, ?_⟩
      · rw [i1, if_neg hz, if_neg hn0, Nat.digits_of_two_le_of_pos hb (by omega : 0 < n)]
        simp
      · intro idx hidx
        rcases i3 idx hidx with h | h
        · rcases List.mem_append.1 h with h | h
          · exact Or.inl h
          · simp only [List.mem_singleton] at h
            right; omega
        · exact Or.inr h

theorem read_back_spec (b n : Nat) (hb : 2 ≤ b) (hb16 : b ≤ 16) :
    read_back b (spec_digits b n) = n := by
  unfold spec_digits
  by_cases hn : n = 0
  · rw [if_pos hn, hn]
    simp [read_back, Loader.hex_digit]
  · rw [if_neg hn]
    unfold read_back
    rw [List.foldl_map, List.foldl_reverse]
    have hds : ∀ d ∈ Nat.digits b n, d < 16 := by
      intro d hd
      have := Nat.digits_lt_base (by omega : 1 < b) hd
      omega
    conv_rhs => rw [← Nat.ofDigits_digits b n]
    generalize Nat.digits b n = L at hds
    induction L with
    | nil => rfl
    | cons d L ih =>
      rw [List.foldr_cons, Nat.ofDigits_cons, ih (fun x hx => hds x (List.mem_cons_of_mem _ hx)),
        hex_digit_char d (hds d (List.mem_cons_self _ _))]
      ring

theorem spec_digits_head (b n : Nat) (hn : n ≠ 0) :
    (spec_digits b n).head? ≠ some 48 := by
  unfold spec_digits
  rw [if_neg hn]
  have hne : Nat.digits b n ≠ [] := Nat.digits_ne_nil_iff_ne_zero.2 hn
  have hlast := Nat.getLast_digit_ne_zero b hn
  rw [List.head?_map, List.head?_reverse, List.getLast?_eq_getLast _ hne]
  simp only [Option.map_some', ne_eq, Option.some.injEq]
  intro h
  unfold digit_char at h
  split_ifs at h <;> omega

/-- C26: for every `xx` with `0 <= xx < 2^31` and base 10 or 16, `printint`
passes to `putchar` exactly the digits of `xx` in that base, most significant
first, with no leading zero (a single `0` for `xx = 0`), hexadecimal digits
in upper case; reading the output back in that base gives `xx`, every digit
lookup is inside the table and the digit loop ends with `x = 0`.  For every
`xx` with `-2^31 < xx < 0`, `printint(xx, 10, 1)` emits `-` followed by the
decimal digits of `-xx`. -/
theorem C26_printint (mem : Int → Nat) (n base : Nat) (sgn : Int) (hn : n < 2 ^ 31)
    (hb : base = 10 ∨ base = 16) :
    (printint mem n base sgn).out = spec_digits base n ∧
    read_back base (printint mem n base sgn).out = n ∧
    (n ≠ 0 → (printint mem n base sgn).out.head? ≠ some 48) ∧
    (printint mem n base sgn).x = 0 ∧
    (∀ idx ∈ (printint mem n base sgn).lookups, 0 ≤ idx ∧ idx < 16) ∧
    (0 < n → (printint mem (-(n : Int)) 10 1).out = 45 :: spec_digits 10 n) := by
  have hb2 : 2 ≤ base := by omega
  have hb16 : base ≤ 16 := by omega
  have hn32 : n < 2 ^ 31 := hn
  obtain ⟨d1, d2, d3⟩ := digit_loop_nat mem base hb2 hb16 31 n [] [] hn
  have hneg : decide (sgn ≠ 0 ∧ (n : Int) < 0) = false := by
    simp only [decide_eq_false_iff_not, not_and]
    intro _
    omega
  have hout : (printint mem n base sgn).out = spec_digits base n := by
    unfold printint
    simp only [hneg, Bool.false_eq_true, if_false]
    rw [d1]
    unfold spec_digits
    split_ifs
    · rfl
    · rw [List.nil_append, List.map_reverse]
  have hx : (printint mem n base sgn).x = 0 := by
    unfold printint
    simp only [hneg, Bool.false_eq_true, if_false]
    exact d2
  have hl : ∀ idx ∈ (printint mem n base sgn).lookups, 0 ≤ idx ∧ idx < 16 := by
    unfold printint
    simp only [hneg, Bool.false_eq_true, if_false]
    intro idx hidx
    rcases d3 idx hidx with h | h
    · simp at h
    · exact h
  refine ⟨hout, ?_, ?_, hx, ?_, ?_⟩
  · rw [hout]
    exact read_back_spec base n hb2 hb16
  · intro h0
    rw [hout]
    exact spec_digits_head base n h0
  · exact hl
  · intro hpos
    obtain ⟨e1, _, _⟩ := digit_loop_nat mem 10 (by omega) (by omega) 31 n [] [] hn
    have hneg2 : decide ((1 : Int) ≠ 0 ∧ (-(n : Int)) < 0) = true := by
      simp only [decide_eq_true_eq]
      omega
    have hw : wrap32 (- -(n : Int)) = (n : Int) := by
      rw [neg_neg]
      exact wrap32_id _ (by omega) (by omega)
    unfold printint
    simp only [hneg2, if_true, hw]
    have e1b : (digit_loop mem ((10 : Nat) : Int) (31 + 1) ⟨[], (n : Int), []⟩).buf = _ := e1
    have e10 : ((10 : Nat) : Int) = (10 : Int) := rfl
    rw [e10] at e1b
    rw [e1b]
    unfold spec_digits
    have hn0 : n ≠ 0 := by omega
    rw [if_neg hn0, if_neg hn0]
    simp

/-- Witness of C26: `printint(255, 16, 0)` prints `FF`. -/
theorem C26_printint_witness :
    (printint (fun _ => 0) ((255 : Nat) : Int) ((16 : Nat) : Int) 0).out = spec_digits 16 255 :=
  (C26_printint (fun _ => 0) 255 16 0 (by decide) (Or.inr rfl)).1

/-- C25, the code at the failing input `xx = 0xdeadbeef` (as an `int`,
-559038737) with base 16 and `sgn = 0`: `x` keeps the negative value, every
remainder `x % 16` is negative, and all eight reads of the digit table are at
negative indices, outside the table; what is printed is the content of the
memory in front of the table, which for no content of that memory is
`DEADBEEF`. -/
theorem C25_failing_input (mem : Int → Nat) :
    wrap32 0xdeadbeef = -559038737 ∧
    (printint mem (-559038737) 16 0).lookups = [-1, -1, -1, -4, -2, -5, -1, -2] ∧
    (∀ idx ∈ (printint mem (-559038737) 16 0).lookups, idx < 0) ∧
    (printint mem (-559038737) 16 0).out =
      [mem (-2), mem (-1), mem (-5), mem (-2), mem (-4), mem (-1), mem (-1), mem (-1)] ∧
    (printint mem (-559038737) 16 0).out ≠ Loader.bytes "DEADBEEF" := by
  have hl : (printint mem (-559038737) 16 0).lookups = [-1, -1, -1, -4, -2, -5, -1, -2] := by
    rfl
  have ho : (printint mem (-559038737) 16 0).out =
      [mem (-2), mem (-1), mem (-5), mem (-2), mem (-4), mem (-1), mem (-1), mem (-1)] := by
    rfl
  refine ⟨by decide, hl, ?_, ho, ?_⟩
  · intro idx hidx
    rw [hl] at hidx
    simp only [List.mem_cons, List.mem_singleton, List.not_mem_nil, or_false] at hidx
    omega
  · rw [ho]
    intro h
    have h1 : mem (-1) = 69 := by
      have := congrArg (fun l => l.getD 1 0) h
      simpa [Loader.bytes] using this
    have h2 : mem (-1) = 70 := by
      have := congrArg (fun l => l.getD 7 0) h
      simpa [Loader.bytes] using this
    omega

end Print

namespace Paths

theorem strrchr_next_none (c : Nat) : ∀ (s : List Nat), c ∉ s → strrchr_next c s = none := by
  intro s
  induction s with
  | nil => intro _; rfl
  | cons d s ih =>
    intro h
    have h1 : c ∉ s := fun hc => h (List.mem_cons_of_mem _ hc)
    have h2 : d ≠ c := fun hc => h (by rw [hc]; exact List.mem_cons_self _ _)
    show (match strrchr_next c s with
      | some r => some r
      | none => if d = c then some s else none) = none
    rw [ih h1]
    exact if_neg h2

theorem strrchr_next_append (c : Nat) (stem : List Nat) (hs : c ∉ stem) :
    ∀ (dir : List Nat), strrchr_next c (dir ++ c :: stem) = some stem := by
  intro dir
  induction dir with
  | nil =>
    show (match strrchr_next c stem with
      | some r => some r
      | none => if c = c then some stem else none) = some stem
    rw [strrchr_next_none c stem hs]
    exact if_pos rfl
  | cons d dir ih =>
    show (match strrchr_next c (dir ++ c :: stem) with
      | some r => some r
      | none => if d = c then some (dir ++ c :: stem) else none) = some stem
    rw [ih]

theorem starts_with_head (c d : Nat) (s p : List Nat) (h : c ≠ d) :
    Loader.starts_with (c :: s) (d :: p) = false := by
  show (c == d && Loader.starts_with s p) = false
  have : (c == d) = false := by simpa using h
  rw [this]
  rfl

theorem starts_with_self (p : List Nat) : ∀ (s : List Nat), Loader.starts_with (s ++ p) s = true := by
  intro s
  induction s with
  | nil => cases p <;> rfl
  | cons c s ih =>
    show (c == c && Loader.starts_with (s ++ p) s) = true
    rw [ih]
    simp

theorem starts_with_split : ∀ (s p : List Nat), Loader.starts_with s p = true →
    ∃ r, s = p ++ r := by
  intro s p
  induction p generalizing s with
  | nil => intro _; exact ⟨s, rfl⟩
  | cons d p ih =>
    intro h
    cases s with
    | nil => exact absurd h (by simp [Loader.starts_with])
    | cons c s =>
      have h2 : (c == d && Loader.starts_with s p) = true := h
      simp only [Bool.and_eq_true, beq_iff_eq] at h2
      obtain ⟨r, hr⟩ := ih s h2.2
      exact ⟨r, by rw [h2.1, hr]; rfl⟩

theorem strstr_of_starts (hay needle : List Nat) (h : Loader.starts_with hay needle = true) :
    Loader.strstr hay needle = true := by
  cases hay with
  | nil => exact h
  | cons c hay =>
    show (Loader.starts_with (c :: hay) needle || Loader.strstr hay needle) = true
    rw [h]
    rfl

/-- When `strstr` does not find `needle` in `hay`, `needle` does not occur in
`hay`. -/
theorem no_occurrence (hay needle : List Nat) (h : Loader.strstr hay needle = false) :
    ∀ p s, hay ≠ p ++ needle ++ s := by
  intro p
  induction p generalizing hay with
  | nil =>
    intro s he
    have := strstr_of_starts hay needle (by
      rw [he, List.nil_append]
      exact starts_with_self s needle)
    rw [h] at this
    exact absurd this (by simp)
  | cons c p ih =>
    intro s he
    rw [he] at h
    have h2 : (Loader.starts_with (c :: (p ++ needle ++ s)) needle ||
        Loader.strstr (p ++ needle ++ s) needle) = false := h
    simp only [Bool.or_eq_false_iff] at h2
    exact ih (p ++ needle ++ s) h2.2 s rfl

theorem cut_at_first (nd : List Nat) (x : Nat) (tail : List Nat) :
    ∀ (stem : List Nat), (∀ p s, stem ++ nd ≠ p ++ (nd ++ [x]) ++ s) →
    cut_at (nd ++ [x]) (stem ++ (nd ++ [x]) ++ tail) = stem := by
  intro stem
  induction stem with
  | nil =>
    intro _
    have hs := starts_with_self tail (nd ++ [x])
    rw [List.nil_append]
    cases hl : (nd ++ [x]) ++ tail with
    | nil => rfl
    | cons c l =>
      rw [hl] at hs
      show (if Loader.starts_with (c :: l) (nd ++ [x]) then [] else _) = []
      rw [if_pos hs]
  | cons c stem ih =>
    intro h
    have hno : Loader.starts_with (c :: (stem ++ (nd ++ [x]) ++ tail)) (nd ++ [x]) = false := by
      cases hb : Loader.starts_with (c :: (stem ++ (nd ++ [x]) ++ tail)) (nd ++ [x]) with
      | false => rfl
      | true =>
        exfalso
        obtain ⟨r, hr⟩ := starts_with_split _ _ hb
        have e : (c :: stem ++ nd) ++ ([x] ++ tail) = (nd ++ [x]) ++ r := by
          rw [← hr]
          simp
        rcases List.append_eq_append_iff.1 e with ⟨a, ha, _⟩ | ⟨a, ha, _⟩
        · have hlen := congrArg List.length ha
          simp only [List.length_append, List.length_cons, List.length_singleton,
            List.length_nil] at hlen
          have ha0 : a = [] := by
            cases a with
            | nil => rfl
            | cons y a =>
              simp only [List.length_cons] at hlen
              have hl2 : a.length = 0 := by omega
              have : a = [] := List.eq_nil_of_length_eq_zero hl2
              subst this
              simp only [List.length_nil] at hlen
              omega
          rw [ha0, List.append_nil] at ha
          exact h [] [] (by
            rw [List.nil_append, List.append_nil]
            exact ha.symm)
        · exact h [] a (by
            rw [List.nil_append]
            exact ha)
    show (if Loader.starts_with (c :: (stem ++ (nd ++ [x]) ++ tail)) (nd ++ [x]) then []
      else c :: cut_at (nd ++ [x]) (stem ++ (nd ++ [x]) ++ tail)) = c :: stem
    rw [hno, ih (fun p s he => h (c :: p) s (by
      rw [List.cons_append, he]
      simp))]
    simp

theorem cut_at_none (ext : List Nat) : ∀ (s : List Nat), 46 ∉ s → cut_at (46 :: ext) s = s := by
  intro s
  induction s with
  | nil => intro _; rfl
  | cons c s ih =>
    intro h
    have h1 : 46 ∉ s := fun hc => h (List.mem_cons_of_mem _ hc)
    have h2 : c ≠ 46 := fun hc => h (by rw [hc]; exact List.mem_cons_self _ _)
    show (if Loader.starts_with (c :: s) (46 :: ext) then [] else c :: cut_at (46 :: ext) s) =
      c :: s
    rw [starts_with_head c 46 _ _ h2, ih h1]
    simp

theorem base_name_dir (dir name : List Nat) (hd : dir = [] ∨ dir.getLast? = some 47)
    (hno : 47 ∉ name) : base_name (dir ++ name) = name := by
  unfold base_name
  rcases hd with hd | hd
  · rw [hd, List.nil_append, strrchr_next_none 47 _ hno]
  · obtain ⟨pre, rfl⟩ : ∃ pre, dir = pre ++ [47] := by
      rcases List.eq_nil_or_concat dir with h | ⟨pre, x, h⟩
      · rw [h] at hd; simp at hd
      · rw [h] at hd
        simp only [List.concat_eq_append, List.getLast?_append, List.getLast?_singleton] at hd
        have hx : x = 47 := Option.some.inj hd
        exact ⟨pre, by rw [h, hx, List.concat_eq_append]⟩
    have e : pre ++ [47] ++ name = pre ++ 47 :: name := by simp
    rw [e, strrchr_next_append 47 _ hno]

/-- The file names on which cutting at the first `.hex` and removing the
extension agree: `test_name` is `stem`. -/
theorem test_name_stem (dir stem ext : List Nat) (hd : dir = [] ∨ dir.getLast? = some 47)
    (h1 : 47 ∉ stem ++ ext)
    (hext : (ext = [] ∧ 46 ∉ stem ∧ stem.length ≤ 255) ∨
      (∃ tail, ext = Loader.bytes ".hex" ++ tail ∧ 46 ∉ tail ∧ stem.length + 4 ≤ 255 ∧
        ∀ p s, stem ++ Loader.bytes ".he" ≠ p ++ Loader.bytes ".hex" ++ s)) :
    test_name (dir ++ stem ++ ext) = stem := by
  have hb : base_name (dir ++ stem ++ ext) = stem ++ ext := by
    rw [List.append_assoc]
    exact base_name_dir dir (stem ++ ext) hd h1
  unfold test_name
  rw [hb]
  rcases hext with ⟨he, hdot, hl⟩ | ⟨tail, he, hdot, hl, hfirst⟩
  · subst he
    rw [List.append_nil, List.take_of_length_le hl]
    exact cut_at_none _ stem hdot
  · subst he
    have e1 : stem ++ (Loader.bytes ".hex" ++ tail) = (stem ++ Loader.bytes ".hex") ++ tail := by
      simp
    have l4 : (Loader.bytes ".hex").length = 4 := by decide
    rw [e1, List.take_append_eq_append_take, List.take_of_length_le (by
      rw [List.length_append]
      omega)]
    exact cut_at_first (Loader.bytes ".he") 120 _ stem hfirst

/-- The file name with its extension removed, for a name without `.` and for a
name whose last `.` starts `.hex`. -/
theorem spec_stem_stem (dir stem ext : List Nat) (hd : dir = [] ∨ dir.getLast? = some 47)
    (h1 : 47 ∉ stem ++ ext)
    (hext : (ext = [] ∧ 46 ∉ stem) ∨
      (∃ tail, ext = Loader.bytes ".hex" ++ tail ∧ 46 ∉ tail)) :
    spec_stem (dir ++ stem ++ ext) = stem := by
  have hb : base_name (dir ++ stem ++ ext) = stem ++ ext := by
    rw [List.append_assoc]
    exact base_name_dir dir (stem ++ ext) hd h1
  unfold spec_stem
  rw [hb]
  rcases hext with ⟨he, hdot⟩ | ⟨tail, he, hdot⟩
  · subst he
    rw [List.append_nil, strrchr_next_none 46 stem hdot]
  · subst he
    have hno : 46 ∉ Loader.bytes "hex" ++ tail := by
      intro h
      rcases List.mem_append.1 h with h | h
      · revert h; decide
      · exact hdot h
    have e2 : stem ++ (Loader.bytes ".hex" ++ tail) =
        stem ++ 46 :: (Loader.bytes "hex" ++ tail) := rfl
    rw [e2, strrchr_next_append 46 _ hno]
    show List.take ((stem ++ 46 :: (Loader.bytes "hex" ++ tail)).length -
      (Loader.bytes "hex" ++ tail).length - 1) (stem ++ 46 :: (Loader.bytes "hex" ++ tail)) =
        stem
    have e3 : (stem ++ 46 :: (Loader.bytes "hex" ++ tail)).length -
        (Loader.bytes "hex" ++ tail).length - 1 = stem.length := by
      simp only [List.length_append, List.length_cons]
      omega
    rw [e3]
    exact List.take_left _ _

set_option maxRecDepth 100000 in
/-- C22 fails as stated.  For the image path `firmware/prog.bin` the code gives
the disassembly path `prog.bin.d` (only `.hex` is removed), where the file name
with its extension removed gives `prog.d`; for `a.hex.v2.hex` it cuts at the
first `.hex` and gives `a.d`, not `a.hex.v2.d`.  For a file name of 252
characters `a` followed by `.hex`, the 255-character copy of the name cuts into
`.hex` and the path is the 252 characters followed by `.he`; and for 240
characters `a` followed by `.hex` the instruction-trace path is cut after 255
characters. -/
theorem C22_counterexample :
    disasm_path (Loader.bytes "firmware/prog.bin") = Loader.bytes "prog.bin.d" ∧
    spec_stem (Loader.bytes "firmware/prog.bin") ++ Loader.bytes ".d" = Loader.bytes "prog.d" ∧
    disasm_path (Loader.bytes "a.hex.v2.hex") = Loader.bytes "a.d" ∧
    spec_stem (Loader.bytes "a.hex.v2.hex") ++ Loader.bytes ".d" = Loader.bytes "a.hex.v2.d" ∧
    disasm_path (List.replicate 252 97 ++ Loader.bytes ".hex") =
      List.replicate 252 97 ++ Loader.bytes ".he" ∧
    spec_stem (List.replicate 252 97 ++ Loader.bytes ".hex") ++ Loader.bytes ".d" =
      List.replicate 252 97 ++ Loader.bytes ".d" ∧
    instruction_trace_path (List.replicate 240 97 ++ Loader.bytes ".hex") =
      List.replicate 240 97 ++ Loader.bytes "_instruction_tr" ∧
    spec_stem (List.replicate 240 97 ++ Loader.bytes ".hex") ++
        Loader.bytes "_instruction_trace.txt" =
      List.replicate 240 97 ++ Loader.bytes "_instruction_trace.txt" := by
  refine ⟨by decide, by decide, by decide, by decide, by decide, by decide, by decide,
    by decide⟩

/-- C22 (amended): for every image path whose file name `stem ++ ext` either
has no `.` at all (`ext` empty) or has its first occurrence of `.hex` at its
last `.` (`ext` is `.hex` followed by characters other than `.`, and `.hex`
does not occur earlier in the name) within the first 255 characters, the file
name with its extension removed is `stem`, and each of the disassembly,
waveform, bus-trace and instruction-trace paths is `stem` followed by `.d`,
`.vcd`, `_trace.txt` and `_instruction_trace.txt` respectively, whenever that
path has at most 255 characters.  The directory part, if any, ends in `/`. -/
theorem C22_output_paths (dir stem ext : List Nat)
    (hd : dir = [] ∨ dir.getLast? = some 47)
    (h1 : 47 ∉ stem ++ ext)
    (hext : (ext = [] ∧ 46 ∉ stem) ∨
      (∃ tail, ext = Loader.bytes ".hex" ++ tail ∧ 46 ∉ tail ∧ stem.length + 4 ≤ 255 ∧
        ∀ p s, stem ++ Loader.bytes ".he" ≠ p ++ Loader.bytes ".hex" ++ s)) :
    spec_stem (dir ++ stem ++ ext) = stem ∧
    (stem.length + 2 ≤ 255 →
      disasm_path (dir ++ stem ++ ext) = stem ++ Loader.bytes ".d") ∧
    (stem.length + 4 ≤ 255 →
      vcd_path (dir ++ stem ++ ext) = stem ++ Loader.bytes ".vcd") ∧
    (stem.length + 10 ≤ 255 →
      trace_path (dir ++ stem ++ ext) = stem ++ Loader.bytes "_trace.txt") ∧
    (stem.length + 22 ≤ 255 →
      instruction_trace_path (dir ++ stem ++ ext) =
        stem ++ Loader.bytes "_instruction_trace.txt") := by
  have hspec : spec_stem (dir ++ stem ++ ext) = stem := by
    refine spec_stem_stem dir stem ext hd h1 ?_
    rcases hext with h | ⟨tail, a, b, _, _⟩
    · exact Or.inl h
    · exact Or.inr ⟨tail, a, b⟩
  have key : stem.length ≤ 255 → test_name (dir ++ stem ++ ext) = stem := by
    intro hl
    refine test_name_stem dir stem ext hd h1 ?_
    rcases hext with ⟨a, b⟩ | h
    · exact Or.inl ⟨a, b, hl⟩
    · exact Or.inr h
  have l1 : (Loader.bytes ".d").length = 2 := by decide
  have l2 : (Loader.bytes ".vcd").length = 4 := by decide
  have l3 : (Loader.bytes "_trace.txt").length = 10 := by decide
  have l4 : (Loader.bytes "_instruction_trace.txt").length = 22 := by decide
  refine ⟨hspec, fun hl => ?_, fun hl => ?_, fun hl => ?_, fun hl => ?_⟩
  · unfold disasm_path snprintf_path
    rw [key (by omega)]
    exact List.take_of_length_le (by rw [List.length_append]; omega)
  · unfold vcd_path snprintf_path
    rw [key (by omega)]
    exact List.take_of_length_le (by rw [List.length_append]; omega)
  · unfold trace_path snprintf_path
    rw [key (by omega)]
    exact List.take_of_length_le (by rw [List.length_append]; omega)
  · unfold instruction_trace_path snprintf_path
    rw [key (by omega)]
    exact List.take_of_length_le (by rw [List.length_append]; omega)

/-- Witness of C22 (amended): the image path `fw/v1.2.hex` gives the
disassembly path `v1.2.d`. -/
theorem C22_output_paths_witness :
    disasm_path (Loader.bytes "fw/" ++ Loader.bytes "v1.2" ++ Loader.bytes ".hex") =
      Loader.bytes "v1.2" ++ Loader.bytes ".d" :=
  (C22_output_paths (Loader.bytes "fw/") (Loader.bytes "v1.2") (Loader.bytes ".hex")
    (Or.inr (by decide)) (by decide)
    (Or.inr ⟨[], by decide, by decide, by decide,
      no_occurrence _ _ (by decide)⟩)).2.1 (by decide)

end Paths

namespace UARTBitDriver

theorem inv_init (clk_freq baud_rate tx_byte0 : Nat) : Inv (init clk_freq baud_rate tx_byte0) := by
  refine ⟨?_, ?_, ?_, ?_, ?_, ?_, ?_⟩ <;> simp [init]

theorem inv_tick {s : UARTBitDriver} (h : Inv s) (hc : s.cycle_counter + 1 < 2 ^ 64) :
    Inv (tick s) ∧ (tick s).cycle_counter = s.cycle_counter + 1 := by
  obtain ⟨h1, h2, h3, h4, h5, h6, h7⟩ := h
  have e : inc64 s.cycle_counter = s.cycle_counter + 1 := by
    unfold inc64
    exact Nat.mod_eq_of_lt hc
  refine ⟨⟨h1, h2, h3, h4, ?_, ?_, ?_⟩, e⟩
  · show s.tx_bit_start_cycle ≤ inc64 s.cycle_counter
    omega
  · show s.rx_bit_start_cycle ≤ inc64 s.cycle_counter
    omega
  · show inc64 s.cycle_counter < 2 ^ 64
    omega

theorem inv_start_tx {s : UARTBitDriver} (byte : Nat) (h : Inv s) :
    Inv (start_tx s byte).2 ∧ (start_tx s byte).2.cycle_counter = s.cycle_counter := by
  obtain ⟨h1, h2, h3, h4, h5, h6, h7⟩ := h
  unfold start_tx
  by_cases hb : s.tx_bit_index ≠ -1
  · rw [if_pos hb]
    exact ⟨⟨h1, h2, h3, h4, h5, h6, h7⟩, rfl⟩
  · rw [if_neg hb]
    refine ⟨⟨?_, ?_, h3, h4, ?_, h6, h7⟩, rfl⟩
    · show (-1 : Int) ≤ 0
      decide
    · show (0 : Int) ≤ 9
      decide
    · exact le_refl _

theorem inv_tx_advance {s : UARTBitDriver} (h : Inv s) :
    Inv (tx_advance s) ∧ (tx_advance s).cycle_counter = s.cycle_counter := by
  obtain ⟨h1, h2, h3, h4, h5, h6, h7⟩ := h
  unfold tx_advance
  by_cases hc : sub64 s.cycle_counter s.tx_bit_start_cycle ≥ s.cycles_per_bit
  · rw [if_pos hc]
    refine ⟨⟨?_, ?_, h3, h4, ?_, h6, h7⟩, rfl⟩
    · show -1 ≤ (if s.tx_bit_index + 1 ≥ 10 then -1 else s.tx_bit_index + 1)
      split_ifs <;> omega
    · show (if s.tx_bit_index + 1 ≥ 10 then -1 else s.tx_bit_index + 1) ≤ 9
      split_ifs <;> omega
    · exact le_refl _
  · rw [if_neg hc]
    exact ⟨⟨h1, h2, h3, h4, h5, h6, h7⟩, rfl⟩

theorem inv_get_tx_line {s : UARTBitDriver} (h : Inv s) :
    Inv (get_tx_line s).2 ∧ (get_tx_line s).2.cycle_counter = s.cycle_counter := by
  unfold get_tx_line
  by_cases hi : s.tx_bit_index = -1
  · rw [if_pos hi]
    exact ⟨h, rfl⟩
  · rw [if_neg hi]
    dsimp only
    split_ifs <;> exact inv_tx_advance h

theorem rx_detect_inv {s : UARTBitDriver} (l : Bool) (h : Inv s) :
    Inv (rx_detect s l) ∧ (rx_detect s l).cycle_counter = s.cycle_counter := by
  obtain ⟨h1, h2, h3, h4, h5, h6, h7⟩ := h
  unfold rx_detect
  dsimp only
  split_ifs
  · exact ⟨⟨h1, h2, by show (-1 : Int) ≤ 0; decide, by show (0 : Int) ≤ 9; decide, h5,
      le_refl _, h7⟩, rfl⟩
  · exact ⟨⟨h1, h2, h3, h4, h5, h6, h7⟩, rfl⟩

theorem rx_midpoint_inv {s : UARTBitDriver} (l : Bool) (el : Nat) (h : Inv s) :
    Inv (rx_midpoint s l el).2 ∧ (rx_midpoint s l el).2.cycle_counter = s.cycle_counter := by
  obtain ⟨h1, h2, h3, h4, h5, h6, h7⟩ := h
  unfold rx_midpoint
  split_ifs <;>
    first
      | exact ⟨⟨h1, h2, h3, h4, h5, h6, h7⟩, rfl⟩
      | exact ⟨⟨h1, h2, by show (-1 : Int) ≤ -1; decide, by show (-1 : Int) ≤ 9; decide, h5,
          h6, h7⟩, rfl⟩

theorem inv_sample_rx {s : UARTBitDriver} (l : Bool) (o : Nat) (h : Inv s) :
    Inv (sample_rx s l o).2.2 ∧ (sample_rx s l o).2.2.cycle_counter = s.cycle_counter := by
  have hd := rx_detect_inv l h
  have hm := rx_midpoint_inv l
    (sub64 (rx_detect s l).cycle_counter (rx_detect s l).rx_bit_start_cycle) hd.1
  have hmdef : ∃ m, m = rx_midpoint (rx_detect s l) l
    (sub64 (rx_detect s l).cycle_counter (rx_detect s l).rx_bit_start_cycle) := ⟨_, rfl⟩
  obtain ⟨m, hmeq⟩ := hmdef
  rw [← hmeq] at hm
  obtain ⟨⟨m1, m2, m3, m4, m5, m6, m7⟩, mc⟩ := hm
  unfold sample_rx
  simp only [← hmeq]
  split_ifs with c1 c2 c3 c4
  · exact hd
  · exact ⟨⟨m1, m2, m3, m4, m5, m6, m7⟩, mc.trans hd.2⟩
  · exact ⟨⟨m1, m2, by show (-1 : Int) ≤ -1; decide, by show (-1 : Int) ≤ 9; decide, m5,
      le_refl _, m7⟩, mc.trans hd.2⟩
  · refine ⟨⟨m1, m2, ?_, ?_, m5, le_refl _, m7⟩, mc.trans hd.2⟩
    · show -1 ≤ m.2.rx_bit_index + 1
      omega
    · show m.2.rx_bit_index + 1 ≤ 9
      have : ¬ (m.2.rx_bit_index + 1 ≥ 10) := c4
      omega
  · exact ⟨⟨m1, m2, m3, m4, m5, m6, m7⟩, mc.trans hd.2⟩

theorem inv_sub64 {s : UARTBitDriver} (h : Inv s) :
    sub64 s.cycle_counter s.tx_bit_start_cycle = s.cycle_counter - s.tx_bit_start_cycle ∧
    sub64 s.cycle_counter s.rx_bit_start_cycle = s.cycle_counter - s.rx_bit_start_cycle := by
  obtain ⟨h1, h2, h3, h4, h5, h6, h7⟩ := h
  unfold sub64
  constructor <;> omega

theorem inv_calls : ∀ (cs : List Call) (s : UARTBitDriver), Inv s →
    s.cycle_counter + ticks cs < 2 ^ 64 →
    Inv (calls s cs) ∧ (calls s cs).cycle_counter = s.cycle_counter + ticks cs := by
  intro cs
  induction cs with
  | nil => intro s h _; exact ⟨h, rfl⟩
  | cons c cs ih =>
    intro s h hc
    cases c with
    | tick =>
      have ht : ticks (Call.tick :: cs) = ticks cs + 1 := rfl
      rw [ht] at hc ⊢
      obtain ⟨a1, a2⟩ := inv_tick h (by omega)
      obtain ⟨b1, b2⟩ := ih (tick s) a1 (by omega)
      exact ⟨b1, by
        show (calls (tick s) cs).cycle_counter = _
        omega⟩
    | start_tx byte =>
      have ht : ticks (Call.start_tx byte :: cs) = ticks cs := rfl
      rw [ht] at hc ⊢
      obtain ⟨a1, a2⟩ := inv_start_tx byte h
      obtain ⟨b1, b2⟩ := ih (start_tx s byte).2 a1 (by omega)
      exact ⟨b1, by
        show (calls (start_tx s byte).2 cs).cycle_counter = _
        omega⟩
    | get_tx_line =>
      have ht : ticks (Call.get_tx_line :: cs) = ticks cs := rfl
      rw [ht] at hc ⊢
      obtain ⟨a1, a2⟩ := inv_get_tx_line h
      obtain ⟨b1, b2⟩ := ih (get_tx_line s).2 a1 (by omega)
      exact ⟨b1, by
        show (calls (get_tx_line s).2 cs).cycle_counter = _
        omega⟩
    | sample_rx l o =>
      have ht : ticks (Call.sample_rx l o :: cs) = ticks cs := rfl
      rw [ht] at hc ⊢
      obtain ⟨a1, a2⟩ := inv_sample_rx l o h
      obtain ⟨b1, b2⟩ := ih (sample_rx s l o).2.2 a1 (by omega)
      exact ⟨b1, by
        show (calls (sample_rx s l o).2.2 cs).cycle_counter = _
        omega⟩

/-- C30: every state reached from the constructor by calls of `tick`,
`start_tx`, `get_tx_line` and `sample_rx` with fewer than `2^64` ticks has
`tx_bit_index` and `rx_bit_index` in `{-1, .., 9}` and
`tx_bit_start_cycle <= cycle_counter`, `rx_bit_start_cycle <= cycle_counter`,
so the two elapsed-cycle subtractions do not wrap; and each of the four
operations keeps these properties (for `tick`, as long as the counter stays
below `2^64`). -/
theorem C30_driver_invariant (clk_freq baud_rate tx_byte0 : Nat) (cs : List Call)
    (hc : ticks cs < 2 ^ 64) (c : Call)
    (hn : c = Call.tick → ticks cs + 1 < 2 ^ 64) :
    Inv (calls (init clk_freq baud_rate tx_byte0) cs) ∧
    (calls (init clk_freq baud_rate tx_byte0) cs).cycle_counter = ticks cs ∧
    sub64 (calls (init clk_freq baud_rate tx_byte0) cs).cycle_counter
        (calls (init clk_freq baud_rate tx_byte0) cs).tx_bit_start_cycle =
      (calls (init clk_freq baud_rate tx_byte0) cs).cycle_counter -
        (calls (init clk_freq baud_rate tx_byte0) cs).tx_bit_start_cycle ∧
    sub64 (calls (init clk_freq baud_rate tx_byte0) cs).cycle_counter
        (calls (init clk_freq baud_rate tx_byte0) cs).rx_bit_start_cycle =
      (calls (init clk_freq baud_rate tx_byte0) cs).cycle_counter -
        (calls (init clk_freq baud_rate tx_byte0) cs).rx_bit_start_cycle ∧
    Inv (call (calls (init clk_freq baud_rate tx_byte0) cs) c) := by
  obtain ⟨a1, a2⟩ := inv_calls cs (init clk_freq baud_rate tx_byte0)
    (inv_init clk_freq baud_rate tx_byte0) (by
      show 0 + ticks cs < 2 ^ 64
      omega)
  have a3 : (calls (init clk_freq baud_rate tx_byte0) cs).cycle_counter = ticks cs := by
    rw [a2]
    show 0 + ticks cs = ticks cs
    omega
  refine ⟨a1, a3, (inv_sub64 a1).1, (inv_sub64 a1).2, ?_⟩
  cases c with
  | tick => exact (inv_tick a1 (by rw [a3]; exact hn rfl)).1
  | start_tx byte => exact (inv_start_tx byte a1).1
  | get_tx_line => exact (inv_get_tx_line a1).1
  | sample_rx l o => exact (inv_sample_rx l o a1).1

/-- Witness of C30: a byte is started, the line is polled and sampled over two
cycles. -/
theorem C30_driver_invariant_witness :
    Inv (calls (init 50000000 115200 0)
      [Call.start_tx 65, Call.get_tx_line, Call.sample_rx false 0, Call.tick,
        Call.get_tx_line, Call.sample_rx false 0, Call.tick]) :=
  (C30_driver_invariant 50000000 115200 0
    [Call.start_tx 65, Call.get_tx_line, Call.sample_rx false 0, Call.tick,
      Call.get_tx_line, Call.sample_rx false 0, Call.tick]
    (by decide) Call.tick (fun _ => by decide)).1

end UARTBitDriver

namespace UARTBitDriver

theorem rx_one_start {t : UARTBitDriver} (o : Nat) (hc : t.cycles_per_bit = 1)
    (hi : t.rx_bit_index = -1) (hp : t.rx_line_prev = true) :
    sample_rx t false o =
      (false, o, { t with rx_bit_index := 0
                          rx_bit_start_cycle := t.cycle_counter
                          rx_byte := 0
                          rx_line_prev := false }) ∧
    rx_framing_error t false = false := by
  constructor
  · simp [sample_rx, rx_detect, rx_midpoint, hi, hp, hc, sub64_self]
  · simp [rx_framing_error, rx_detect, rx_midpoint, hi, hp, hc, sub64_self]

theorem rx_one_idle {t : UARTBitDriver} (l : Bool) (o : Nat)
    (hi : t.rx_bit_index = -1) (hne : ¬ (t.rx_line_prev = true ∧ l = false)) :
    sample_rx t l o = (false, o, { t with rx_line_prev := l }) ∧
    rx_framing_error t l = false := by
  constructor
  · simp [sample_rx, rx_detect, hi, hne]
  · simp [rx_framing_error, rx_detect, hi, hne]

theorem rx_one_bit {t : UARTBitDriver} (l : Bool) (o : Nat) (hc : t.cycles_per_bit = 1)
    (h0 : 0 ≤ t.rx_bit_index) (h9 : t.rx_bit_index ≤ 9)
    (hel : sub64 t.cycle_counter t.rx_bit_start_cycle = 1) :
    sample_rx t l o =
      (if t.rx_bit_index + 1 ≥ 10 then
        (true, t.rx_byte, { t with rx_bit_index := -1
                                   rx_bit_start_cycle := t.cycle_counter
                                   rx_line_prev := l })
      else
        (false, o, { t with rx_bit_index := t.rx_bit_index + 1
                            rx_bit_start_cycle := t.cycle_counter
                            rx_line_prev := l })) ∧
    rx_framing_error t l = false := by
  have hne : t.rx_bit_index ≠ -1 := by omega
  constructor
  · simp [sample_rx, rx_detect, rx_midpoint, hne, hc, hel]
  · simp [rx_framing_error, rx_detect, rx_midpoint, hne, hc, hel]

end UARTBitDriver

namespace UARTBitDriver

theorem rx_one_pre {s t : UARTBitDriver} (h : RxOne s) (hs : rxSame t (tick s)) : RxOnePre t := by
  obtain ⟨h1, h2, h3⟩ := h
  obtain ⟨s1, s2, s3, s4, s5, s6⟩ := hs
  have e1 : t.cycle_counter = inc64 s.cycle_counter := s1
  have e2 : t.cycles_per_bit = s.cycles_per_bit := s2
  have e3 : t.rx_bit_index = s.rx_bit_index := s3
  have e4 : t.rx_bit_start_cycle = s.rx_bit_start_cycle := s4
  have e5 : t.rx_byte = s.rx_byte := s5
  refine ⟨e2.trans h1, by rw [e1]; exact inc64_lt _, ?_⟩
  rcases h3 with h3 | ⟨a, b, c, d⟩
  · exact Or.inl (e3.trans h3)
  · refine Or.inr ⟨by omega, by omega, ?_, e5.trans d⟩
    rw [e1, e4, c]
    unfold sub64 inc64
    omega

theorem rx_one_step {t : UARTBitDriver} (l : Bool) (o : Nat) (h : RxOnePre t) :
    RxOne (sample_rx t l o).2.2 ∧
    ((sample_rx t l o).1 = true → (sample_rx t l o).2.1 = 0) ∧
    rx_framing_error t l = false := by
  obtain ⟨h1, h2, h3⟩ := h
  rcases h3 with hi | ⟨a, b, c, d⟩
  · by_cases he : t.rx_line_prev = true ∧ l = false
    · obtain ⟨hp, hl⟩ := he
      subst hl
      obtain ⟨e, f⟩ := rx_one_start o h1 hi hp
      rw [e]
      refine ⟨⟨h1, h2, Or.inr ⟨?_, ?_, rfl, rfl⟩⟩, fun hh => absurd hh (by simp), f⟩
      · show (0 : Int) ≤ 0
        decide
      · show (0 : Int) ≤ 9
        decide
    · obtain ⟨e, f⟩ := rx_one_idle l o hi he
      rw [e]
      exact ⟨⟨h1, h2, Or.inl hi⟩, fun hh => absurd hh (by simp), f⟩
  · obtain ⟨e, f⟩ := rx_one_bit l o h1 a b c
    rw [e]
    by_cases h10 : t.rx_bit_index + 1 ≥ 10
    · rw [if_pos h10]
      exact ⟨⟨h1, h2, Or.inl rfl⟩, fun _ => d, f⟩
    · rw [if_neg h10]
      refine ⟨⟨h1, h2, Or.inr ⟨?_, ?_, rfl, d⟩⟩, fun hh => absurd hh (by simp), f⟩
      · show 0 ≤ t.rx_bit_index + 1
        omega
      · show t.rx_bit_index + 1 ≤ 9
        omega

theorem tick_rxSame (s : UARTBitDriver) : rxSame (tick s) (tick s) :=
  ⟨rfl, rfl, rfl, rfl, rfl, rfl⟩

/-- The frame a receiver with `cycles_per_bit = 1` starts on a falling edge:
call `k` (for `k <= 9`) returns false and leaves the receiver at bit `k` with
no data bit set. -/
theorem rx_one_frame {t : UARTBitDriver} (line : Nat → Bool) (out : Nat)
    (hc : t.cycles_per_bit = 1) (hi : t.rx_bit_index = -1) (hp : t.rx_line_prev = true)
    (hcc : t.cycle_counter < 2 ^ 64) (hl : line 0 = false) :
    ∀ k, k ≤ 9 →
      (rx_run t line out k).1 = false ∧ (rx_run t line out k).2.1 = out ∧
      (rx_run t line out k).2.2.rx_bit_index = (k : Int) ∧
      (rx_run t line out k).2.2.rx_byte = 0 ∧ RxOne (rx_run t line out k).2.2 := by
  intro k
  induction k with
  | zero =>
    intro _
    have h0 : rx_run t line out 0 = sample_rx t (line 0) out := rfl
    rw [h0, hl, (rx_one_start out hc hi hp).1]
    refine ⟨rfl, rfl, rfl, rfl, hc, hcc, Or.inr ⟨?_, ?_, rfl, rfl⟩⟩
    · show (0 : Int) ≤ 0
      decide
    · show (0 : Int) ≤ 9
      decide
  | succ k ih =>
    intro hk
    obtain ⟨i1, i2, i3, i4, i5⟩ := ih (by omega)
    have hpre := rx_one_pre i5 (tick_rxSame _)
    obtain ⟨p1, p2, p3⟩ := hpre
    have hidx : (tick (rx_run t line out k).2.2).rx_bit_index = (k : Int) := i3
    have hel : sub64 (tick (rx_run t line out k).2.2).cycle_counter
        (tick (rx_run t line out k).2.2).rx_bit_start_cycle = 1 := by
      rcases p3 with p3 | ⟨_, _, c, _⟩
      · rw [hidx] at p3; omega
      · exact c
    have hb : (tick (rx_run t line out k).2.2).rx_byte = 0 := i4
    obtain ⟨e, _⟩ := rx_one_bit (line (k + 1)) (rx_run t line out k).2.1 p1
      (by rw [hidx]; omega) (by rw [hidx]; omega) hel
    have hstep : rx_run t line out (k + 1) =
        sample_rx (tick (rx_run t line out k).2.2) (line (k + 1)) (rx_run t line out k).2.1 := rfl
    rw [hstep, e, if_neg (by rw [hidx]; omega)]
    refine ⟨rfl, i2, ?_, hb, p1, p2, Or.inr ⟨?_, ?_, rfl, hb⟩⟩
    · show (tick (rx_run t line out k).2.2).rx_bit_index + 1 = ((k + 1 : Nat) : Int)
      rw [hidx]
      omega
    · show 0 ≤ (tick (rx_run t line out k).2.2).rx_bit_index + 1
      rw [hidx]; omega
    · show (tick (rx_run t line out k).2.2).rx_bit_index + 1 ≤ 9
      rw [hidx]; omega

end UARTBitDriver

namespace Loopback

open UARTBitDriver

theorem finish_one (d2 : UARTBitDriver) (pend : List Nat) (L : Loopback)
    (h : RxOne L.drv) (hs : rxSame d2 (tick L.drv)) (hz : ∀ x ∈ L.received, x = 0) :
    RxOne (finish d2 pend L).drv ∧ (∀ x ∈ (finish d2 pend L).received, x = 0) ∧
    (finish d2 pend L).framing_errors = L.framing_errors := by
  have hpre := rx_one_pre h ((get_tx_line_rxSame d2).trans hs)
  obtain ⟨a1, a2, a3⟩ := rx_one_step (get_tx_line d2).1 0 hpre
  refine ⟨a1, ?_, ?_⟩
  · intro x hx
    have hx2 : x ∈ (if (sample_rx (get_tx_line d2).2 (get_tx_line d2).1 0).1 then
        L.received ++ [(sample_rx (get_tx_line d2).2 (get_tx_line d2).1 0).2.1]
        else L.received) := hx
    split_ifs at hx2 with hf
    · rcases List.mem_append.1 hx2 with h1 | h1
      · exact hz x h1
      · simp only [List.mem_singleton] at h1
        rw [h1]
        exact a2 hf
    · exact hz x hx2
  · show (if rx_framing_error (get_tx_line d2).2 (get_tx_line d2).1 then L.framing_errors + 1
      else L.framing_errors) = L.framing_errors
    rw [a3]
    rfl

theorem loop_cycle_one (L : Loopback) (h : RxOne L.drv) (hz : ∀ x ∈ L.received, x = 0) :
    RxOne (loop_cycle L).drv ∧ (∀ x ∈ (loop_cycle L).received, x = 0) ∧
    (loop_cycle L).framing_errors = L.framing_errors := by
  unfold loop_cycle
  cases hp : L.pending with
  | nil => exact finish_one _ [] L h (tick_rxSame _) hz
  | cons b rest =>
    dsimp only
    split_ifs
    · exact finish_one _ rest L h (start_tx_rxSame _ b) hz
    · exact finish_one _ (b :: rest) L h (tick_rxSame _) hz

theorem loop_run_one (L : Loopback) (h : RxOne L.drv) (hz : ∀ x ∈ L.received, x = 0) :
    ∀ n, RxOne (loop_run L n).drv ∧ (∀ x ∈ (loop_run L n).received, x = 0) ∧
      (loop_run L n).framing_errors = L.framing_errors := by
  intro n
  induction n with
  | zero => exact ⟨h, hz, rfl⟩
  | succ n ih =>
    obtain ⟨i1, i2, i3⟩ := ih
    obtain ⟨j1, j2, j3⟩ := loop_cycle_one (loop_run L n) i1 i2
    exact ⟨j1, j2, j3.trans i3⟩

end Loopback

namespace UARTBitDriver

/-- C28: with `cycles_per_bit = 1` and `sample_rx` called once per cycle, a
frame that starts on a falling edge (call 0) returns false on calls 0 to 9,
sets no data bit and reports no framing error whatever levels the line
carries, and on call 10 emits the byte 0 and goes back to idle; in the
loopback every byte received is 0, so a non-zero byte sent is never among the
bytes received. -/
theorem C28_one_cycle_per_bit (t : UARTBitDriver) (line : Nat → Bool) (out : Nat)
    (hc : t.cycles_per_bit = 1) (hi : t.rx_bit_index = -1) (hp : t.rx_line_prev = true)
    (hcc : t.cycle_counter < 2 ^ 64) (hl : line 0 = false) :
    (∀ k, k < 10 → (rx_run t line out k).1 = false) ∧
    (rx_run t line out 10).1 = true ∧ (rx_run t line out 10).2.1 = 0 ∧
    (rx_run t line out 10).2.2.rx_bit_index = -1 ∧
    (∀ k, k ≤ 10 → (rx_run t line out k).2.2.rx_byte = 0) ∧
    (∀ k, k < 10 →
      rx_framing_error (tick (rx_run t line out k).2.2) (line (k + 1)) = false) ∧
    (∀ (bs : List Nat) (n v : Nat), v ≠ 0 →
      v ∉ (Loopback.loop_run (Loopback.start t bs) n).received) := by
  have hf := rx_one_frame line out hc hi hp hcc hl
  obtain ⟨i1, i2, i3, i4, i5⟩ := hf 9 (le_refl _)
  obtain ⟨p1, p2, p3⟩ := rx_one_pre i5 (tick_rxSame _)
  have hidx : (tick (rx_run t line out 9).2.2).rx_bit_index = 9 := i3
  have hel : sub64 (tick (rx_run t line out 9).2.2).cycle_counter
      (tick (rx_run t line out 9).2.2).rx_bit_start_cycle = 1 := by
    rcases p3 with p3 | ⟨_, _, c, _⟩
    · rw [hidx] at p3; omega
    · exact c
  have hb : (tick (rx_run t line out 9).2.2).rx_byte = 0 := i4
  obtain ⟨e, _⟩ := rx_one_bit (line (9 + 1)) (rx_run t line out 9).2.1 p1
    (by rw [hidx]; decide) (by rw [hidx]) hel
  have hstep : rx_run t line out 10 =
      sample_rx (tick (rx_run t line out 9).2.2) (line (9 + 1)) (rx_run t line out 9).2.1 := rfl
  rw [if_pos (by rw [hidx]; decide)] at e
  refine ⟨fun k hk => (hf k (by omega)).1, ?_, ?_, ?_, ?_, ?_, ?_⟩
  · rw [hstep, e]
  · rw [hstep, e]
    exact hb
  · rw [hstep, e]
  · intro k hk
    by_cases h10 : k = 10
    · rw [h10, hstep, e]
      exact hb
    · exact (hf k (by omega)).2.2.2.1
  · intro k hk
    obtain ⟨_, _, _, _, j5⟩ := hf k (by omega)
    exact (rx_one_step (line (k + 1)) (rx_run t line out k).2.1
      (rx_one_pre j5 (tick_rxSame _))).2.2
  · intro bs n v hv hmem
    have hL : RxOne (Loopback.start t bs).drv := ⟨hc, hcc, Or.inl hi⟩
    exact hv ((Loopback.loop_run_one (Loopback.start t bs) hL (by
      intro x hx
      exact absurd hx (List.not_mem_nil x)) n).2.1 v hmem)

/-- Witness of C28: the driver built with `clk_freq = baud_rate = 1` on a line
that stays low emits 0 on call 10. -/
theorem C28_one_cycle_per_bit_witness :
    (rx_run (init 1 1 0) (fun _ => false) 7 10).1 = true ∧
    (rx_run (init 1 1 0) (fun _ => false) 7 10).2.1 = 0 :=
  ⟨(C28_one_cycle_per_bit (init 1 1 0) (fun _ => false) 7 (by decide) (by decide) (by decide)
      (by decide) rfl).2.1,
   (C28_one_cycle_per_bit (init 1 1 0) (fun _ => false) 7 (by decide) (by decide) (by decide)
      (by decide) rfl).2.2.1⟩

end UARTBitDriver

namespace Fifo

/-- C29: in every queue state reached from the empty queue by enqueues and
dequeues the queue holds at most 255 bytes; it holds 255 exactly when
`(tail + 1) mod 256 = head`, and then every further run of enqueues leaves
head, tail and contents unchanged; so from the empty queue exactly the first
255 bytes of any run of enqueues are retained, in order. -/
theorem C29_capacity_255 (arr : Nat → Nat) (ops : List Op) (bs : List Nat) :
    (drain 256 (run arr ops).q).length ≤ 255 ∧
    (∀ fuel, 256 ≤ fuel → drain fuel (run arr ops).q = drain 256 (run arr ops).q) ∧
    ((drain 256 (run arr ops).q).length = 255 ↔
      ((run arr ops).q.rx_fifo_tail + 1) % 256 = (run arr ops).q.rx_fifo_head) ∧
    (((run arr ops).q.rx_fifo_tail + 1) % 256 = (run arr ops).q.rx_fifo_head →
      enqueue_all bs (run arr ops).q = (run arr ops).q) ∧
    drain 256 (enqueue_all bs (empty arr)) = bs.take 255 := by
  obtain ⟨l, hl, _⟩ := run_inv ops ⟨empty arr, [], []⟩ ⟨[], holds_empty arr, rfl⟩
  have hq : ∃ q, q = (run arr ops).q ∧ Holds q l := ⟨_, rfl, hl⟩
  obtain ⟨q, hqe, hq⟩ := hq
  rw [← hqe]
  have hlen : l.length < 256 := hq.1
  have hd : drain 256 q = l := drain_holds l q 256 hq (by omega)
  have hfull : l.length = 255 ↔ (q.rx_fifo_tail + 1) % 256 = q.rx_fifo_head := by
    obtain ⟨_, h2, h3, _⟩ := hq
    constructor <;> intro h <;> omega
  refine ⟨by rw [hd]; omega, ?_, by rw [hd]; exact hfull, ?_, ?_⟩
  · intro fuel hf
    rw [hd]
    exact drain_holds l q fuel hq (by omega)
  · intro h
    exact enqueue_all_full bs q l hq (hfull.2 h)
  · have h1 := enqueue_all_holds bs (empty arr) [] (holds_empty arr) (by simp)
    simp only [List.nil_append] at h1
    exact drain_holds _ _ 256 h1 (by
      rw [List.length_take]
      omega)

/-- Witness of C29: of the bytes `0, 1, .., 255, 0, .., 43` offered to the
empty queue the first 255 are retained. -/
theorem C29_capacity_255_witness :
    drain 256 (enqueue_all ((List.range 300).map (fun i => i % 256)) (empty (fun _ => 0))) =
      ((List.range 300).map (fun i => i % 256)).take 255 :=
  (C29_capacity_255 (fun _ => 0) [] ((List.range 300).map (fun i => i % 256))).2.2.2.2

end Fifo

namespace Sim

variable {D : Type}

theorem body_clock_split (eval : Vtop D → Vtop D) (s : Sim D) :
    body_clock eval s = body_high eval (body_low eval (body_drive s)) := rfl

theorem loop_body_steps (eval : Vtop D → Vtop D) (par_txrx : Bool) (h : Host) (s : Sim D) :
    loop_body eval par_txrx h s =
      if (body_read h (body_tick s)).2 then ((body_read h (body_tick s)).1, true)
      else (run_steps (body_rest eval par_txrx h) (body_read h (body_tick s)).1, false) := rfl

theorem oblivious_tick : Oblivious (body_tick : Sim D → Sim D) := fun _ _ => rfl

theorem oblivious_feed (par_txrx : Bool) : Oblivious (body_feed par_txrx : Sim D → Sim D) := by
  intro x s
  unfold body_feed set_ebreak
  dsimp only
  split_ifs <;> rfl

theorem oblivious_drive : Oblivious (body_drive : Sim D → Sim D) := fun _ _ => rfl

theorem oblivious_low (eval : Vtop D → Vtop D) : Oblivious (body_low eval) := fun _ _ => rfl

theorem oblivious_high (eval : Vtop D → Vtop D) : Oblivious (body_high eval) := fun _ _ => rfl

theorem oblivious_sample (par_txrx : Bool) (h : Host) :
    Oblivious (body_sample par_txrx h : Sim D → Sim D) := by
  intro x s
  unfold body_sample set_ebreak
  dsimp only
  split_ifs <;> rfl

theorem oblivious_count : Oblivious (body_count : Sim D → Sim D) := fun _ _ => rfl

theorem body_read_set (h : Host) (x : Nat) (s : Sim D) :
    body_read h (set_ebreak x s) = (set_ebreak x (body_read h s).1, (body_read h s).2) := by
  unfold body_read set_ebreak
  split_ifs <;> rfl

theorem oblivious_rest (eval : Vtop D → Vtop D) (par_txrx : Bool) (h : Host) :
    ∀ f ∈ body_rest eval par_txrx h, Oblivious f := by
  intro f hf
  simp only [body_rest, List.mem_cons, List.mem_singleton, List.not_mem_nil, or_false] at hf
  rcases hf with rfl | rfl | rfl | rfl | rfl | rfl
  · exact oblivious_feed par_txrx
  · exact oblivious_drive
  · exact oblivious_low eval
  · exact oblivious_high eval
  · exact oblivious_sample par_txrx h
  · exact oblivious_count

theorem run_steps_set : ∀ (fs : List (Sim D → Sim D)), (∀ f ∈ fs, Oblivious f) →
    ∀ x s, run_steps fs (set_ebreak x s) = set_ebreak x (run_steps fs s) := by
  intro fs
  induction fs with
  | nil => intro _ x s; rfl
  | cons f fs ih =>
    intro hf x s
    show run_steps fs (f (set_ebreak x s)) = set_ebreak x (run_steps fs (f s))
    rw [hf f (List.mem_cons_self _ _) x s]
    exact ih (fun g hg => hf g (List.mem_cons_of_mem _ hg)) x (f s)

theorem monitor_body_set (s : Sim D) :
    ∃ e, (e = s.ebreak_hit ∨ e = 1) ∧ (monitor_body s).1 = set_ebreak e s := by
  unfold monitor_body
  split_ifs
  · exact ⟨1, Or.inr rfl, rfl⟩
  · exact ⟨s.ebreak_hit, Or.inl rfl, rfl⟩

theorem run_steps_ebreak (fs : List (Sim D → Sim D)) (hf : ∀ f ∈ fs, Oblivious f) (s : Sim D) :
    (run_steps fs s).ebreak_hit = s.ebreak_hit := by
  have h := run_steps_set fs hf s.ebreak_hit s
  have e : set_ebreak s.ebreak_hit s = s := rfl
  rw [e] at h
  have h2 := congrArg Sim.ebreak_hit h
  exact h2

theorem steps_monitor_set : ∀ (fs : List (Sim D → Sim D)), (∀ f ∈ fs, Oblivious f) →
    ∀ (k : Nat) (s : Sim D),
    ∃ e, (e = s.ebreak_hit ∨ e = 1) ∧ steps_monitor fs k s = set_ebreak e (run_steps fs s) := by
  intro fs
  induction fs with
  | nil =>
    intro _ k s
    exact monitor_body_set s
  | cons f fs ih =>
    intro hf k s
    have hfo := hf f (List.mem_cons_self _ _)
    have hfs : ∀ g ∈ fs, Oblivious g := fun g hg => hf g (List.mem_cons_of_mem _ hg)
    cases k with
    | zero =>
      obtain ⟨e, he, hm⟩ := monitor_body_set s
      refine ⟨e, he, ?_⟩
      show run_steps fs (f (monitor_body s).1) = set_ebreak e (run_steps fs (f s))
      rw [hm, hfo e s, run_steps_set fs hfs]
    | succ k =>
      obtain ⟨e, he, hm⟩ := ih hfs k (f s)
      refine ⟨e, ?_, hm⟩
      have hp : (f s).ebreak_hit = s.ebreak_hit := by
        have h := hfo s.ebreak_hit s
        have e2 : set_ebreak s.ebreak_hit s = s := rfl
        rw [e2] at h
        have h3 := congrArg Sim.ebreak_hit h
        exact h3
      rw [← hp]
      exact he

theorem loop_body_set (eval : Vtop D → Vtop D) (par_txrx : Bool) (h : Host) (x : Nat)
    (s : Sim D) :
    loop_body eval par_txrx h (set_ebreak x s) =
      (set_ebreak x (loop_body eval par_txrx h s).1, (loop_body eval par_txrx h s).2) := by
  rw [loop_body_steps, loop_body_steps, oblivious_tick x s, body_read_set]
  dsimp only
  split_ifs
  · rfl
  · rw [run_steps_set _ (oblivious_rest eval par_txrx h)]

/-- The body of the control loop with the monitor body run at any point `k`
leaves the state the body alone leaves, up to the value of `ebreak_hit`, which
is the one before the iteration or 1. -/
theorem loop_body_monitor_set (eval : Vtop D → Vtop D) (par_txrx : Bool) (h : Host) (k : Nat)
    (s : Sim D) :
    ∃ e, (e = s.ebreak_hit ∨ e = 1) ∧
      loop_body_monitor eval par_txrx h k s =
        (set_ebreak e (loop_body eval par_txrx h s).1, (loop_body eval par_txrx h s).2) := by
  match k with
  | 0 =>
    obtain ⟨e, he, hm⟩ := monitor_body_set s
    refine ⟨e, he, ?_⟩
    show loop_body eval par_txrx h (monitor_body s).1 = _
    rw [hm, loop_body_set]
  | 1 =>
    obtain ⟨e, he, hm⟩ := monitor_body_set (body_tick s)
    refine ⟨e, he, ?_⟩
    show (if (body_read h (monitor_body (body_tick s)).1).2 then
        ((body_read h (monitor_body (body_tick s)).1).1, true)
      else (run_steps (body_rest eval par_txrx h)
        (body_read h (monitor_body (body_tick s)).1).1, false)) = _
    rw [hm, body_read_set, loop_body_steps]
    dsimp only
    split_ifs
    · rfl
    · rw [run_steps_set _ (oblivious_rest eval par_txrx h)]
  | k + 2 =>
    have hr : (body_read h (body_tick s)).1.ebreak_hit = s.ebreak_hit := by
      have h1 := body_read_set h s.ebreak_hit (body_tick s)
      have e2 : set_ebreak s.ebreak_hit (body_tick s) = body_tick s := rfl
      rw [e2] at h1
      have h2 := congrArg (fun r => r.1.ebreak_hit) h1
      exact h2
    by_cases hb : (body_read h (body_tick s)).2 = true
    · obtain ⟨e, he, hm⟩ := monitor_body_set (body_read h (body_tick s)).1
      rw [hr] at he
      refine ⟨e, he, ?_⟩
      have e1 : loop_body_monitor eval par_txrx h (k + 2) s =
          ((monitor_body (body_read h (body_tick s)).1).1, true) := by
        show (if (body_read h (body_tick s)).2 then _ else _) = _
        rw [if_pos hb]
      rw [e1, hm, loop_body_steps, if_pos hb]
    · obtain ⟨e, he, hm⟩ := steps_monitor_set (body_rest eval par_txrx h)
        (oblivious_rest eval par_txrx h) k (body_read h (body_tick s)).1
      rw [hr] at he
      refine ⟨e, he, ?_⟩
      have e1 : loop_body_monitor eval par_txrx h (k + 2) s =
          (steps_monitor (body_rest eval par_txrx h) k (body_read h (body_tick s)).1, false) := by
        show (if (body_read h (body_tick s)).2 then _ else _) = _
        rw [if_neg hb]
      rw [e1, hm, loop_body_steps, if_neg hb]

theorem control_iteration_raised (eval : Vtop D → Vtop D) (par_txrx : Bool) (h : Host)
    (s : Sim D) (hr : s.ebreak_hit = 1) : control_iteration eval par_txrx h s = (s, false) := by
  unfold control_iteration
  have hc : loop_cond h s = false := by
    unfold loop_cond
    rw [hr]
    simp
  rw [hc]
  rfl

/-- C21: when the body of the monitor thread runs at any point `k` of an
iteration of the control loop, the iteration leaves the same `break` decision,
the same cycle counter, the same hardware model (its memories included) and
the same value of every other variable as without the monitor; only
`ebreak_hit` may differ, and it is then 1.  Once `ebreak_hit` is 1 at the end
of that iteration, the next test of the loop condition leaves the loop with
the state unchanged, whatever the host input: no further iteration runs. -/
theorem C21_monitor_raise (eval : Vtop D → Vtop D) (par_txrx : Bool) (h : Host) (k : Nat)
    (s : Sim D) :
    (loop_body_monitor eval par_txrx h k s).2 = (loop_body eval par_txrx h s).2 ∧
    (loop_body_monitor eval par_txrx h k s).1.cycle = (loop_body eval par_txrx h s).1.cycle ∧
    (loop_body_monitor eval par_txrx h k s).1.dut = (loop_body eval par_txrx h s).1.dut ∧
    set_ebreak 0 (loop_body_monitor eval par_txrx h k s).1 =
      set_ebreak 0 (loop_body eval par_txrx h s).1 ∧
    ((loop_body_monitor eval par_txrx h k s).1.ebreak_hit = s.ebreak_hit ∨
      (loop_body_monitor eval par_txrx h k s).1.ebreak_hit = 1) ∧
    (loop_body eval par_txrx h s).1.ebreak_hit = s.ebreak_hit ∧
    (∀ h2, (loop_body_monitor eval par_txrx h k s).1.ebreak_hit = 1 →
      control_iteration eval par_txrx h2 (loop_body_monitor eval par_txrx h k s).1 =
        ((loop_body_monitor eval par_txrx h k s).1, false)) := by
  obtain ⟨e, he, hm⟩ := loop_body_monitor_set eval par_txrx h k s
  have ho : (loop_body eval par_txrx h s).1.ebreak_hit = s.ebreak_hit := by
    have h1 := loop_body_set eval par_txrx h s.ebreak_hit s
    have e2 : set_ebreak s.ebreak_hit s = s := rfl
    rw [e2] at h1
    have h3 := congrArg (fun r => r.1.ebreak_hit) h1
    exact h3
  refine ⟨by rw [hm], by rw [hm]; rfl, by rw [hm]; rfl, by rw [hm]; rfl, ?_, ho, ?_⟩
  · rw [hm]
    exact he
  · intro h2 hr
    exact control_iteration_raised eval par_txrx h2 _ hr

/-- Witness of C21: the model reports a break, the monitor sees it between the
two clock edges of the first iteration; the cycle counter is 1 as without the
monitor and the next iteration does not run. -/
theorem C21_monitor_raise_witness :
    (loop_body_monitor id true ⟨false, 0, 0, 0⟩ 5
      (start (⟨0, 1, true, 0, 0, false, false, 0, true, true, ()⟩ : Vtop Unit)
        (fun _ => 0) 0)).1.cycle =
    (loop_body id true ⟨false, 0, 0, 0⟩
      (start (⟨0, 1, true, 0, 0, false, false, 0, true, true, ()⟩ : Vtop Unit)
        (fun _ => 0) 0)).1.cycle :=
  (C21_monitor_raise id true ⟨false, 0, 0, 0⟩ 5
    (start (⟨0, 1, true, 0, 0, false, false, 0, true, true, ()⟩ : Vtop Unit) (fun _ => 0) 0)).2.1

end Sim
